import Mathlib

/-! Ecosystem observability collector: aggregation and crawl.

A shallow embedding of `ecosystem-observability/collector/enhanced-collector.js`
(class `EcosystemCollector`) and of
`ecosystem-observability/collector/data-storage.js` (class `DataStorage`), and
theorems about them. The definitions come first, collector then storage; the
lemmas and the theorems on the claims follow.

Conventions of the embedding

* JavaScript numbers that hold counts are integers (`Int`); a field that is
  `undefined` or absent on a record is `none`.
* A plain object used as a dictionary (`languageDistribution`, `byLanguage`)
  is the list of its own properties in insertion order. A read of such an
  object also finds the members it inherits from `Object.prototype`. Property
  names are no array indices, which an object would list first.
* A remote call is a function from the request to its outcome: either a
  response or a transport error.
-/

namespace EcosystemCollector

/-! ## Data model -/

/-- One repository record, as built by `fetchRepositoryMetrics` and extended
with the release information in `collectTopicRepositories`. Every field may be
absent, as in the records the unit tests pass to the aggregator. -/
structure RepositoryMetric where
  repository : Option String := none
  name : Option String := none
  fullName : Option String := none
  description : Option String := none
  language : Option String := none
  topics : List String := []
  stars : Option Int := none
  forks : Option Int := none
  watchers : Option Int := none
  openIssues : Option Int := none
  openPRs : Option Int := none
  contributors : Option Int := none
  createdAt : Option String := none
  updatedAt : Option String := none
  pushedAt : Option String := none
  defaultBranch : Option String := none
  license : Option String := none
  archived : Option Bool := none
  disabled : Option Bool := none
  hasWiki : Option Bool := none
  hasPages : Option Bool := none
  size : Option Int := none
  hasReleases : Option Bool := none
  latestRelease : Option String := none
  latestReleaseDate : Option String := none
  deriving DecidableEq, Repr

/-- The own properties of a plain object, in insertion order. -/
abbrev JSObject (α : Type) := List (String × α)

/-- The own property of an object: its value, `none` when the object has no
own property of that name. It is the read `o[k]` for every name that
`Object.prototype` does not have. -/
def JSObject.get {α : Type} : JSObject α → String → Option α
  | [], _ => none
  | (k', v) :: o, k => if k' = k then some v else JSObject.get o k

/-- Define the own property `k` with the value `v`: overwrite in place, or
append a new property. It is the write `o[k] = v` for every name other than
`__proto__`. -/
def JSObject.set {α : Type} : JSObject α → String → α → JSObject α
  | [], k, v => [(k, v)]
  | (k', v') :: o, k, v => if k' = k then (k', v) :: o else (k', v') :: JSObject.set o k v

/-- The property names, as enumerated by `for (const k in o)`: the members of
`Object.prototype` are not enumerable. -/
def JSObject.keys {α : Type} (o : JSObject α) : List String := o.map Prod.fst

/-- The property values. -/
def JSObject.values {α : Type} (o : JSObject α) : List α := o.map Prod.snd

/-- The names of the members that an object created by `{}` inherits from
`Object.prototype`. -/
def objectPrototypeNames : List String :=
  ["constructor", "__defineGetter__", "__defineSetter__", "hasOwnProperty",
   "__lookupGetter__", "__lookupSetter__", "isPrototypeOf", "propertyIsEnumerable",
   "toString", "valueOf", "__proto__", "toLocaleString"]

/-- What the property read `o[k]` finds on an object created by `{}`: the own
property, else the member inherited from `Object.prototype`, which is a
function or, for `__proto__`, the prototype object, else `undefined`. -/
inductive PropertyRead (α : Type) where
  | own (value : α)
  | inherited
  | undefined
  deriving DecidableEq, Repr

/-- The property read `o[k]` on an object created by `{}`. -/
def JSObject.read {α : Type} (o : JSObject α) (k : String) : PropertyRead α :=
  match JSObject.get o k with
  | some v => .own v
  | none => if k ∈ objectPrototypeNames then .inherited else .undefined

/-- The property write `o[k] = v` of a primitive value on an object created by
`{}`: the setter that `Object.prototype` has for `__proto__` ignores a
primitive value, and every other name gets an own property. -/
def JSObject.assign {α : Type} (o : JSObject α) (k : String) (v : α) : JSObject α :=
  if k = "__proto__" then o else JSObject.set o k v

/-- The string that the member of `Object.prototype` of the given name
converts to: the source text of a built-in function, and `[object Object]` for
the prototype object. -/
def inheritedText (k : String) : String :=
  if k = "__proto__" then "[object Object]"
  else if k = "constructor" then "function Object() \x7b [native code] \x7d"
  else "function " ++ k ++ "() \x7b [native code] \x7d"

/-- The expression `x || 0` on a numeric field: `undefined` and `0` are falsy. -/
def orZero : Option Int → Int
  | some n => if n ≠ 0 then n else 0
  | none => 0

/-- Truthiness of a boolean flag that may be absent. -/
def truthy : Option Bool → Bool
  | some b => b
  | none => false

/-- The expression `repo.language || 'Unknown'`: `null`, `undefined` and the
empty string are falsy. -/
def languageOrUnknown (repo : RepositoryMetric) : String :=
  match repo.language with
  | some s => if s ≠ "" then s else "Unknown"
  | none => "Unknown"

/-! ## Aggregator: `calculateAggregateStats` -/

/-- A value of `languageDistribution`: a number, or the string that `+ 1`
makes of a value that is no number. -/
inductive Counter where
  | number (n : Nat)
  | text (s : String)
  deriving DecidableEq, Repr

/-- The expression `(languageDistribution[lang] || 0) + 1`, from what the read
finds: `undefined` and `0` give way to `0`, a number is raised by one, and
`+ 1` appends `1` to a string and to the string of an inherited member. -/
def bumpCounter (lang : String) : PropertyRead Counter → Counter
  | .undefined => .number 1
  | .own (.number n) => .number ((if n ≠ 0 then n else 0) + 1)
  | .own (.text s) => if s ≠ "" then .text (s ++ "1") else .number 1
  | .inherited => .text (inheritedText lang ++ "1")

/-- The statement
`languageDistribution[lang] = (languageDistribution[lang] || 0) + 1`. -/
def countLanguage (languageDistribution : JSObject Counter) (lang : String) : JSObject Counter :=
  JSObject.assign languageDistribution lang
    (bumpCounter lang (JSObject.read languageDistribution lang))

/-- The statistics record returned by `calculateAggregateStats`. -/
structure AggregateStats where
  totalRepositories : Nat
  totalStars : Int
  totalForks : Int
  totalContributors : Int
  totalOpenIssues : Int
  totalOpenPRs : Int
  languageDistribution : JSObject Counter
  repositoriesWithReleases : Nat
  archivedRepositories : Nat
  deriving DecidableEq, Repr

/-- The body of the `for (const repo of repositories)` loop. -/
def accumulate (stats : AggregateStats) (repo : RepositoryMetric) : AggregateStats :=
  let lang := languageOrUnknown repo
  { stats with
    totalStars := stats.totalStars + orZero repo.stars
    totalForks := stats.totalForks + orZero repo.forks
    totalContributors := stats.totalContributors + orZero repo.contributors
    totalOpenIssues := stats.totalOpenIssues + orZero repo.openIssues
    totalOpenPRs := stats.totalOpenPRs + orZero repo.openPRs
    repositoriesWithReleases :=
      if truthy repo.hasReleases then stats.repositoriesWithReleases + 1
      else stats.repositoriesWithReleases
    archivedRepositories :=
      if truthy repo.archived then stats.archivedRepositories + 1
      else stats.archivedRepositories
    languageDistribution := countLanguage stats.languageDistribution lang }

/-- The method `calculateAggregateStats(repositories)`. -/
def calculateAggregateStats (repositories : List RepositoryMetric) : AggregateStats :=
  repositories.foldl accumulate
    { totalRepositories := repositories.length
      totalStars := 0
      totalForks := 0
      totalContributors := 0
      totalOpenIssues := 0
      totalOpenPRs := 0
      languageDistribution := []
      repositoriesWithReleases := 0
      archivedRepositories := 0 }

/-! ## Aggregator: `groupByLanguage` and `getTopPerLanguage` -/

/-- The comparator `(a, b) => b.stars - a.stars`. The difference is `NaN`
(here `none`) as soon as one of the two `stars` is `undefined`. -/
def compareStars (a b : RepositoryMetric) : Option Int :=
  match b.stars, a.stars with
  | some y, some x => some (y - x)
  | _, _ => none

/-- The number `Array.prototype.sort` reads off a comparator result: `NaN`
counts as `+0`. -/
def sortCompare (a b : RepositoryMetric) : Int :=
  match compareStars a b with
  | some v => v
  | none => 0

/-- The order `Array.prototype.sort` sorts by: `a` may stay before `b` when the
comparator does not return a positive number. -/
def starsOrder (a b : RepositoryMetric) : Prop := sortCompare a b ≤ 0

instance starsOrderDecidable : DecidableRel starsOrder :=
  fun a b => inferInstanceAs (Decidable (sortCompare a b ≤ 0))

/-- The call `group.sort((a, b) => b.stars - a.stars)`. `Array.prototype.sort`
is a stable sort; for a comparator that never returns `NaN` its result is fixed
by the language standard, and insertion sort computes it. -/
def sortByStars (group : List RepositoryMetric) : List RepositoryMetric :=
  group.insertionSort starsOrder

/-- The error of a call of `push` on a value that has no such method. -/
def pushTypeError : String := "TypeError: byLanguage[lang].push is not a function"

/-- The error of a property read on `undefined`. -/
def undefinedTypeError : String := "TypeError: Cannot read properties of undefined"

/-- The body of the first loop of `groupByLanguage`: create the array of the
language when `byLanguage[lang]` is falsy, which an array and an inherited
member are not, then call `push` on `byLanguage[lang]`. An inherited member
has no method `push`: the call throws. -/
def pushByLanguage (byLanguage : JSObject (List RepositoryMetric)) (repo : RepositoryMetric) :
    Except String (JSObject (List RepositoryMetric)) :=
  let lang := languageOrUnknown repo
  let byLanguage :=
    match JSObject.read byLanguage lang with
    | .undefined => JSObject.set byLanguage lang []
    | _ => byLanguage
  match JSObject.read byLanguage lang with
  | .own array => .ok (JSObject.set byLanguage lang (array ++ [repo]))
  | .inherited => .error pushTypeError
  | .undefined => .error undefinedTypeError

/-- The first loop of `groupByLanguage`, `for (const repo of repositories)`:
it ends with the first record whose turn throws. -/
def fillGroups : List RepositoryMetric → JSObject (List RepositoryMetric) →
    Except String (JSObject (List RepositoryMetric))
  | [], byLanguage => .ok byLanguage
  | repo :: repositories, byLanguage =>
    match pushByLanguage byLanguage repo with
    | .ok byLanguage => fillGroups repositories byLanguage
    | .error e => .error e

/-- The second loop of `groupByLanguage`: sort the array of every language in
place. -/
def sortGroups (byLanguage : JSObject (List RepositoryMetric)) :
    JSObject (List RepositoryMetric) :=
  byLanguage.map (fun entry => (entry.1, sortByStars entry.2))

/-- The method `groupByLanguage(repositories)`: fill the groups, then sort the
array of every language. -/
def groupByLanguage (repositories : List RepositoryMetric) :
    Except String (JSObject (List RepositoryMetric)) :=
  match fillGroups repositories [] with
  | .ok byLanguage => .ok (sortGroups byLanguage)
  | .error e => .error e

/-- The call `array.slice(0, topN)` for a non-negative integer `topN`. -/
def slice0 {α : Type} (array : List α) (topN : Nat) : List α := array.take topN

/-- The loop of `getTopPerLanguage` over the languages of the grouping. -/
def topOfGroups (byLanguage : JSObject (List RepositoryMetric)) (topN : Nat) :
    JSObject (List RepositoryMetric) :=
  (JSObject.keys byLanguage).foldl
    (fun topPerLanguage lang =>
      JSObject.set topPerLanguage lang (slice0 ((JSObject.get byLanguage lang).getD []) topN))
    []

/-- The method `getTopPerLanguage(repositories, topN)`: what `groupByLanguage`
throws leaves the method. -/
def getTopPerLanguage (repositories : List RepositoryMetric) (topN : Nat) :
    Except String (JSObject (List RepositoryMetric)) :=
  match groupByLanguage repositories with
  | .ok byLanguage => .ok (topOfGroups byLanguage topN)
  | .error e => .error e

/-- The default value of the parameter `topN`. -/
def defaultTopN : Nat := 5

/-- The call `getTopPerLanguage(repositories)` with `topN` left out. -/
def getTopPerLanguageDefault (repositories : List RepositoryMetric) :
    Except String (JSObject (List RepositoryMetric)) :=
  getTopPerLanguage repositories defaultTopN

/-- The stars of `a` and `b` are numbers, and `a` has at least as many as `b`:
the order in which the stars of a sorted group follow one another. -/
def StarsGE (a b : RepositoryMetric) : Prop :=
  ∃ x y : Int, a.stars = some x ∧ b.stars = some y ∧ y ≤ x

/-- A record with the empty string as language. -/
def emptyLanguageRecord : RepositoryMetric := { name := some "repo", language := some "" }

/-- The records of the unit test "should group repositories by language". -/
def testRepos : List RepositoryMetric :=
  [{ name := some "repo1", language := some "JavaScript", stars := some 100 },
   { name := some "repo2", language := some "Python", stars := some 200 },
   { name := some "repo3", language := some "JavaScript", stars := some 150 },
   { name := some "repo4", language := none, stars := some 50 }]


/-- A record whose language is the name of the inherited member `constructor`. -/
def constructorRecord : RepositoryMetric :=
  { name := some "repo", language := some "constructor", stars := some 1 }

/-- A record whose language is the name of the inherited accessor `__proto__`. -/
def protoRecord : RepositoryMetric :=
  { name := some "repo", language := some "__proto__", stars := some 1 }

/-! ## The aggregator on records whose languages name no inherited member

When no language key is the name of a member of `Object.prototype`, every read
of a dictionary finds an own property or `undefined`, and the two loops are the
folds below. They serve to describe what the methods return. -/

/-- The language key of every record is the name of no member of
`Object.prototype`. -/
def PlainLanguages (repositories : List RepositoryMetric) : Prop :=
  ∀ r ∈ repositories, languageOrUnknown r ∉ objectPrototypeNames

instance plainLanguagesDecidable (repositories : List RepositoryMetric) :
    Decidable (PlainLanguages repositories) :=
  inferInstanceAs (Decidable (∀ r ∈ repositories, languageOrUnknown r ∉ objectPrototypeNames))

/-- One turn of the first loop of `groupByLanguage` as a single write. -/
def pushPlain (byLanguage : JSObject (List RepositoryMetric)) (repo : RepositoryMetric) :
    JSObject (List RepositoryMetric) :=
  JSObject.set byLanguage (languageOrUnknown repo)
    ((JSObject.get byLanguage (languageOrUnknown repo)).getD [] ++ [repo])

/-- The grouping as a fold of single writes, sorted. -/
def groupPlain (repositories : List RepositoryMetric) : JSObject (List RepositoryMetric) :=
  sortGroups (repositories.foldl pushPlain [])

/-- The expression `c || 0` on a counter that is a number or `undefined`. -/
def orZeroNat : Option Nat → Nat
  | some n => if n ≠ 0 then n else 0
  | none => 0

/-- One turn of the count of the languages on counters that are numbers. -/
def countPlain (counts : JSObject Nat) (repo : RepositoryMetric) : JSObject Nat :=
  JSObject.set counts (languageOrUnknown repo)
    (orZeroNat (JSObject.get counts (languageOrUnknown repo)) + 1)

/-- The counters of a distribution whose values are all numbers. -/
def numberCounters (counts : JSObject Nat) : JSObject Counter :=
  counts.map (fun entry => (entry.1, Counter.number entry.2))

/-- No own property has the name of a member of `Object.prototype`. -/
def PlainKeys {α : Type} (o : JSObject α) : Prop :=
  ∀ k ∈ JSObject.keys o, k ∉ objectPrototypeNames
/-! ## Collector: the last page of a `Link` header -/

/-- The character class `\d`. -/
def isDigit (c : Char) : Bool := decide ('0' ≤ c) && decide (c ≤ '9')

/-- The call `parseInt(digits, 10)` on a string of decimal digits. -/
def parseInt10 (digits : List Char) : Nat :=
  digits.foldl (fun n c => 10 * n + (c.toNat - '0'.toNat)) 0

/-- Match a literal at the head of the input and return what follows it. -/
def dropPrefix : List Char → List Char → Option (List Char)
  | [], s => some s
  | _ :: _, [] => none
  | p :: ps, c :: cs => if p = c then dropPrefix ps cs else none

/-- The literal that opens the pattern. -/
def pageLiteral : List Char := "page=".toList

/-- The literal that closes the pattern. -/
def relLastLiteral : List Char := ">; rel=\"last\"".toList

/-- Match the pattern `page=(\d+)>; rel="last"` at the head of the input and return
the captured digits. The digits are followed by `>`, which is no digit, so the
capture is the whole run of digits. -/
def matchLastPageAt (s : List Char) : Option (List Char) :=
  match dropPrefix pageLiteral s with
  | none => none
  | some afterPage =>
    let digits := afterPage.takeWhile isDigit
    if digits = [] then none
    else
      match dropPrefix relLastLiteral (afterPage.dropWhile isDigit) with
      | none => none
      | some _ => some digits

/-- The call `linkHeader.match(/page=(\d+)>; rel="last"/)`: the capture of the
leftmost match, or `none` when the pattern matches nowhere. -/
def matchLastPage : List Char → Option (List Char)
  | [] => none
  | c :: cs =>
    match matchLastPageAt (c :: cs) with
    | some digits => some digits
    | none => matchLastPage cs

/-- A response of the remote interface: the `link` header, absent or a string,
and the body. -/
structure Response (α : Type) where
  link : Option String
  data : α

/-- The block shared by the three counts: start from the number of items of the
body and replace it by the captured page number when the `Link` header is a
non-empty string that the pattern matches. -/
def lastPageOr (linkHeader : Option String) (length : Nat) : Nat :=
  match linkHeader with
  | none => length
  | some header =>
    if header ≠ "" then
      match matchLastPage header.toList with
      | some digits => parseInt10 digits
      | none => length
    else length

/-- The text `rel="last"` that names the last page in a `Link` header. -/
def relLiteral : List Char := "rel=\"last\"".toList

/-- What the claim on the pagination count asks of a count derived from a
response with the given `Link` header and number of body items: the page number
`P` when the header holds the marker `page=P>; rel="last"` and no `rel="last"`
stands before that marker (also for a page number written with any run of
decimal digits, read as a decimal numeral), and the number of items when there
is no header or the header holds no `rel="last"`. -/
def IsPaginationCount (link : Option String) (items count : Nat) : Prop :=
  (∀ (header : String) (pre post : List Char) (P : Nat),
      link = some header →
      header.toList = pre ++ pageLiteral ++ (toString P).toList ++ relLastLiteral ++ post →
      ¬ List.IsInfix relLiteral pre →
      count = P)
  ∧ (∀ (header : String) (pre digits post : List Char),
      link = some header →
      header.toList = pre ++ pageLiteral ++ digits ++ relLastLiteral ++ post →
      digits ≠ [] → (∀ c ∈ digits, isDigit c = true) →
      ¬ List.IsInfix relLiteral pre →
      count = parseInt10 digits)
  ∧ (link = none → count = items)
  ∧ (∀ header : String, link = some header →
      ¬ List.IsInfix relLiteral header.toList → count = items)

/-! ## Collector: remote calls -/

/-- The licence object of a repository. -/
structure License where
  spdx_id : Option String
  deriving DecidableEq, Repr

/-- The body of `GET /repos/{owner}/{repo}`. -/
structure RepoData where
  name : Option String
  full_name : Option String
  description : Option String
  language : Option String
  topics : Option (List String)
  stargazers_count : Option Int
  forks_count : Option Int
  watchers_count : Option Int
  created_at : Option String
  updated_at : Option String
  pushed_at : Option String
  default_branch : Option String
  license : Option License
  archived : Option Bool
  disabled : Option Bool
  has_wiki : Option Bool
  has_pages : Option Bool
  size : Option Int
  deriving DecidableEq, Repr

/-- One release of `GET /repos/{owner}/{repo}/releases`. -/
structure Release where
  tag_name : Option String
  published_at : Option String
  deriving DecidableEq, Repr

/-- The owner of a search hit. -/
structure Owner where
  login : String
  deriving DecidableEq, Repr

/-- One hit of the repository search. -/
structure SearchHit where
  owner : Owner
  name : String
  stargazers_count : Int
  deriving DecidableEq, Repr

/-- The remote interface: every call either fails with an error message or
returns a response. The search is the sequence of pages that
`octokit.paginate.iterator` yields for a query, each fetched when the loop
reaches it. The type `ι` is the type of the items of a listing. -/
structure Octokit (ι : Type) where
  getRepo : String → String → Except String (Response RepoData)
  listContributors : String → String → Except String (Response (List ι))
  listIssues : String → String → Except String (Response (List ι))
  listPulls : String → String → Except String (Response (List ι))
  listReleases : String → String → Except String (Response (List Release))
  searchRepos : String → List (Except String (Response (List SearchHit)))

/-- The method `fetchContributorsCount(owner, repo)`. -/
def fetchContributorsCount {ι : Type} (octokit : Octokit ι) (owner repo : String) : Nat :=
  match octokit.listContributors owner repo with
  | .ok response => lastPageOr response.link response.data.length
  | .error _ => 0

/-- The pair returned by `fetchIssueAndPRCounts`. -/
structure IssueAndPRCounts where
  openIssues : Nat
  openPRs : Nat
  deriving DecidableEq, Repr

/-- The method `fetchIssueAndPRCounts(owner, repo)`: both requests are made
inside one `try`, the pull-request one after the issue one. -/
def fetchIssueAndPRCounts {ι : Type} (octokit : Octokit ι) (owner repo : String) :
    IssueAndPRCounts :=
  match octokit.listIssues owner repo with
  | .error _ => { openIssues := 0, openPRs := 0 }
  | .ok issuesResponse =>
    match octokit.listPulls owner repo with
    | .error _ => { openIssues := 0, openPRs := 0 }
    | .ok prsResponse =>
      { openIssues := lastPageOr issuesResponse.link issuesResponse.data.length
        openPRs := lastPageOr prsResponse.link prsResponse.data.length }

/-- The object returned by `fetchReleaseInfo`. -/
structure ReleaseInfo where
  hasReleases : Bool
  latestRelease : Option String
  latestReleaseDate : Option String
  deriving DecidableEq, Repr

/-- The method `fetchReleaseInfo(owner, repo)`. -/
def fetchReleaseInfo {ι : Type} (octokit : Octokit ι) (owner repo : String) : ReleaseInfo :=
  match octokit.listReleases owner repo with
  | .ok response =>
    match response.data with
    | latestRelease :: _ =>
      { hasReleases := true
        latestRelease := latestRelease.tag_name
        latestReleaseDate := latestRelease.published_at }
    | [] => { hasReleases := false, latestRelease := none, latestReleaseDate := none }
  | .error _ => { hasReleases := false, latestRelease := none, latestReleaseDate := none }

/-- The expression `repoData.data.license?.spdx_id || null`. -/
def licenseOrNull (license : Option License) : Option String :=
  match license with
  | none => none
  | some l =>
    match l.spdx_id with
    | some s => if s ≠ "" then some s else none
    | none => none

/-- The method `fetchRepositoryMetrics(owner, repo)`: an error of the first
request is thrown again, the two counts never throw. -/
def fetchRepositoryMetrics {ι : Type} (octokit : Octokit ι) (owner repo : String) :
    Except String RepositoryMetric :=
  match octokit.getRepo owner repo with
  | .error e => .error e
  | .ok repoData =>
    let contributorsCount := fetchContributorsCount octokit owner repo
    let counts := fetchIssueAndPRCounts octokit owner repo
    .ok
      { repository := some (owner ++ "/" ++ repo)
        name := repoData.data.name
        fullName := repoData.data.full_name
        description := repoData.data.description
        language := repoData.data.language
        topics := repoData.data.topics.getD []
        stars := repoData.data.stargazers_count
        forks := repoData.data.forks_count
        watchers := repoData.data.watchers_count
        openIssues := some (counts.openIssues : Int)
        openPRs := some (counts.openPRs : Int)
        contributors := some (contributorsCount : Int)
        createdAt := repoData.data.created_at
        updatedAt := repoData.data.updated_at
        pushedAt := repoData.data.pushed_at
        defaultBranch := repoData.data.default_branch
        license := licenseOrNull repoData.data.license
        archived := repoData.data.archived
        disabled := repoData.data.disabled
        hasWiki := repoData.data.has_wiki
        hasPages := repoData.data.has_pages
        size := repoData.data.size }

/-! ## Collector: `collectTopicRepositories` -/

/-- The object spread of the metrics and the release information. -/
def withReleaseInfo (metrics : RepositoryMetric) (releaseInfo : ReleaseInfo) : RepositoryMetric :=
  { metrics with
    hasReleases := some releaseInfo.hasReleases
    latestRelease := releaseInfo.latestRelease
    latestReleaseDate := releaseInfo.latestReleaseDate }

/-- The state of the crawl loop: either still running, with the records pushed
so far and `processedCount`, or left through the `return` of the limit check. -/
inductive Crawl where
  | running (repositories : List RepositoryMetric) (processedCount : Nat)
  | returned (repositories : List RepositoryMetric)
  deriving DecidableEq, Repr

/-- One turn of the inner loop `for (const repo of response.data)`. -/
def processHit {ι : Type} (octokit : Octokit ι) (maxRepos : Int) (state : Crawl)
    (repo : SearchHit) : Crawl :=
  match state with
  | .returned repositories => .returned repositories
  | .running repositories processedCount =>
    if maxRepos ≠ -1 ∧ (processedCount : Int) ≥ maxRepos then .returned repositories
    else
      match fetchRepositoryMetrics octokit repo.owner.login repo.name with
      | .ok metrics =>
        let releaseInfo := fetchReleaseInfo octokit repo.owner.login repo.name
        .running (repositories ++ [withReleaseInfo metrics releaseInfo]) (processedCount + 1)
      | .error _ => .running repositories processedCount

/-- The outer loop `for await (const response of iterator)`: a page that fails
to load throws out of the method, and no page is requested after a `return`. -/
def crawlPages {ι : Type} (octokit : Octokit ι) (maxRepos : Int) :
    List (Except String (Response (List SearchHit))) → List RepositoryMetric → Nat →
      Except String (List RepositoryMetric)
  | [], repositories, _ => .ok repositories
  | .error e :: _, _, _ => .error e
  | .ok response :: pages, repositories, processedCount =>
    match response.data.foldl (processHit octokit maxRepos)
        (.running repositories processedCount) with
    | .returned result => .ok result
    | .running repositories' processedCount' =>
      crawlPages octokit maxRepos pages repositories' processedCount'

/-- The method `collectTopicRepositories(topic, maxRepos)`. -/
def collectTopicRepositories {ι : Type} (octokit : Octokit ι) (topic : String) (maxRepos : Int) :
    Except String (List RepositoryMetric) :=
  crawlPages octokit maxRepos (octokit.searchRepos ("topic:" ++ topic)) [] 0

/-- The default value of the parameter `maxRepos`: no limit. -/
def defaultMaxRepos : Int := -1

/-- The record the crawl loop pushes for a search hit: the metrics with the
release information, or nothing when `fetchRepositoryMetrics` throws. -/
def fetchedRecord {ι : Type} (octokit : Octokit ι) (repo : SearchHit) : Option RepositoryMetric :=
  match fetchRepositoryMetrics octokit repo.owner.login repo.name with
  | .ok metrics =>
    some (withReleaseInfo metrics (fetchReleaseInfo octokit repo.owner.login repo.name))
  | .error _ => none

/-- The hits of all pages of a search, in search order. -/
def searchHits (pages : List (Response (List SearchHit))) : List SearchHit :=
  pages.flatMap (fun response => response.data)

/-! ## A sample remote interface -/

/-- A repository body with a name, a language and a star count. -/
def sampleRepoData (name : String) (stars : Int) : RepoData :=
  { name := some name
    full_name := some ("org/" ++ name)
    description := none
    language := some "JavaScript"
    topics := none
    stargazers_count := some stars
    forks_count := some 0
    watchers_count := some stars
    created_at := none
    updated_at := none
    pushed_at := none
    default_branch := some "main"
    license := none
    archived := some false
    disabled := some false
    has_wiki := none
    has_pages := none
    size := some 1 }

/-- A `Link` header of a listing with page size 1 and 515 pages. -/
def sampleLink : String :=
  "<u?page=2>; rel=\"next\", <u?page=515>; rel=\"last\""

/-- Two pages of search hits: `a`, `gone` and `b`, then `c`. -/
def samplePages : List (Response (List SearchHit)) :=
  [{ link := none
     data := [{ owner := { login := "org" }, name := "a", stargazers_count := 30 },
              { owner := { login := "org" }, name := "gone", stargazers_count := 20 },
              { owner := { login := "org" }, name := "b", stargazers_count := 10 }] },
   { link := none
     data := [{ owner := { login := "org" }, name := "c", stargazers_count := 5 }] }]

/-- A remote interface over the organisation `org`: the repository `gone`
cannot be fetched, the contributor and issue listings answer with one item, the
first with the sample `Link` header and the second without header, the request
for the pull requests fails, there are no releases, and the search returns the
sample pages. -/
def sampleOctokit : Octokit Unit where
  getRepo := fun _ repo =>
    if repo = "gone" then .error "Not Found"
    else .ok { link := none, data := sampleRepoData repo 10 }
  listContributors := fun _ _ => .ok { link := some sampleLink, data := [()] }
  listIssues := fun _ _ => .ok { link := none, data := [()] }
  listPulls := fun _ _ => .error "timeout"
  listReleases := fun _ _ => .ok { link := none, data := [] }
  searchRepos := fun _ => samplePages.map .ok

/-- The sample interface with a pull-request listing that answers: no item and
no header. -/
def sampleOctokitPulls : Octokit Unit :=
  { sampleOctokit with listPulls := fun _ _ => .ok { link := none, data := [] } }


/-- The sample interface with a search whose first page holds the single hit
`a` and whose second page fails to load. -/
def pageEndOctokit : Octokit Unit :=
  { sampleOctokit with
    searchRepos := fun _ =>
      [.ok { link := none
             data := [{ owner := { login := "org" }, name := "a", stargazers_count := 30 }] },
       .error "rate limit exceeded"] }

/-- The sample interface with a search whose first page is the first sample
page, with the hits `a`, `gone` and `b`, and whose second page fails to load. -/
def lateFailureOctokit : Octokit Unit :=
  { sampleOctokit with
    searchRepos := fun _ => (samplePages.take 1).map .ok ++ [.error "rate limit exceeded"] }
/-! ## Storage: JSON values, the platform and paths

The second source file, `ecosystem-observability/collector/data-storage.js`
(class `DataStorage`). The platform functions it calls are parameters or
models: `JSON.stringify` and `JSON.parse` are a codec between JSON documents
and file contents, of which the one of the language standard is defined
further down, the file system is the list of its files, each a path with its
content, `new Date().toISOString()` is a given timestamp, and writing a file
succeeds. -/

/-- A JSON value, which is also what a parsed document is in memory. -/
inductive Json where
  | null
  | bool (b : Bool)
  | num (n : Int)
  | str (s : String)
  | arr (items : List Json)
  | obj (fields : List (String × Json))
  deriving Repr

/-- Truthiness of a value: `null`, `false`, `0` and the empty string are falsy. -/
def Json.truthy : Json → Bool
  | .null => false
  | .bool b => b
  | .num n => decide (n ≠ 0)
  | .str s => decide (s ≠ "")
  | .arr _ => true
  | .obj _ => true

/-- The expression `value || fallback`, where `value` may be `undefined`. -/
def orDefault (value : Option Json) (fallback : Json) : Json :=
  match value with
  | some v => if v.truthy then v else fallback
  | none => fallback

/-- The property read `value?.key` and, on a truthy value, `value.key`, for a
key that is no member of the prototype of a string, number, boolean or array:
the own property of an object, `undefined` otherwise. -/
def Json.getProp (value : Option Json) (key : String) : Option Json :=
  match value with
  | some (.obj fields) => JSObject.get fields key
  | _ => none

/-- The expression `value?.length`: the length of an array or of a string, the
own property `length` of an object, `undefined` otherwise. -/
def optionalLength (value : Option Json) : Option Json :=
  match value with
  | some (.arr items) => some (.num items.length)
  | some (.str s) => some (.num s.utf16Length)
  | some (.obj fields) => JSObject.get fields "length"
  | _ => none

/-- A value in memory, as `saveSnapshot` may be given one. Unlike a parsed
document it may be `undefined` or hold `undefined`. -/
inductive JSValue where
  | undefined
  | null
  | bool (b : Bool)
  | num (n : Int)
  | str (s : String)
  | arr (items : List JSValue)
  | obj (fields : List (String × JSValue))
  deriving Repr

/-- Truthiness of a value in memory: `undefined`, `null`, `false`, `0` and the
empty string are falsy. -/
def JSValue.truthy : JSValue → Bool
  | .undefined => false
  | .null => false
  | .bool b => b
  | .num n => decide (n ≠ 0)
  | .str s => decide (s ≠ "")
  | .arr _ => true
  | .obj _ => true

/-- The property read `data.key` for a key that `Object.prototype` does not
have: the own property, `undefined` when there is none. -/
def JSValue.property (data : JSObject JSValue) (key : String) : JSValue :=
  match JSObject.get data key with
  | some value => value
  | none => .undefined

/-- The expression `value || fallback` on values in memory. -/
def JSValue.orElse (value fallback : JSValue) : JSValue :=
  if value.truthy then value else fallback

/-- The expression `value?.length` on a value in memory: the length of an array
or of a string, the own property `length` of an object, `undefined`
otherwise. -/
def JSValue.optionalLength : JSValue → JSValue
  | .arr items => .num items.length
  | .str s => .num s.utf16Length
  | .obj fields => JSValue.property fields "length"
  | _ => .undefined

mutual

/-- The document that `JSON.stringify` writes for a value, nothing for
`undefined` (the operation `SerializeJSONProperty` of the language standard). -/
def JSValue.serialize : JSValue → Option Json
  | .undefined => none
  | .null => some .null
  | .bool b => some (.bool b)
  | .num n => some (.num n)
  | .str s => some (.str s)
  | .arr items => some (.arr (JSValue.serializeItems items))
  | .obj fields => some (.obj (JSValue.serializeFields fields))

/-- The items of an array as `JSON.stringify` writes them: `null` for an item
that is `undefined`. -/
def JSValue.serializeItems : List JSValue → List Json
  | [] => []
  | item :: items =>
    (match JSValue.serialize item with
      | some document => document
      | none => .null) :: JSValue.serializeItems items

/-- The properties of an object as `JSON.stringify` writes them: a property
whose value is `undefined` is left out. -/
def JSValue.serializeFields : List (String × JSValue) → List (String × Json)
  | [] => []
  | (key, value) :: fields =>
    match JSValue.serialize value with
    | some document => (key, document) :: JSValue.serializeFields fields
    | none => JSValue.serializeFields fields

end

mutual

/-- A document as a value in memory. -/
def Json.toValue : Json → JSValue
  | .null => .null
  | .bool b => .bool b
  | .num n => .num n
  | .str s => .str s
  | .arr items => .arr (Json.toValues items)
  | .obj fields => .obj (Json.toFields fields)

/-- The items of an array of a document as values in memory. -/
def Json.toValues : List Json → List JSValue
  | [] => []
  | item :: items => Json.toValue item :: Json.toValues items

/-- The properties of an object of a document as values in memory. -/
def Json.toFields : List (String × Json) → List (String × JSValue)
  | [] => []
  | (key, value) :: fields => (key, Json.toValue value) :: Json.toFields fields

end

/-- The functions `JSON.stringify`, on documents, and `JSON.parse`, for file
contents of type `σ`; parsing fails with an error on malformed content. -/
structure JSON (σ : Type) where
  stringify : Json → σ
  parse : σ → Except String Json

/-- The file system: the files, each a path with its content, in any order. -/
abbrev FileSystem (σ : Type) := List (String × σ)

/-- The call `fs.existsSync(path)`. -/
def existsSync {σ : Type} (fs : FileSystem σ) (path : String) : Bool :=
  (JSObject.get fs path).isSome

/-- The call `fs.readFileSync(path, 'utf8')` on a file that may be missing. -/
def readFileSync {σ : Type} (fs : FileSystem σ) (path : String) : Option σ :=
  JSObject.get fs path

/-- The call `fs.writeFileSync(path, content, 'utf8')`: replace the content of
the file, or create the file. -/
def writeFileSync {σ : Type} (fs : FileSystem σ) (path : String) (content : σ) : FileSystem σ :=
  JSObject.set fs path content

/-- The call `path.join(dir, file)` for a directory path in normal form. -/
def pathJoin (dir file : String) : String := dir ++ "/" ++ file

/-- What follows the last `/` of a list of characters. -/
def afterLastSlash : List Char → List Char
  | [] => []
  | c :: cs => if '/' ∈ cs then afterLastSlash cs else if c = '/' then cs else c :: cs

/-- The call `path.basename(file)`. -/
def pathBasename (file : String) : String := String.mk (afterLastSlash file.toList)

/-- The name of a file directly inside `dir`, when `path` is one. -/
def childName (dir path : String) : Option String :=
  match dropPrefix (dir ++ "/").toList path.toList with
  | some rest => if rest ≠ [] ∧ '/' ∉ rest then some (String.mk rest) else none
  | none => none

/-- The call `fs.readdirSync(dir)`: the names of the files of the directory, in
the order in which the file system lists them. -/
def readdirSync {σ : Type} (fs : FileSystem σ) (dir : String) : List String :=
  fs.filterMap (fun entry => childName dir entry.1)

/-- The storage manager: its data directory. -/
structure DataStorage where
  dataDir : String
  deriving DecidableEq, Repr

/-- The default value of the parameter `dataDir`. -/
def defaultDataDir : String := "./data"

/-- The expression `timestamp.split('T')[0]`: the text before the first `T`. -/
def splitT0 (timestamp : String) : String :=
  String.mk (timestamp.toList.takeWhile (fun c => decide (c ≠ 'T')))

/-- The method `getTodayFilename()`, at the instant `now`. -/
def getTodayFilename (storage : DataStorage) (now : String) : String :=
  pathJoin storage.dataDir (splitT0 now ++ ".json")

/-- The method `getFilenameForDate(date)`, for the ISO form of the date. -/
def getFilenameForDate (storage : DataStorage) (dateISO : String) : String :=
  pathJoin storage.dataDir (splitT0 dateISO ++ ".json")

/-! ## Storage: snapshots -/

/-- The properties of the object `metadata` of the snapshot. -/
def snapshotMetadata (data : JSObject JSValue) : JSObject JSValue :=
  [("topic", (JSValue.property data "topic").orElse (.str "json-schema")),
   ("totalRepositories",
     (JSValue.property data "repositories").optionalLength.orElse (.num 0))]

/-- The properties of the snapshot object that `saveSnapshot` builds from its
input. -/
def snapshotOf (now : String) (data : JSObject JSValue) : JSObject JSValue :=
  [("collectedAt", .str now),
   ("metadata", .obj (snapshotMetadata data)),
   ("aggregateStats", (JSValue.property data "aggregateStats").orElse (.obj [])),
   ("repositories", (JSValue.property data "repositories").orElse (.arr [])),
   ("topPerLanguage", (JSValue.property data "topPerLanguage").orElse (.obj []))]

/-- The document that `JSON.stringify(snapshot, null, 2)` writes for the
snapshot object. -/
def snapshotDocument (now : String) (data : JSObject JSValue) : Json :=
  .obj (JSValue.serializeFields (snapshotOf now data))

/-- The expression `filename || this.getTodayFilename()`. -/
def targetFileOf (storage : DataStorage) (now : String) (filename : Option String) : String :=
  match filename with
  | some f => if f ≠ "" then f else getTodayFilename storage now
  | none => getTodayFilename storage now

/-- The method `saveSnapshot(data, filename)`: the path written and the file
system after the write. -/
def saveSnapshot {σ : Type} (json : JSON σ) (storage : DataStorage) (now : String)
    (fs : FileSystem σ) (data : JSObject JSValue) (filename : Option String) :
    String × FileSystem σ :=
  let targetFile := targetFileOf storage now filename
  (targetFile, writeFileSync fs targetFile (json.stringify (snapshotDocument now data)))

/-- The method `loadSnapshot(filename)`: `null` when the file does not exist,
the parsed content otherwise, and the error of `JSON.parse` on malformed
content. -/
def loadSnapshot {σ : Type} (json : JSON σ) (fs : FileSystem σ) (filename : String) :
    Except String Json :=
  if existsSync fs filename = false then .ok .null
  else
    match readFileSync fs filename with
    | some content => json.parse content
    | none => .ok .null

/-! ## Storage: the snapshot files of the data directory -/

/-- One item of the pattern of a snapshot name: a digit `\d` or a literal. -/
inductive PatternItem where
  | digit
  | literal (c : Char)
  deriving DecidableEq, Repr

/-- The pattern `^\d{4}-\d{2}-\d{2}\.json$`, item by item. -/
def datePattern : List PatternItem :=
  [.digit, .digit, .digit, .digit, .literal '-', .digit, .digit, .literal '-',
   .digit, .digit, .literal '.', .literal 'j', .literal 's', .literal 'o', .literal 'n']

/-- Match a whole text against a pattern of digits and literals. -/
def matchesPattern : List PatternItem → List Char → Bool
  | [], [] => true
  | [], _ :: _ => false
  | _ :: _, [] => false
  | .digit :: items, c :: cs => isDigit c && matchesPattern items cs
  | .literal l :: items, c :: cs => decide (l = c) && matchesPattern items cs

/-- The filter of `getAllSnapshots`:
`file.endsWith('.json') && file.match(/^\d{4}-\d{2}-\d{2}\.json$/)`. -/
def isSnapshotName (file : String) : Bool :=
  List.isSuffixOf ".json".toList file.toList && matchesPattern datePattern file.toList

/-- The order of the default `sort()` on lists of characters: by code unit, a
proper prefix first. Code units are code points here, as in every text that
passes the filter. -/
def codeUnitsLE : List Char → List Char → Bool
  | [], _ => true
  | _ :: _, [] => false
  | x :: xs, y :: ys =>
    if x.toNat < y.toNat then true
    else if y.toNat < x.toNat then false
    else codeUnitsLE xs ys

/-- The order of the default `sort()` on strings. -/
def stringLE (a b : String) : Prop := codeUnitsLE a.toList b.toList = true

instance stringLEDecidable : DecidableRel stringLE :=
  fun a b => inferInstanceAs (Decidable (codeUnitsLE a.toList b.toList = true))

/-- The constant `files` of `getAllSnapshots`: the names of the data directory
that pass the filter, sorted. -/
def snapshotFiles {σ : Type} (storage : DataStorage) (fs : FileSystem σ) : List String :=
  ((readdirSync fs storage.dataDir).filter isSnapshotName).insertionSort stringLE

/-- The method `getAllSnapshots()`. -/
def getAllSnapshots {σ : Type} (storage : DataStorage) (fs : FileSystem σ) : List String :=
  (snapshotFiles storage fs).map (fun file => pathJoin storage.dataDir file)

/-- One item of `loadAllSnapshots`. -/
structure LoadedSnapshot where
  filename : String
  data : Json

/-- The `map` of `loadAllSnapshots` over the files: the first content that does
not parse throws. -/
def loadFiles {σ : Type} (json : JSON σ) (fs : FileSystem σ) :
    List String → Except String (List LoadedSnapshot)
  | [] => .ok []
  | file :: files =>
    match loadSnapshot json fs file with
    | .error e => .error e
    | .ok data =>
      match loadFiles json fs files with
      | .error e => .error e
      | .ok rest => .ok ({ filename := pathBasename file, data := data } :: rest)

/-- The method `loadAllSnapshots()`. -/
def loadAllSnapshots {σ : Type} (json : JSON σ) (storage : DataStorage) (fs : FileSystem σ) :
    Except String (List LoadedSnapshot) :=
  loadFiles json fs (getAllSnapshots storage fs)

/-! ## Storage: the historical summary -/

/-- One entry of the timeline: the date and the eight scalar fields. -/
structure TimelineEntry where
  date : String
  totalRepositories : Json
  totalStars : Json
  totalForks : Json
  totalContributors : Json
  totalOpenIssues : Json
  totalOpenPRs : Json
  repositoriesWithReleases : Json
  archivedRepositories : Json

/-- The property `dateRange` of a summary; `finish` is its property `end`. -/
structure DateRange where
  start : String
  finish : String
  deriving DecidableEq, Repr

/-- The summary object of `generateHistoricalSummary`. -/
structure History where
  generatedAt : String
  snapshotCount : Nat
  dateRange : DateRange
  timeline : List TimelineEntry

/-- Remove the first occurrence of a text. -/
def removeFirst (pattern : List Char) : List Char → List Char
  | [] => []
  | c :: cs =>
    match dropPrefix pattern (c :: cs) with
    | some rest => rest
    | none => c :: removeFirst pattern cs

/-- The expression `filename.replace('.json', '')`. -/
def replaceJson (filename : String) : String :=
  String.mk (removeFirst ".json".toList filename.toList)

/-- The entry that the loop of `generateHistoricalSummary` pushes for a loaded
snapshot. -/
def timelineEntry (snapshot : LoadedSnapshot) : TimelineEntry :=
  let date := replaceJson snapshot.filename
  let stats := orDefault (Json.getProp (some snapshot.data) "aggregateStats") (.obj [])
  { date := date
    totalRepositories := orDefault (Json.getProp (some stats) "totalRepositories") (.num 0)
    totalStars := orDefault (Json.getProp (some stats) "totalStars") (.num 0)
    totalForks := orDefault (Json.getProp (some stats) "totalForks") (.num 0)
    totalContributors := orDefault (Json.getProp (some stats) "totalContributors") (.num 0)
    totalOpenIssues := orDefault (Json.getProp (some stats) "totalOpenIssues") (.num 0)
    totalOpenPRs := orDefault (Json.getProp (some stats) "totalOpenPRs") (.num 0)
    repositoriesWithReleases :=
      orDefault (Json.getProp (some stats) "repositoriesWithReleases") (.num 0)
    archivedRepositories :=
      orDefault (Json.getProp (some stats) "archivedRepositories") (.num 0) }

/-- The summary built from a non-empty list of loaded snapshots. -/
def historyOf (now : String) (first : LoadedSnapshot) (rest : List LoadedSnapshot) : History :=
  { generatedAt := now
    snapshotCount := (first :: rest).length
    dateRange :=
      { start := replaceJson first.filename
        finish := replaceJson ((first :: rest).getLast (List.cons_ne_nil first rest)).filename }
    timeline := (first :: rest).map timelineEntry }

/-- The method `generateHistoricalSummary()`: `null` (here `none`) when there is
no snapshot, the summary otherwise, and the error of a snapshot that does not
parse. -/
def generateHistoricalSummary {σ : Type} (json : JSON σ) (storage : DataStorage) (now : String)
    (fs : FileSystem σ) : Except String (Option History) :=
  match loadAllSnapshots json storage fs with
  | .error e => .error e
  | .ok [] => .ok none
  | .ok (first :: rest) => .ok (some (historyOf now first rest))

/-- A timeline entry as a JSON value. -/
def TimelineEntry.toJson (entry : TimelineEntry) : Json :=
  .obj
    [("date", .str entry.date),
     ("totalRepositories", entry.totalRepositories),
     ("totalStars", entry.totalStars),
     ("totalForks", entry.totalForks),
     ("totalContributors", entry.totalContributors),
     ("totalOpenIssues", entry.totalOpenIssues),
     ("totalOpenPRs", entry.totalOpenPRs),
     ("repositoriesWithReleases", entry.repositoriesWithReleases),
     ("archivedRepositories", entry.archivedRepositories)]

/-- A summary as a JSON value. -/
def History.toJson (history : History) : Json :=
  .obj
    [("generatedAt", .str history.generatedAt),
     ("snapshotCount", .num history.snapshotCount),
     ("dateRange", .obj
       [("start", .str history.dateRange.start), ("end", .str history.dateRange.finish)]),
     ("timeline", .arr (history.timeline.map TimelineEntry.toJson))]

/-- The method `saveHistoricalSummary()`: the path written, `null` (here
`none`) when there is no summary, and the file system afterwards. -/
def saveHistoricalSummary {σ : Type} (json : JSON σ) (storage : DataStorage) (now : String)
    (fs : FileSystem σ) : Except String (Option String × FileSystem σ) :=
  match generateHistoricalSummary json storage now fs with
  | .error e => .error e
  | .ok none => .ok (none, fs)
  | .ok (some history) =>
    let filename := pathJoin storage.dataDir "history.json"
    .ok (some filename, writeFileSync fs filename (json.stringify history.toJson))

/-- The method `getLatestSnapshot()`. -/
def getLatestSnapshot {σ : Type} (json : JSON σ) (storage : DataStorage) (fs : FileSystem σ) :
    Except String Json :=
  match (getAllSnapshots storage fs).getLast? with
  | none => .ok .null
  | some file => loadSnapshot json fs file

/-- The document that `loadSnapshot` returns for a file, `null` when it throws. -/
def loadedDocument {σ : Type} (json : JSON σ) (fs : FileSystem σ) (file : String) : Json :=
  match loadSnapshot json fs file with
  | .ok document => document
  | .error _ => .null

/-- The names of the eight scalar fields of a timeline entry. -/
def scalarFields : List String :=
  ["totalRepositories", "totalStars", "totalForks", "totalContributors", "totalOpenIssues",
   "totalOpenPRs", "repositoriesWithReleases", "archivedRepositories"]

/-- The eight scalar fields of a timeline entry, by name. -/
def TimelineEntry.scalars (entry : TimelineEntry) : JSObject Json :=
  [("totalRepositories", entry.totalRepositories),
   ("totalStars", entry.totalStars),
   ("totalForks", entry.totalForks),
   ("totalContributors", entry.totalContributors),
   ("totalOpenIssues", entry.totalOpenIssues),
   ("totalOpenPRs", entry.totalOpenPRs),
   ("repositoriesWithReleases", entry.repositoriesWithReleases),
   ("archivedRepositories", entry.archivedRepositories)]

/-! ## Dates and sample data of the storage -/

/-- The date written in a snapshot name `YYYY-MM-DD.json`: year, month and day
as numbers. -/
def snapshotDate (name : String) : Nat × Nat × Nat :=
  match name.toList with
  | y1 :: y2 :: y3 :: y4 :: _ :: m1 :: m2 :: _ :: d1 :: d2 :: _ =>
    (parseInt10 [y1, y2, y3, y4], parseInt10 [m1, m2], parseInt10 [d1, d2])
  | _ => (0, 0, 0)

/-- Chronological order of dates: by year, then month, then day. -/
def chronLE (a b : Nat × Nat × Nat) : Prop :=
  a.1 < b.1 ∨ (a.1 = b.1 ∧ (a.2.1 < b.2.1 ∨ (a.2.1 = b.2.1 ∧ a.2.2 ≤ b.2.2)))

/-- A codec whose file contents are the JSON values themselves. -/
def sampleJSON : JSON Json where
  stringify := fun value => value
  parse := fun content => .ok content

/-- The storage manager of the unit tests. -/
def testStorage : DataStorage := { dataDir := "test-data" }

/-- A snapshot document with aggregate statistics. -/
def statsDocument (repositories stars forks : Int) : Json :=
  .obj [("aggregateStats", .obj
    [("totalRepositories", .num repositories), ("totalStars", .num stars),
     ("totalForks", .num forks)])]

/-- The files of the unit test "should return sorted list of snapshot files",
in creation order, with statistics as content, next to a summary file and a
file of another directory. -/
def testFiles : FileSystem Json :=
  [("test-data/2026-01-01.json", statsDocument 100 1000 200),
   ("test-data/2026-01-15.json", statsDocument 105 1050 210),
   ("test-data/history.json", .obj []),
   ("other/2026-01-20.json", .obj []),
   ("test-data/2026-01-10.json", .obj [("date", .str "2026-01-10")])]

/-- The input of the unit test "should save and load snapshot data correctly". -/
def testData : JSObject JSValue :=
  [("topic", .str "json-schema"),
   ("repositories", .arr [.obj [("name", .str "test-repo"), ("stars", .num 100)]]),
   ("aggregateStats", .obj [("totalRepositories", .num 1), ("totalStars", .num 100)]),
   ("topPerLanguage", .obj [])]

/-- An input of `saveSnapshot` without topic. -/
def noTopicData : JSObject JSValue :=
  [("repositories", .arr [.obj [("name", .str "test-repo"), ("stars", .num 100)]]),
   ("aggregateStats", .obj [("totalRepositories", .num 1), ("totalStars", .num 100)]),
   ("topPerLanguage", .obj [])]

/-- An input of `saveSnapshot` whose repository record has the property
`stars` with the value `undefined`, as have the records the aggregator tests
build. -/
def undefinedStarsData : JSObject JSValue :=
  [("topic", .str "json-schema"),
   ("repositories", .arr [.obj [("name", .str "test-repo"), ("stars", .undefined)]]),
   ("aggregateStats", .obj [("totalRepositories", .num 1)]),
   ("topPerLanguage", .obj [])]

/-- The instant of the sample runs. -/
def sampleNow : String := "2026-02-01T10:00:00.000Z"

/-- A remote interface whose search fails on its first page. -/
def failingSearchOctokit : Octokit Unit :=
  { sampleOctokit with searchRepos := fun _ => [.error "rate limit exceeded"] }

/-- A `Link` header whose last page, 42, is followed by another parameter. -/
def pageFirstLink : String := "<u?page=42&per_page=1>; rel=\"last\""

/-- The sample interface with listings of contributors, issues and pull
requests that answer the header with the page parameter first, and one item. -/
def pageFirstOctokit : Octokit Unit :=
  { sampleOctokit with
    listContributors := fun _ _ => .ok { link := some pageFirstLink, data := [()] }
    listIssues := fun _ _ => .ok { link := some pageFirstLink, data := [()] }
    listPulls := fun _ _ => .ok { link := some pageFirstLink, data := [()] } }


/-! ## Storage: JSON text

The codec of the language standard between documents and text:
`JSON.stringify(document, null, 2)` and `JSON.parse(text)`. Text is a list of
characters. Numbers are integers, as everywhere in the embedding: the parser
reports a number with a fraction or an exponent, which has no value here, as
an error. A character is a Unicode scalar value, so an escape of a lone
surrogate is an error as well. -/

/-- The white space of JSON text: space, tab, line feed, carriage return. -/
def isWhitespace (c : Char) : Bool :=
  decide (c = ' ') || decide (c = '\t') || decide (c = '\n') || decide (c = '\r')

/-- Skip the white space at the head of the input. -/
def skipWhitespace : List Char → List Char
  | [] => []
  | c :: cs => if isWhitespace c then skipWhitespace cs else c :: cs

/-- The hexadecimal digit of a number below 16, in lower case. -/
def hexDigit (n : Nat) : Char :=
  if n < 10 then Char.ofNat (48 + n) else Char.ofNat (87 + n)

/-- The value of a hexadecimal digit, in either case. -/
def hexValue (c : Char) : Option Nat :=
  if 48 ≤ c.toNat ∧ c.toNat ≤ 57 then some (c.toNat - 48)
  else if 97 ≤ c.toNat ∧ c.toNat ≤ 102 then some (c.toNat - 87)
  else if 65 ≤ c.toNat ∧ c.toNat ≤ 70 then some (c.toNat - 55)
  else none

/-- The value of four hexadecimal digits. -/
def hexValue4 (a b c d : Char) : Option Nat :=
  match hexValue a, hexValue b, hexValue c, hexValue d with
  | some w, some x, some y, some z => some (4096 * w + 256 * x + 16 * y + z)
  | _, _, _, _ => none

/-- The text `JSON.stringify` writes for one character of a string: an escape
for the quotation mark, the backslash and the control characters, and the
character itself otherwise. -/
def escapeChar (c : Char) : List Char :=
  if c = '"' then ['\\', '"']
  else if c = '\\' then ['\\', '\\']
  else if c.toNat = 8 then ['\\', 'b']
  else if c.toNat = 12 then ['\\', 'f']
  else if c = '\n' then ['\\', 'n']
  else if c = '\r' then ['\\', 'r']
  else if c = '\t' then ['\\', 't']
  else if c.toNat < 32 then
    ['\\', 'u', '0', '0', hexDigit (c.toNat / 16), hexDigit (c.toNat % 16)]
  else [c]

/-- The text of a string (`QuoteJSONString`). -/
def quoteJSONString (s : String) : List Char :=
  '"' :: (s.toList.flatMap escapeChar ++ ['"'])

/-- The text of an integer. -/
def numberToString (n : Int) : List Char :=
  if n < 0 then '-' :: (toString n.natAbs).toList else (toString n.natAbs).toList

/-- An indentation of the given width. -/
def spaces (width : Nat) : List Char := List.replicate width ' '

mutual

/-- The text of a document at an indentation (`SerializeJSONProperty` with a
gap of two spaces). -/
def serializeJSON (indent : Nat) : Json → List Char
  | .null => ['n', 'u', 'l', 'l']
  | .bool true => ['t', 'r', 'u', 'e']
  | .bool false => ['f', 'a', 'l', 's', 'e']
  | .num n => numberToString n
  | .str s => quoteJSONString s
  | .arr [] => ['[', ']']
  | .arr (item :: items) =>
    '[' :: '\n' :: (spaces (indent + 2) ++ (serializeJSON (indent + 2) item
      ++ (serializeMoreItems (indent + 2) items ++ '\n' :: (spaces indent ++ [']']))))
  | .obj [] => ['{', '}']
  | .obj ((key, value) :: fields) =>
    '{' :: '\n' :: (spaces (indent + 2) ++ (quoteJSONString key
      ++ ':' :: ' ' :: (serializeJSON (indent + 2) value
      ++ (serializeMoreFields (indent + 2) fields ++ '\n' :: (spaces indent ++ ['}'])))))

/-- The text of the items of an array after the first, each after a comma and
a line break. -/
def serializeMoreItems (indent : Nat) : List Json → List Char
  | [] => []
  | item :: items =>
    ',' :: '\n' :: (spaces indent ++ (serializeJSON indent item
      ++ serializeMoreItems indent items))

/-- The text of the properties of an object after the first, each after a
comma and a line break. -/
def serializeMoreFields (indent : Nat) : List (String × Json) → List Char
  | [] => []
  | (key, value) :: fields =>
    ',' :: '\n' :: (spaces indent ++ (quoteJSONString key
      ++ ':' :: ' ' :: (serializeJSON indent value ++ serializeMoreFields indent fields)))

end

/-- The call `JSON.stringify(document, null, 2)`. -/
def jsonStringify (document : Json) : String := String.mk (serializeJSON 0 document)

/-- The character of a one-letter escape. -/
def unescapeChar (e : Char) : Option Char :=
  if e = '"' then some '"'
  else if e = '\\' then some '\\'
  else if e = '/' then some '/'
  else if e = 'b' then some (Char.ofNat 8)
  else if e = 'f' then some (Char.ofNat 12)
  else if e = 'n' then some '\n'
  else if e = 'r' then some '\r'
  else if e = 't' then some '\t'
  else none

/-- Read the second half of a surrogate pair, `\uXXXX` with a low surrogate,
after the high surrogate `unit`: the character of the pair. -/
def readLowSurrogate (unit : Nat) : List Char → Option (Char × List Char)
  | b :: u :: l1 :: l2 :: l3 :: l4 :: rest =>
    if b = '\\' ∧ u = 'u' then
      match hexValue4 l1 l2 l3 l4 with
      | none => none
      | some low =>
        if 56320 ≤ low ∧ low < 57344 then
          some (Char.ofNat (65536 + (unit - 55296) * 1024 + (low - 56320)), rest)
        else none
    else none
  | _ => none

/-- Read the four hexadecimal digits of an escape `\uXXXX`: the character of
the code unit, or of the surrogate pair it opens. -/
def readUnicodeEscape : List Char → Option (Char × List Char)
  | h1 :: h2 :: h3 :: h4 :: rest =>
    match hexValue4 h1 h2 h3 h4 with
    | none => none
    | some unit =>
      if unit < 55296 ∨ 57344 ≤ unit then some (Char.ofNat unit, rest)
      else if unit < 56320 then readLowSurrogate unit rest
      else none
  | _ => none

/-- Read an escape after its backslash. -/
def readEscape : List Char → Option (Char × List Char)
  | [] => none
  | e :: rest =>
    if e = 'u' then readUnicodeEscape rest
    else (unescapeChar e).map (fun ch => (ch, rest))

/-- Read one item of a string: the closing quotation mark, for which the
result holds no character, or one character, plain or escaped. A control
character cannot stand in a string. -/
def readStringChar : List Char → Option (Option Char × List Char)
  | [] => none
  | c :: rest =>
    if c = '"' then some (none, rest)
    else if c = '\\' then (readEscape rest).map (fun p => (some p.1, p.2))
    else if c.toNat < 32 then none
    else some (some c, rest)

/-- Read a string after its opening quotation mark: the characters up to the
closing quotation mark, and what follows it. -/
def parseString : Nat → List Char → Option (List Char × List Char)
  | 0, _ => none
  | fuel + 1, input =>
    match readStringChar input with
    | none => none
    | some (none, rest) => some ([], rest)
    | some (some c, rest) => (parseString fuel rest).map (fun p => (c :: p.1, p.2))

/-- Read a number: an optional minus sign and a run of digits without a
leading zero, not followed by a fraction or an exponent. -/
def parseNumber (input : List Char) : Option (Json × List Char) :=
  let negative := decide (input.head? = some '-')
  let body := if negative then input.drop 1 else input
  let digits := body.takeWhile isDigit
  let rest := body.dropWhile isDigit
  if digits = [] then none
  else if digits.head? = some '0' ∧ 1 < digits.length then none
  else if rest.head? = some '.' ∨ rest.head? = some 'e' ∨ rest.head? = some 'E' then none
  else if negative then some (.num (-(parseInt10 digits : Int)), rest)
  else some (.num (parseInt10 digits : Int), rest)

mutual

/-- Read one value at the head of the input, which does not start with white
space: the value and what follows it. -/
def parseValue : Nat → List Char → Option (Json × List Char)
  | 0, _ => none
  | fuel + 1, input =>
    match input with
    | [] => none
    | c :: rest =>
      if c = 'n' then (dropPrefix ['u', 'l', 'l'] rest).map (fun rest => (Json.null, rest))
      else if c = 't' then
        (dropPrefix ['r', 'u', 'e'] rest).map (fun rest => (Json.bool true, rest))
      else if c = 'f' then
        (dropPrefix ['a', 'l', 's', 'e'] rest).map (fun rest => (Json.bool false, rest))
      else if c = '"' then
        (parseString rest.length rest).map (fun p => (Json.str (String.mk p.1), p.2))
      else if c = '[' then
        match skipWhitespace rest with
        | [] => none
        | d :: rest => if d = ']' then some (.arr [], rest) else parseItems fuel (d :: rest) []
      else if c = '{' then
        match skipWhitespace rest with
        | [] => none
        | d :: rest => if d = '}' then some (.obj [], rest) else parseMembers fuel (d :: rest) []
      else parseNumber (c :: rest)

/-- Read the items of an array up to the closing bracket, after the items read
so far. -/
def parseItems : Nat → List Char → List Json → Option (Json × List Char)
  | 0, _, _ => none
  | fuel + 1, input, items =>
    match parseValue fuel input with
    | none => none
    | some (value, rest) =>
      match skipWhitespace rest with
      | [] => none
      | d :: rest =>
        if d = ',' then parseItems fuel (skipWhitespace rest) (items ++ [value])
        else if d = ']' then some (.arr (items ++ [value]), rest)
        else none

/-- Read the properties of an object up to the closing brace, after the
properties read so far: a name that comes again overwrites the value of the
property. -/
def parseMembers : Nat → List Char → JSObject Json → Option (Json × List Char)
  | 0, _, _ => none
  | fuel + 1, input, fields =>
    match input with
    | [] => none
    | q :: rest =>
      if q = '"' then
        match parseString rest.length rest with
        | none => none
        | some (key, rest) =>
          match skipWhitespace rest with
          | [] => none
          | colon :: rest =>
            if colon = ':' then
              match parseValue fuel (skipWhitespace rest) with
              | none => none
              | some (value, rest) =>
                match skipWhitespace rest with
                | [] => none
                | d :: rest =>
                  if d = ',' then
                    parseMembers fuel (skipWhitespace rest)
                      (JSObject.set fields (String.mk key) value)
                  else if d = '}' then
                    some (.obj (JSObject.set fields (String.mk key) value), rest)
                  else none
            else none
      else none

end

/-- The error of `JSON.parse` on text that is no JSON text. -/
def syntaxError : String := "SyntaxError: Unexpected token in JSON"

/-- The call `JSON.parse(text)`: one value between white space. Every value
needs less fuel than the text has characters. -/
def jsonParse (text : String) : Except String Json :=
  match parseValue (text.length + 1) (skipWhitespace text.toList) with
  | none => .error syntaxError
  | some (value, rest) => if skipWhitespace rest = [] then .ok value else .error syntaxError

/-- The codec of the language standard, between documents and text. -/
def standardJSON : JSON String where
  stringify := jsonStringify
  parse := jsonParse

mutual

/-- The number of values of a document, the items of its arrays and the
properties of its objects counted once more each. -/
def Json.nodes : Json → Nat
  | .arr items => 1 + Json.nodesOfItems items
  | .obj fields => 1 + Json.nodesOfFields fields
  | _ => 1

/-- The number of values of the items of an array. -/
def Json.nodesOfItems : List Json → Nat
  | [] => 0
  | item :: items => 1 + Json.nodes item + Json.nodesOfItems items

/-- The number of values of the properties of an object. -/
def Json.nodesOfFields : List (String × Json) → Nat
  | [] => 0
  | (_, value) :: fields => 1 + Json.nodes value + Json.nodesOfFields fields

end

mutual

/-- Every object of the document has each of its property names once, as
every object has. -/
def Json.uniqueNames : Json → Bool
  | .arr items => Json.uniqueNamesOfItems items
  | .obj fields => decide (JSObject.keys fields).Nodup && Json.uniqueNamesOfFields fields
  | _ => true

/-- Every object of the items has each of its property names once. -/
def Json.uniqueNamesOfItems : List Json → Bool
  | [] => true
  | item :: items => Json.uniqueNames item && Json.uniqueNamesOfItems items

/-- Every object of the values of the properties has each of its property
names once. -/
def Json.uniqueNamesOfFields : List (String × Json) → Bool
  | [] => true
  | (_, value) :: fields => Json.uniqueNames value && Json.uniqueNamesOfFields fields

end

mutual

/-- Every object of the value has each of its property names once, as every
object has. -/
def JSValue.uniqueNames : JSValue → Bool
  | .arr items => JSValue.uniqueNamesOfItems items
  | .obj fields => decide (JSObject.keys fields).Nodup && JSValue.uniqueNamesOfFields fields
  | _ => true

/-- Every object of the items has each of its property names once. -/
def JSValue.uniqueNamesOfItems : List JSValue → Bool
  | [] => true
  | item :: items => JSValue.uniqueNames item && JSValue.uniqueNamesOfItems items

/-- Every object of the values of the properties has each of its property
names once. -/
def JSValue.uniqueNamesOfFields : List (String × JSValue) → Bool
  | [] => true
  | (_, value) :: fields => JSValue.uniqueNames value && JSValue.uniqueNamesOfFields fields

end

/-- The sample document of the tests of the codec. -/
def sampleDocument : Json :=
  .obj [("name", .str "a \"b\"\n"), ("stars", .num (-12)), ("tags", .arr [.null, .bool true]),
        ("none", .obj []), ("list", .arr [])]
/-! ## Lemmas on objects and the `||` defaults -/

theorem orZero_eq_getD (x : Option Int) : orZero x = x.getD 0 := by
  cases x with
  | none => rfl
  | some n =>
    by_cases h : n = 0
    · simp [orZero, h]
    · simp [orZero, h]

theorem orZeroNat_eq_getD (x : Option Nat) : orZeroNat x = x.getD 0 := by
  cases x with
  | none => rfl
  | some n =>
    by_cases h : n = 0
    · simp [orZeroNat, h]
    · simp [orZeroNat, h]

theorem languageOrUnknown_of_none (repo : RepositoryMetric) (h : repo.language = none) :
    languageOrUnknown repo = "Unknown" := by
  simp [languageOrUnknown, h]

theorem languageOrUnknown_of_some (repo : RepositoryMetric) (s : String)
    (h : repo.language = some s) (hs : s ≠ "") : languageOrUnknown repo = s := by
  simp [languageOrUnknown, h, hs]

theorem languageOrUnknown_ne_empty (repo : RepositoryMetric) :
    languageOrUnknown repo ≠ "" := by
  unfold languageOrUnknown
  cases repo.language with
  | none => decide
  | some s =>
    by_cases hs : s = ""
    · simp [hs]
    · simp [hs]

theorem JSObject.get_set_same {α : Type} (o : JSObject α) (k : String) (v : α) :
    JSObject.get (JSObject.set o k v) k = some v := by
  induction o with
  | nil => simp [JSObject.set, JSObject.get]
  | cons p o ih =>
    obtain ⟨k', v'⟩ := p
    by_cases h : k' = k
    · simp [JSObject.set, JSObject.get, h]
    · simp [JSObject.set, JSObject.get, h, ih]

theorem JSObject.get_set_other {α : Type} (o : JSObject α) (k j : String) (v : α)
    (hkj : k ≠ j) : JSObject.get (JSObject.set o k v) j = JSObject.get o j := by
  induction o with
  | nil => simp [JSObject.set, JSObject.get, hkj]
  | cons p o ih =>
    obtain ⟨k', v'⟩ := p
    by_cases h : k' = k
    · subst h
      simp [JSObject.set, JSObject.get, hkj]
    · simp [JSObject.set, JSObject.get, h, ih]

/-- Writing `(o[k] || 0) + 1` to `o[k]` raises the sum of the values by one. -/
theorem JSObject.sum_values_bump (o : JSObject Nat) (k : String) :
    (JSObject.values (JSObject.set o k (orZeroNat (JSObject.get o k) + 1))).sum
      = (JSObject.values o).sum + 1 := by
  induction o with
  | nil => simp [JSObject.set, JSObject.get, JSObject.values, orZeroNat]
  | cons p o ih =>
    obtain ⟨k', v'⟩ := p
    by_cases h : k' = k
    · simp [JSObject.set, JSObject.get, JSObject.values, h, orZeroNat_eq_getD]
      omega
    · simp only [JSObject.values] at ih
      simp [JSObject.set, JSObject.get, JSObject.values, h, ih]
      omega

/-! ## Lemmas on `groupByLanguage` -/

theorem JSObject.set_set {α : Type} (o : JSObject α) (k : String) (a b : α) :
    JSObject.set (JSObject.set o k a) k b = JSObject.set o k b := by
  induction o with
  | nil => simp [JSObject.set]
  | cons p o ih =>
    obtain ⟨k', v'⟩ := p
    by_cases h : k' = k
    · simp [JSObject.set, h]
    · simp [JSObject.set, h, ih]

theorem JSObject.mem_keys_set {α : Type} (o : JSObject α) (k j : String) (v : α) :
    j ∈ JSObject.keys (JSObject.set o k v) ↔ j = k ∨ j ∈ JSObject.keys o := by
  induction o with
  | nil => simp [JSObject.set, JSObject.keys]
  | cons p o ih =>
    obtain ⟨k', v'⟩ := p
    simp only [JSObject.keys] at ih
    by_cases h : k' = k
    · subst h
      simp [JSObject.set, JSObject.keys]
    · simp only [JSObject.set, JSObject.keys, h, if_false, List.map_cons, List.mem_cons, ih]
      tauto

theorem JSObject.nodup_keys_set {α : Type} (o : JSObject α) (k : String) (v : α)
    (h : (JSObject.keys o).Nodup) : (JSObject.keys (JSObject.set o k v)).Nodup := by
  induction o with
  | nil => simp [JSObject.set, JSObject.keys]
  | cons p o ih =>
    obtain ⟨k', v'⟩ := p
    have hcons : k' ∉ JSObject.keys o ∧ (JSObject.keys o).Nodup := by
      simpa [JSObject.keys] using h
    by_cases hk : k' = k
    · subst hk
      simpa [JSObject.set, JSObject.keys] using h
    · have hmem : k' ∉ JSObject.keys (JSObject.set o k v) := by
        rw [JSObject.mem_keys_set]
        intro hor
        rcases hor with h1 | h1
        · exact hk h1
        · exact hcons.1 h1
      have hnd := ih hcons.2
      simp only [JSObject.keys] at hmem hnd
      simp only [JSObject.set, JSObject.keys, hk, if_false, List.map_cons, List.nodup_cons]
      exact ⟨hmem, hnd⟩

theorem JSObject.get_eq_none_iff {α : Type} (o : JSObject α) (k : String) :
    JSObject.get o k = none ↔ k ∉ JSObject.keys o := by
  induction o with
  | nil => simp [JSObject.get, JSObject.keys]
  | cons p o ih =>
    obtain ⟨k', v'⟩ := p
    simp only [JSObject.keys] at ih
    by_cases h : k' = k
    · simp [JSObject.get, JSObject.keys, h]
    · have h' : ¬ k = k' := fun e => h e.symm
      simp [JSObject.get, JSObject.keys, h, h', ih]

/-- In an object, which has every property name once, the entries are the
pairs of a name and the value read at it. -/
theorem JSObject.mem_iff_get {α : Type} (o : JSObject α) (k : String) (v : α)
    (h : (JSObject.keys o).Nodup) : (k, v) ∈ o ↔ JSObject.get o k = some v := by
  induction o with
  | nil => simp [JSObject.get]
  | cons p o ih =>
    obtain ⟨k', v'⟩ := p
    have hcons : k' ∉ JSObject.keys o ∧ (JSObject.keys o).Nodup := by
      simpa [JSObject.keys] using h
    by_cases hk : k' = k
    · subst hk
      have hno : ∀ w, (k', w) ∉ o := by
        intro w hw
        exact hcons.1 (List.mem_map.mpr ⟨(k', w), hw, rfl⟩)
      simp only [JSObject.get, if_true, List.mem_cons, Prod.mk.injEq, true_and, Option.some.injEq]
      constructor
      · intro hor
        rcases hor with h1 | h1
        · exact h1.symm
        · exact absurd h1 (hno v)
      · intro h1
        exact Or.inl h1.symm
    · have hk' : ¬ k = k' := fun e => hk e.symm
      simp [JSObject.get, hk, hk', ih hcons.2]

theorem JSObject.get_map {α β : Type} (o : JSObject α) (f : α → β) (k : String) :
    JSObject.get (o.map (fun entry => (entry.1, f entry.2))) k = (JSObject.get o k).map f := by
  induction o with
  | nil => simp [JSObject.get]
  | cons p o ih =>
    obtain ⟨k', v'⟩ := p
    by_cases h : k' = k
    · simp [JSObject.get, h]
    · simp [JSObject.get, h, ih]

theorem JSObject.keys_map {α β : Type} (o : JSObject α) (f : α → β) :
    JSObject.keys (o.map (fun entry => (entry.1, f entry.2))) = JSObject.keys o := by
  simp [JSObject.keys]

/-- What the first loop leaves at a language: the records of that language, in
input order, after what was there. -/
theorem foldl_pushPlain_get (repositories : List RepositoryMetric)
    (o : JSObject (List RepositoryMetric)) (lang : String) :
    JSObject.get (repositories.foldl pushPlain o) lang
      = if repositories.filter (fun r => decide (languageOrUnknown r = lang)) = []
        then JSObject.get o lang
        else some ((JSObject.get o lang).getD []
          ++ repositories.filter (fun r => decide (languageOrUnknown r = lang))) := by
  induction repositories generalizing o with
  | nil => simp
  | cons repo rest ih =>
    rw [List.foldl_cons, ih (pushPlain o repo), pushPlain]
    by_cases hk : languageOrUnknown repo = lang
    · subst hk
      rw [JSObject.get_set_same]
      by_cases hrest : rest.filter (fun r => decide (languageOrUnknown r = languageOrUnknown repo))
          = []
      · simp [hrest]
      · simp [hrest]
    · rw [JSObject.get_set_other _ _ _ _ hk]
      simp [hk]

theorem foldl_pushPlain_keys (repositories : List RepositoryMetric)
    (o : JSObject (List RepositoryMetric)) (lang : String) :
    lang ∈ JSObject.keys (repositories.foldl pushPlain o)
      ↔ lang ∈ JSObject.keys o ∨ ∃ r ∈ repositories, languageOrUnknown r = lang := by
  induction repositories generalizing o with
  | nil => simp
  | cons repo rest ih =>
    rw [List.foldl_cons, ih (pushPlain o repo), pushPlain, JSObject.mem_keys_set]
    simp only [List.mem_cons, exists_eq_or_imp]
    constructor
    · rintro ((h | h) | h)
      · exact Or.inr (Or.inl h.symm)
      · exact Or.inl h
      · exact Or.inr (Or.inr h)
    · rintro (h | h | h)
      · exact Or.inl (Or.inr h)
      · exact Or.inl (Or.inl h.symm)
      · exact Or.inr h

theorem foldl_pushPlain_nodup (repositories : List RepositoryMetric)
    (o : JSObject (List RepositoryMetric)) (h : (JSObject.keys o).Nodup) :
    (JSObject.keys (repositories.foldl pushPlain o)).Nodup := by
  induction repositories generalizing o with
  | nil => simpa using h
  | cons repo rest ih =>
    rw [List.foldl_cons]
    apply ih
    rw [pushPlain]
    exact JSObject.nodup_keys_set _ _ _ h

/-- The language names of the grouping occur once each. -/
theorem groupPlain_keys_nodup (repositories : List RepositoryMetric) :
    (JSObject.keys (groupPlain repositories)).Nodup := by
  unfold groupPlain sortGroups
  rw [JSObject.keys_map]
  exact foldl_pushPlain_nodup repositories [] (by simp [JSObject.keys])

/-- The language names of the grouping are the language keys of the records. -/
theorem groupPlain_mem_keys (repositories : List RepositoryMetric) (lang : String) :
    lang ∈ JSObject.keys (groupPlain repositories)
      ↔ ∃ r ∈ repositories, languageOrUnknown r = lang := by
  unfold groupPlain sortGroups
  rw [JSObject.keys_map, foldl_pushPlain_keys]
  simp [JSObject.keys]

/-- The group of a language: the records of that language, in input order,
sorted; no property when there is no such record. -/
theorem groupPlain_get (repositories : List RepositoryMetric) (lang : String) :
    JSObject.get (groupPlain repositories) lang
      = if repositories.filter (fun r => decide (languageOrUnknown r = lang)) = [] then none
        else some (sortByStars
          (repositories.filter (fun r => decide (languageOrUnknown r = lang)))) := by
  unfold groupPlain sortGroups
  rw [JSObject.get_map, foldl_pushPlain_get]
  by_cases h : repositories.filter (fun r => decide (languageOrUnknown r = lang)) = []
  · simp [h, JSObject.get]
  · simp [h, JSObject.get]

theorem sortByStars_perm (group : List RepositoryMetric) : (sortByStars group).Perm group :=
  List.perm_insertionSort starsOrder group

/-- Every entry of the grouping is a language with the sorted records of that
language, of which there is at least one. -/
theorem groupPlain_entry (repositories : List RepositoryMetric) (lang : String)
    (group : List RepositoryMetric) (h : (lang, group) ∈ groupPlain repositories) :
    repositories.filter (fun r => decide (languageOrUnknown r = lang)) ≠ []
    ∧ group = sortByStars (repositories.filter (fun r => decide (languageOrUnknown r = lang))) := by
  rw [JSObject.mem_iff_get _ _ _ (groupPlain_keys_nodup repositories),
    groupPlain_get] at h
  by_cases hf : repositories.filter (fun r => decide (languageOrUnknown r = lang)) = []
  · simp [hf] at h
  · simp only [hf, if_false, Option.some.injEq] at h
    exact ⟨hf, h.symm⟩

/-- The languages counted by the fold are those counted before and the
language keys of the records. -/
theorem foldl_countPlain_keys (repositories : List RepositoryMetric)
    (counts : JSObject Nat) (lang : String) :
    lang ∈ JSObject.keys (repositories.foldl countPlain counts)
      ↔ lang ∈ JSObject.keys counts ∨ ∃ r ∈ repositories, languageOrUnknown r = lang := by
  induction repositories generalizing counts with
  | nil => simp
  | cons repo rest ih =>
    rw [List.foldl_cons, ih (countPlain counts repo), countPlain, JSObject.mem_keys_set]
    simp only [List.mem_cons, exists_eq_or_imp]
    constructor
    · rintro ((h | h) | h)
      · exact Or.inr (Or.inl h.symm)
      · exact Or.inl h
      · exact Or.inr (Or.inr h)
    · rintro (h | h | h)
      · exact Or.inl (Or.inr h)
      · exact Or.inl (Or.inl h.symm)
      · exact Or.inr h

/-- The fold raises the sum of the counters by the number of records. -/
theorem foldl_countPlain_sum (repositories : List RepositoryMetric) (counts : JSObject Nat) :
    (JSObject.values (repositories.foldl countPlain counts)).sum
      = (JSObject.values counts).sum + repositories.length := by
  induction repositories generalizing counts with
  | nil => simp
  | cons repo rest ih =>
    rw [List.foldl_cons, ih (countPlain counts repo), countPlain, JSObject.sum_values_bump,
      List.length_cons]
    omega

/-- The fold raises the counter of a language by the number of records whose
key is that language. -/
theorem foldl_countPlain_get (repositories : List RepositoryMetric)
    (counts : JSObject Nat) (lang : String) :
    (JSObject.get (repositories.foldl countPlain counts) lang).getD 0
      = (JSObject.get counts lang).getD 0
        + repositories.countP (fun r => decide (languageOrUnknown r = lang)) := by
  induction repositories generalizing counts with
  | nil => simp
  | cons repo rest ih =>
    rw [List.foldl_cons, ih (countPlain counts repo), countPlain, List.countP_cons]
    by_cases hk : languageOrUnknown repo = lang
    · subst hk
      rw [JSObject.get_set_same]
      simp [orZeroNat_eq_getD]
      omega
    · rw [JSObject.get_set_other _ _ _ _ hk]
      simp [hk]

/-! ## The methods and the folds -/

theorem JSObject.read_of_plain {α : Type} (o : JSObject α) (k : String)
    (hk : k ∉ objectPrototypeNames) :
    JSObject.read o k
      = match JSObject.get o k with
        | some v => .own v
        | none => .undefined := by
  unfold JSObject.read
  cases JSObject.get o k with
  | none => simp [hk]
  | some v => rfl

theorem JSObject.read_of_inherited {α : Type} (o : JSObject α) (k : String)
    (hk : k ∈ objectPrototypeNames) (ho : PlainKeys o) :
    JSObject.read o k = .inherited := by
  unfold JSObject.read
  have hnone : JSObject.get o k = none :=
    (JSObject.get_eq_none_iff o k).mpr (fun hmem => ho k hmem hk)
  simp [hnone, hk]

/-- One turn of the first loop for a record whose language names no inherited
member is the single write. -/
theorem pushByLanguage_of_plain (o : JSObject (List RepositoryMetric)) (repo : RepositoryMetric)
    (hk : languageOrUnknown repo ∉ objectPrototypeNames) :
    pushByLanguage o repo = .ok (pushPlain o repo) := by
  unfold pushByLanguage pushPlain
  simp only [JSObject.read_of_plain _ _ hk]
  cases hget : JSObject.get o (languageOrUnknown repo) with
  | none => simp [JSObject.get_set_same, JSObject.set_set]
  | some g => simp [hget]

/-- One turn of the first loop for a record whose language names an inherited
member throws. -/
theorem pushByLanguage_of_inherited (o : JSObject (List RepositoryMetric))
    (repo : RepositoryMetric) (hk : languageOrUnknown repo ∈ objectPrototypeNames)
    (ho : PlainKeys o) :
    pushByLanguage o repo = .error pushTypeError := by
  unfold pushByLanguage
  simp [JSObject.read_of_inherited _ _ hk ho]

theorem plainKeys_pushPlain (o : JSObject (List RepositoryMetric)) (repo : RepositoryMetric)
    (hk : languageOrUnknown repo ∉ objectPrototypeNames) (ho : PlainKeys o) :
    PlainKeys (pushPlain o repo) := by
  intro k hmem
  unfold pushPlain at hmem
  rcases (JSObject.mem_keys_set _ _ _ _).mp hmem with h | h
  · rw [h]
    exact hk
  · exact ho k h

/-- The first loop over records whose languages name no inherited member is
the fold of the single writes. -/
theorem fillGroups_of_plain (repositories : List RepositoryMetric)
    (o : JSObject (List RepositoryMetric)) (hplain : PlainLanguages repositories) :
    fillGroups repositories o = .ok (repositories.foldl pushPlain o) := by
  induction repositories generalizing o with
  | nil => rfl
  | cons repo rest ih =>
    have hk := hplain repo (List.mem_cons_self repo rest)
    have hrest : PlainLanguages rest := fun r hr => hplain r (List.mem_cons_of_mem repo hr)
    simp only [fillGroups, pushByLanguage_of_plain o repo hk, List.foldl_cons]
    exact ih _ hrest

/-- The first loop throws as soon as a record has a language that names an
inherited member. -/
theorem fillGroups_of_inherited (repositories : List RepositoryMetric)
    (o : JSObject (List RepositoryMetric)) (ho : PlainKeys o)
    (hsome : ¬ PlainLanguages repositories) :
    fillGroups repositories o = .error pushTypeError := by
  induction repositories generalizing o with
  | nil =>
    exfalso
    apply hsome
    intro r hr
    exact absurd hr (List.not_mem_nil r)
  | cons repo rest ih =>
    by_cases hk : languageOrUnknown repo ∈ objectPrototypeNames
    · simp only [fillGroups, pushByLanguage_of_inherited o repo hk ho]
    · simp only [fillGroups, pushByLanguage_of_plain o repo hk]
      apply ih _ (plainKeys_pushPlain o repo hk ho)
      intro hrest
      apply hsome
      intro r hr
      rcases List.mem_cons.mp hr with h | h
      · rw [h]
        exact hk
      · exact hrest r h

theorem plainKeys_nil {α : Type} : PlainKeys ([] : JSObject α) := by
  intro k hk
  simp [JSObject.keys] at hk

/-- The grouping of records whose languages name no inherited member. -/
theorem groupByLanguage_of_plain (repositories : List RepositoryMetric)
    (hplain : PlainLanguages repositories) :
    groupByLanguage repositories = .ok (groupPlain repositories) := by
  unfold groupByLanguage groupPlain
  rw [fillGroups_of_plain repositories [] hplain]

/-- The grouping throws when a record has a language that names an inherited
member. -/
theorem groupByLanguage_of_inherited (repositories : List RepositoryMetric)
    (hsome : ¬ PlainLanguages repositories) :
    groupByLanguage repositories = .error pushTypeError := by
  unfold groupByLanguage
  rw [fillGroups_of_inherited repositories [] plainKeys_nil hsome]

/-- When the grouping returns, no language names an inherited member and the
result is the sorted fold. -/
theorem groupByLanguage_ok (repositories : List RepositoryMetric)
    (groups : JSObject (List RepositoryMetric))
    (h : groupByLanguage repositories = .ok groups) :
    PlainLanguages repositories ∧ groups = groupPlain repositories := by
  by_cases hplain : PlainLanguages repositories
  · rw [groupByLanguage_of_plain repositories hplain] at h
    exact ⟨hplain, (Except.ok.inj h).symm⟩
  · rw [groupByLanguage_of_inherited repositories hplain] at h
    exact Except.noConfusion h

/-! ## The count of the languages and the fold -/

theorem JSObject.set_map {α β : Type} (o : JSObject α) (f : α → β) (k : String) (v : α) :
    JSObject.set (o.map (fun entry => (entry.1, f entry.2))) k (f v)
      = (JSObject.set o k v).map (fun entry => (entry.1, f entry.2)) := by
  induction o with
  | nil => simp [JSObject.set]
  | cons p o ih =>
    obtain ⟨k', v'⟩ := p
    by_cases h : k' = k
    · simp [JSObject.set, h]
    · simp [JSObject.set, h, ih]

/-- The language distribution of the fold is the fold of the counting
statement. -/
theorem foldl_accumulate_distribution (repositories : List RepositoryMetric)
    (stats : AggregateStats) :
    (repositories.foldl accumulate stats).languageDistribution
      = repositories.foldl (fun d r => countLanguage d (languageOrUnknown r))
          stats.languageDistribution := by
  induction repositories generalizing stats with
  | nil => rfl
  | cons repo rest ih =>
    rw [List.foldl_cons, List.foldl_cons, ih (accumulate stats repo)]
    rfl

/-- On counters that are numbers, the counting statement for a language that
names no inherited member raises the counter of the language by one. -/
theorem countLanguage_numberCounters (counts : JSObject Nat) (repo : RepositoryMetric)
    (hk : languageOrUnknown repo ∉ objectPrototypeNames) :
    countLanguage (numberCounters counts) (languageOrUnknown repo)
      = numberCounters (countPlain counts repo) := by
  have hproto : languageOrUnknown repo ≠ "__proto__" := by
    intro h
    apply hk
    rw [h]
    decide
  unfold countLanguage JSObject.assign countPlain numberCounters
  rw [if_neg hproto, JSObject.read_of_plain _ _ hk, JSObject.get_map]
  cases hget : JSObject.get counts (languageOrUnknown repo) with
  | none =>
    simp only [Option.map_none', bumpCounter, orZeroNat]
    exact JSObject.set_map counts Counter.number _ _
  | some n =>
    simp only [Option.map_some', bumpCounter, orZeroNat]
    exact JSObject.set_map counts Counter.number _ _

theorem foldl_countLanguage_of_plain (repositories : List RepositoryMetric)
    (counts : JSObject Nat) (hplain : PlainLanguages repositories) :
    repositories.foldl (fun d r => countLanguage d (languageOrUnknown r)) (numberCounters counts)
      = numberCounters (repositories.foldl countPlain counts) := by
  induction repositories generalizing counts with
  | nil => rfl
  | cons repo rest ih =>
    have hk := hplain repo (List.mem_cons_self repo rest)
    have hrest : PlainLanguages rest := fun r hr => hplain r (List.mem_cons_of_mem repo hr)
    rw [List.foldl_cons, List.foldl_cons, countLanguage_numberCounters counts repo hk]
    exact ih _ hrest

/-- The language distribution of records whose languages name no inherited
member: the counters are numbers, those of the fold. -/
theorem calculateAggregateStats_distribution_of_plain (repositories : List RepositoryMetric)
    (hplain : PlainLanguages repositories) :
    (calculateAggregateStats repositories).languageDistribution
      = numberCounters (repositories.foldl countPlain []) := by
  unfold calculateAggregateStats
  rw [foldl_accumulate_distribution]
  exact foldl_countLanguage_of_plain repositories [] hplain
/-! ## Lemmas on the sort by stars and on `getTopPerLanguage` -/

theorem starsOrder_iff_of_numeric (a b : RepositoryMetric) (x y : Int)
    (ha : a.stars = some x) (hb : b.stars = some y) : starsOrder a b ↔ y ≤ x := by
  simp [starsOrder, sortCompare, compareStars, ha, hb]

theorem starsOrder_of_stars_eq (a b : RepositoryMetric) (h : a.stars = b.stars) :
    starsOrder a b := by
  unfold starsOrder sortCompare compareStars
  rw [h]
  cases b.stars with
  | none => simp
  | some y => simp

theorem orderedInsert_starsGE (a : RepositoryMetric) (l : List RepositoryMetric)
    (ha : ∃ x, a.stars = some x) (hl : ∀ r ∈ l, ∃ x, r.stars = some x)
    (hs : l.Pairwise StarsGE) : (l.orderedInsert starsOrder a).Pairwise StarsGE := by
  induction l with
  | nil => simp
  | cons b l ih =>
    obtain ⟨x, hx⟩ := ha
    obtain ⟨y, hy⟩ := hl b (List.mem_cons_self b l)
    have hl' : ∀ r ∈ l, ∃ z, r.stars = some z := fun r hr => hl r (List.mem_cons_of_mem b hr)
    obtain ⟨hb, hp⟩ := List.pairwise_cons.mp hs
    by_cases hab : starsOrder a b
    · rw [List.orderedInsert, if_pos hab]
      have hyx : y ≤ x := (starsOrder_iff_of_numeric a b x y hx hy).mp hab
      refine List.pairwise_cons.mpr ⟨?_, hs⟩
      intro c hc
      rcases List.mem_cons.mp hc with hcb | hcl
      · subst hcb
        exact ⟨x, y, hx, hy, hyx⟩
      · obtain ⟨y', z, hy', hz, hzy⟩ := hb c hcl
        have hyy : y' = y := by
          rw [hy] at hy'
          exact (Option.some.inj hy').symm
        exact ⟨x, z, hx, hz, by omega⟩
    · rw [List.orderedInsert, if_neg hab]
      have hxy : ¬ y ≤ x := fun h => hab ((starsOrder_iff_of_numeric a b x y hx hy).mpr h)
      refine List.pairwise_cons.mpr ⟨?_, ih hl' hp⟩
      intro c hc
      rcases (List.mem_orderedInsert starsOrder).mp hc with hca | hcl
      · subst hca
        exact ⟨y, x, hy, hx, by omega⟩
      · exact hb c hcl

/-- Sorting records whose stars are all numbers leaves the stars non-increasing. -/
theorem sortByStars_pairwise (group : List RepositoryMetric)
    (h : ∀ r ∈ group, ∃ x, r.stars = some x) : (sortByStars group).Pairwise StarsGE := by
  induction group with
  | nil => simp [sortByStars]
  | cons a l ih =>
    have hl : ∀ r ∈ l, ∃ x, r.stars = some x := fun r hr => h r (List.mem_cons_of_mem a hr)
    have hsorted : ∀ r ∈ sortByStars l, ∃ x, r.stars = some x := fun r hr =>
      hl r ((sortByStars_perm l).mem_iff.mp hr)
    exact orderedInsert_starsGE a (sortByStars l) (h a (List.mem_cons_self a l)) hsorted (ih hl)

/-- The sort keeps the records of one star count in their input order. -/
theorem sortByStars_filter_stars (group : List RepositoryMetric) (s : Option Int) :
    (sortByStars group).filter (fun r => decide (r.stars = s))
      = group.filter (fun r => decide (r.stars = s)) := by
  have hpair : (group.filter (fun r => decide (r.stars = s))).Pairwise starsOrder := by
    apply List.pairwise_of_forall_mem_list
    intro a ha b hb
    have h1 : a.stars = s := by simpa using (List.mem_filter.mp ha).2
    have h2 : b.stars = s := by simpa using (List.mem_filter.mp hb).2
    exact starsOrder_of_stars_eq a b (h1.trans h2.symm)
  have hsub : List.Sublist (group.filter (fun r => decide (r.stars = s))) (sortByStars group) :=
    List.sublist_insertionSort hpair (List.filter_sublist group)
  have hsub' : List.Sublist (group.filter (fun r => decide (r.stars = s)))
      ((sortByStars group).filter (fun r => decide (r.stars = s))) := by
    have := hsub.filter (fun r => decide (r.stars = s))
    simpa [List.filter_filter] using this
  have hlen : ((sortByStars group).filter (fun r => decide (r.stars = s))).length
      = (group.filter (fun r => decide (r.stars = s))).length :=
    ((sortByStars_perm group).filter _).length_eq
  exact (hsub'.eq_of_length hlen.symm).symm

theorem JSObject.set_of_not_mem {α : Type} (o : JSObject α) (k : String) (v : α)
    (h : k ∉ JSObject.keys o) : JSObject.set o k v = o ++ [(k, v)] := by
  induction o with
  | nil => simp [JSObject.set]
  | cons p o ih =>
    obtain ⟨k', v'⟩ := p
    have hk : ¬ k' = k := by
      intro e
      apply h
      simp [JSObject.keys, e]
    have hrest : k ∉ JSObject.keys o := by
      intro hm
      apply h
      simp only [JSObject.keys, List.map_cons, List.mem_cons]
      exact Or.inr hm
    simp [JSObject.set, hk, ih hrest]

theorem JSObject.get_append_of_not_mem {α : Type} (o₁ o₂ : JSObject α) (k : String)
    (h : k ∉ JSObject.keys o₁) : JSObject.get (o₁ ++ o₂) k = JSObject.get o₂ k := by
  induction o₁ with
  | nil => simp
  | cons p o ih =>
    obtain ⟨k', v'⟩ := p
    have hk : ¬ k' = k := by
      intro e
      apply h
      simp [JSObject.keys, e]
    have hrest : k ∉ JSObject.keys o := by
      intro hm
      apply h
      simp only [JSObject.keys, List.map_cons, List.mem_cons]
      exact Or.inr hm
    simp [JSObject.get, hk, ih hrest]

/-- Copying an object name by name, applying `f` to every value, maps `f` over
its entries. -/
theorem JSObject.foldl_keys_set {α β : Type} (f : α → β) (d : α) (o₁ o₂ : JSObject α)
    (h : (JSObject.keys (o₁ ++ o₂)).Nodup) :
    (JSObject.keys o₂).foldl
        (fun acc k => JSObject.set acc k (f ((JSObject.get (o₁ ++ o₂) k).getD d)))
        (o₁.map (fun entry => (entry.1, f entry.2)))
      = (o₁ ++ o₂).map (fun entry => (entry.1, f entry.2)) := by
  induction o₂ generalizing o₁ with
  | nil => simp [JSObject.keys]
  | cons p o₂ ih =>
    obtain ⟨k, v⟩ := p
    have hsplit : o₁ ++ (k, v) :: o₂ = (o₁ ++ [(k, v)]) ++ o₂ := by simp
    have hk : k ∉ JSObject.keys o₁ := by
      intro hm
      simp only [JSObject.keys, List.map_append, List.map_cons] at h
      have := (List.nodup_append.mp h).2.2
      exact this hm (List.mem_cons_self _ _)
    have hk' : k ∉ JSObject.keys (o₁.map (fun entry => (entry.1, f entry.2))) := by
      rw [JSObject.keys_map]
      exact hk
    have hget : JSObject.get (o₁ ++ (k, v) :: o₂) k = some v := by
      rw [JSObject.get_append_of_not_mem _ _ _ hk]
      simp [JSObject.get]
    have hstep : JSObject.set (o₁.map (fun entry => (entry.1, f entry.2))) k
        (f ((JSObject.get (o₁ ++ (k, v) :: o₂) k).getD d))
        = (o₁ ++ [(k, v)]).map (fun entry => (entry.1, f entry.2)) := by
      rw [JSObject.set_of_not_mem _ _ _ hk', hget]
      simp
    have hnodup : (JSObject.keys ((o₁ ++ [(k, v)]) ++ o₂)).Nodup := by
      rw [← hsplit]
      exact h
    have step := ih (o₁ ++ [(k, v)]) hnodup
    rw [← hsplit] at step
    simp only [JSObject.keys, List.map_cons, List.foldl_cons]
    simp only [JSObject.keys] at step
    rw [hstep]
    exact step

/-- The top object holds, for every language of the grouping and in the same
order, the first `topN` records of its group. -/
theorem topOfGroups_eq_map (byLanguage : JSObject (List RepositoryMetric)) (topN : Nat)
    (hnodup : (JSObject.keys byLanguage).Nodup) :
    topOfGroups byLanguage topN
      = byLanguage.map (fun entry => (entry.1, entry.2.take topN)) := by
  have h := JSObject.foldl_keys_set (fun g : List RepositoryMetric => slice0 g topN) []
    [] byLanguage (by simpa using hnodup)
  simpa [topOfGroups, slice0] using h

/-- The top records of records whose languages name no inherited member; when
the grouping throws, so does `getTopPerLanguage`. -/
theorem getTopPerLanguage_of_ok (repositories : List RepositoryMetric) (topN : Nat)
    (groups : JSObject (List RepositoryMetric))
    (h : groupByLanguage repositories = .ok groups) :
    getTopPerLanguage repositories topN
      = .ok (groups.map (fun entry => (entry.1, entry.2.take topN))) := by
  unfold getTopPerLanguage
  rw [h]
  simp only
  rw [topOfGroups_eq_map]
  rw [(groupByLanguage_ok repositories groups h).2]
  exact groupPlain_keys_nodup repositories

/-- Two lists of records with numeric stars, both with non-increasing stars and
with the same records, in the same order, at every star count, are equal. -/
theorem eq_of_pairwise_of_filter_eq (l₁ l₂ : List RepositoryMetric)
    (h₁ : ∀ r ∈ l₁, ∃ x : Int, r.stars = some x) (h₂ : ∀ r ∈ l₂, ∃ x : Int, r.stars = some x)
    (p₁ : l₁.Pairwise StarsGE) (p₂ : l₂.Pairwise StarsGE)
    (hf : ∀ s : Int, l₁.filter (fun r => decide (r.stars = some s))
      = l₂.filter (fun r => decide (r.stars = some s))) : l₁ = l₂ := by
  induction l₁ generalizing l₂ with
  | nil =>
    cases l₂ with
    | nil => rfl
    | cons b l₂ =>
      obtain ⟨y, hy⟩ := h₂ b (List.mem_cons_self b l₂)
      have := hf y
      simp [hy] at this
  | cons a l₁ ih =>
    obtain ⟨x, hx⟩ := h₁ a (List.mem_cons_self a l₁)
    cases l₂ with
    | nil =>
      have := hf x
      simp [hx] at this
    | cons b l₂ =>
      obtain ⟨y, hy⟩ := h₂ b (List.mem_cons_self b l₂)
      obtain ⟨ha, p₁'⟩ := List.pairwise_cons.mp p₁
      obtain ⟨hb, p₂'⟩ := List.pairwise_cons.mp p₂
      have ha2 : a ∈ b :: l₂ := by
        have hmem : a ∈ (a :: l₁).filter (fun r => decide (r.stars = some x)) :=
          List.mem_filter.mpr ⟨List.mem_cons_self a l₁, by simp [hx]⟩
        rw [hf x] at hmem
        exact (List.mem_filter.mp hmem).1
      have hb1 : b ∈ a :: l₁ := by
        have hmem : b ∈ (b :: l₂).filter (fun r => decide (r.stars = some y)) :=
          List.mem_filter.mpr ⟨List.mem_cons_self b l₂, by simp [hy]⟩
        rw [← hf y] at hmem
        exact (List.mem_filter.mp hmem).1
      have hxy : x ≤ y := by
        rcases List.mem_cons.mp ha2 with e | hmem
        · rw [e, hy] at hx
          exact le_of_eq (Option.some.inj hx).symm
        · obtain ⟨y', x', hy', hx', hle⟩ := hb a hmem
          rw [hy] at hy'
          rw [hx] at hx'
          have e1 := Option.some.inj hy'
          have e2 := Option.some.inj hx'
          omega
      have hyx : y ≤ x := by
        rcases List.mem_cons.mp hb1 with e | hmem
        · rw [e, hx] at hy
          exact le_of_eq (Option.some.inj hy).symm
        · obtain ⟨x', y', hx', hy', hle⟩ := ha b hmem
          rw [hy] at hy'
          rw [hx] at hx'
          have e1 := Option.some.inj hy'
          have e2 := Option.some.inj hx'
          omega
      have hxy' : y = x := le_antisymm hyx hxy
      subst hxy'
      have hhead := hf y
      simp only [List.filter_cons, hx, hy, decide_True, if_true] at hhead
      have hab : a = b := (List.cons.inj hhead).1
      subst hab
      have htail : l₁ = l₂ := by
        apply ih l₂ (fun r hr => h₁ r (List.mem_cons_of_mem a hr))
          (fun r hr => h₂ r (List.mem_cons_of_mem a hr)) p₁' p₂'
        intro s
        have hs := hf s
        by_cases hsy : y = s
        · subst hsy
          simp only [List.filter_cons, hx, decide_True, if_true] at hs
          exact (List.cons.inj hs).2
        · have hne : ¬ (some y = some s) := fun e => hsy (Option.some.inj e)
          simpa [List.filter_cons, hx, hne] using hs
      rw [htail]

/-! ## Lemmas on the `Link` header pattern -/

theorem dropPrefix_eq_some (p s r : List Char) : dropPrefix p s = some r ↔ s = p ++ r := by
  induction p generalizing s with
  | nil => simp [dropPrefix, eq_comm]
  | cons a p ih =>
    cases s with
    | nil => simp [dropPrefix]
    | cons c s =>
      by_cases h : a = c
      · subst h
        simp [dropPrefix, ih]
      · have h' : ¬ c = a := fun e => h e.symm
        simp [dropPrefix, h, h']

theorem isDigit_gt : isDigit '>' = false := by decide

theorem isDigit_p : isDigit 'p' = false := by decide

theorem takeWhile_digits (digits rest : List Char) (h : ∀ c ∈ digits, isDigit c = true) :
    (digits ++ '>' :: rest).takeWhile isDigit = digits := by
  induction digits with
  | nil => simp [List.takeWhile, isDigit_gt]
  | cons d ds ih =>
    have hd : isDigit d = true := h d (List.mem_cons_self d ds)
    have hds : ∀ c ∈ ds, isDigit c = true := fun c hc => h c (List.mem_cons_of_mem d hc)
    simp [List.takeWhile, hd, ih hds]

theorem dropWhile_digits (digits rest : List Char) (h : ∀ c ∈ digits, isDigit c = true) :
    (digits ++ '>' :: rest).dropWhile isDigit = '>' :: rest := by
  induction digits with
  | nil => simp [List.dropWhile, isDigit_gt]
  | cons d ds ih =>
    have hd : isDigit d = true := h d (List.mem_cons_self d ds)
    have hds : ∀ c ∈ ds, isDigit c = true := fun c hc => h c (List.mem_cons_of_mem d hc)
    simp [List.dropWhile, hd, ih hds]

theorem relLastLiteral_eq : relLastLiteral = '>' :: ("; ".toList ++ relLiteral) := by decide

theorem pageLiteral_eq : pageLiteral = 'p' :: "age=".toList := by decide

/-- The pattern matches at a marker and captures its digits. -/
theorem matchLastPageAt_marker (digits post : List Char) (hne : digits ≠ [])
    (hd : ∀ c ∈ digits, isDigit c = true) :
    matchLastPageAt (pageLiteral ++ digits ++ relLastLiteral ++ post) = some digits := by
  have h1 : dropPrefix pageLiteral (pageLiteral ++ digits ++ relLastLiteral ++ post)
      = some (digits ++ relLastLiteral ++ post) := by
    rw [dropPrefix_eq_some]
    simp
  have hshape : digits ++ relLastLiteral ++ post
      = digits ++ '>' :: ("; ".toList ++ relLiteral ++ post) := by
    rw [relLastLiteral_eq]
    simp
  have h2 : (digits ++ relLastLiteral ++ post).takeWhile isDigit = digits := by
    rw [hshape, takeWhile_digits _ _ hd]
  have h3 : (digits ++ relLastLiteral ++ post).dropWhile isDigit = relLastLiteral ++ post := by
    rw [hshape, dropWhile_digits _ _ hd, relLastLiteral_eq]
    simp
  have h4 : dropPrefix relLastLiteral (relLastLiteral ++ post) = some post := by
    rw [dropPrefix_eq_some]
  unfold matchLastPageAt
  rw [h1]
  simp only [h2, h3, h4, hne, if_false]

/-- A match of the pattern at the head of the input reads a marker there. -/
theorem matchLastPageAt_some (s digits : List Char) (h : matchLastPageAt s = some digits) :
    ∃ rest, s = pageLiteral ++ digits ++ relLastLiteral ++ rest
      ∧ digits ≠ [] ∧ ∀ c ∈ digits, isDigit c = true := by
  unfold matchLastPageAt at h
  cases h1 : dropPrefix pageLiteral s with
  | none => simp [h1] at h
  | some afterPage =>
    rw [h1] at h
    simp only at h
    by_cases hnil : afterPage.takeWhile isDigit = []
    · simp [hnil] at h
    · rw [if_neg hnil] at h
      cases h2 : dropPrefix relLastLiteral (afterPage.dropWhile isDigit) with
      | none => simp [h2] at h
      | some rest =>
        rw [h2] at h
        simp only [Option.some.injEq] at h
        refine ⟨rest, ?_, ?_, ?_⟩
        · have e1 := (dropPrefix_eq_some _ _ _).mp h1
          have e2 := (dropPrefix_eq_some _ _ _).mp h2
          have e3 : afterPage = afterPage.takeWhile isDigit ++ afterPage.dropWhile isDigit :=
            (List.takeWhile_append_dropWhile isDigit afterPage).symm
          rw [e1, e3, e2, h]
          simp
        · rw [← h]
          exact hnil
        · intro c hc
          rw [← h] at hc
          exact List.mem_takeWhile_imp hc

/-- A word without the letter `p` that starts a text in which `p` stands right
after `q` lies within `q`. -/
theorem prefix_of_no_p (x y q rest : List Char) (hx : 'p' ∉ x)
    (h : x ++ y = q ++ 'p' :: rest) : List.IsPrefix x q := by
  rcases List.append_eq_append_iff.mp h with ⟨a', hq, _⟩ | ⟨c', hxq, hp⟩
  · exact ⟨a', hq.symm⟩
  · cases c' with
    | nil =>
      rw [List.append_nil] at hxq
      rw [hxq]
    | cons c cs =>
      have hc : c = 'p' := by
        have := (List.cons.inj hp).1
        exact this.symm
      exfalso
      apply hx
      rw [hxq, hc]
      simp

/-- A match of the pattern anywhere reads the text `rel="last"`. -/
theorem matchLastPage_some_contains (s digits : List Char) (h : matchLastPage s = some digits) :
    List.IsInfix relLiteral s := by
  induction s with
  | nil => simp [matchLastPage] at h
  | cons c cs ih =>
    unfold matchLastPage at h
    cases hat : matchLastPageAt (c :: cs) with
    | some ds =>
      obtain ⟨rest, hs, _, _⟩ := matchLastPageAt_some _ _ hat
      rw [hs, relLastLiteral_eq]
      exact ⟨pageLiteral ++ ds ++ '>' :: "; ".toList, rest, by simp⟩
    | none =>
      rw [hat] at h
      simp only at h
      obtain ⟨a, b, hab⟩ := ih h
      exact ⟨c :: a, b, by simp [← hab]⟩

/-- The leftmost match is the first marker: the one before which the text
`rel="last"` does not occur. -/
theorem matchLastPage_marker (pre digits post : List Char) (hne : digits ≠ [])
    (hd : ∀ c ∈ digits, isDigit c = true) (hpre : ¬ List.IsInfix relLiteral pre) :
    matchLastPage (pre ++ pageLiteral ++ digits ++ relLastLiteral ++ post) = some digits := by
  induction pre with
  | nil =>
    have hm := matchLastPageAt_marker digits post hne hd
    have hshape : [] ++ pageLiteral ++ digits ++ relLastLiteral ++ post
        = 'p' :: ("age=".toList ++ digits ++ relLastLiteral ++ post) := by
      rw [pageLiteral_eq]
      simp
    have hshape' : pageLiteral ++ digits ++ relLastLiteral ++ post
        = 'p' :: ("age=".toList ++ digits ++ relLastLiteral ++ post) := by
      rw [pageLiteral_eq]
      simp
    rw [hshape]
    rw [hshape'] at hm
    unfold matchLastPage
    rw [hm]
  | cons c pre ih =>
    have hpre' : ¬ List.IsInfix relLiteral pre := by
      rintro ⟨a, b, hab⟩
      exact hpre ⟨c :: a, b, by simp [← hab]⟩
    have hshape : (c :: pre) ++ pageLiteral ++ digits ++ relLastLiteral ++ post
        = c :: (pre ++ pageLiteral ++ digits ++ relLastLiteral ++ post) := by simp
    rw [hshape]
    unfold matchLastPage
    cases hat : matchLastPageAt (c :: (pre ++ pageLiteral ++ digits ++ relLastLiteral ++ post)) with
    | none => exact ih hpre'
    | some ds =>
      exfalso
      obtain ⟨rest, hs, _, hds⟩ := matchLastPageAt_some _ _ hat
      rw [pageLiteral_eq] at hs
      have htail : pre ++ 'p' :: ("age=".toList ++ digits ++ relLastLiteral ++ post)
          = ("age=".toList ++ ds ++ relLastLiteral) ++ rest := by
        have := (List.cons.inj (by simpa using hs)).2
        simpa using this
      have hnop : 'p' ∉ "age=".toList ++ ds ++ relLastLiteral := by
        intro hmem
        rcases List.mem_append.mp hmem with h1 | h1
        · rcases List.mem_append.mp h1 with h2 | h2
          · revert h2
            decide
          · have := hds 'p' h2
            rw [isDigit_p] at this
            exact Bool.noConfusion this
        · revert h1
          decide
      obtain ⟨t, ht⟩ := prefix_of_no_p _ _ _ _ hnop htail.symm
      apply hpre'
      rw [← ht, relLastLiteral_eq]
      exact ⟨"age=".toList ++ ds ++ '>' :: "; ".toList, t, by simp⟩

theorem digitChar_value (k : Nat) (h : k < 10) :
    (Nat.digitChar k).toNat - '0'.toNat = k ∧ isDigit (Nat.digitChar k) = true := by
  interval_cases k <;> decide

/-- A decimal numeral is a non-empty run of digits. -/
theorem toDigitsCore_shape (fuel n : Nat) (ds : List Char) :
    ∃ pre, Nat.toDigitsCore 10 (fuel + 1) n ds = pre ++ ds ∧ pre ≠ []
      ∧ ∀ c ∈ pre, isDigit c = true := by
  induction fuel generalizing n ds with
  | zero =>
    refine ⟨[Nat.digitChar (n % 10)], ?_, by simp, ?_⟩
    · simp [Nat.toDigitsCore]
    · intro c hc
      rw [List.mem_singleton.mp hc]
      exact (digitChar_value _ (Nat.mod_lt n (by decide))).2
  | succ fuel ih =>
    by_cases h0 : n / 10 = 0
    · refine ⟨[Nat.digitChar (n % 10)], ?_, by simp, ?_⟩
      · rw [Nat.toDigitsCore]
        simp [h0]
      · intro c hc
        rw [List.mem_singleton.mp hc]
        exact (digitChar_value _ (Nat.mod_lt n (by decide))).2
    · obtain ⟨pre, hpre, hne, hd⟩ := ih (n / 10) (Nat.digitChar (n % 10) :: ds)
      refine ⟨pre ++ [Nat.digitChar (n % 10)], ?_, by simp, ?_⟩
      · rw [Nat.toDigitsCore]
        simp only [h0, if_false]
        rw [hpre]
        simp
      · intro c hc
        rcases List.mem_append.mp hc with h | h
        · exact hd c h
        · rw [List.mem_singleton.mp h]
          exact (digitChar_value _ (Nat.mod_lt n (by decide))).2

theorem foldl_toDigitsCore (fuel n : Nat) (ds : List Char) (h : n < fuel) :
    (Nat.toDigitsCore 10 fuel n ds).foldl (fun n c => 10 * n + (c.toNat - '0'.toNat)) 0
      = ds.foldl (fun n c => 10 * n + (c.toNat - '0'.toNat)) n := by
  induction fuel generalizing n ds with
  | zero => omega
  | succ fuel ih =>
    have hv := (digitChar_value (n % 10) (Nat.mod_lt n (by decide))).1
    by_cases h0 : n / 10 = 0
    · rw [Nat.toDigitsCore]
      simp only [h0, if_true, List.foldl_cons]
      rw [hv]
      have : 10 * 0 + n % 10 = n := by omega
      rw [this]
    · rw [Nat.toDigitsCore]
      simp only [h0, if_false]
      rw [ih (n / 10) _ (by omega)]
      simp only [List.foldl_cons]
      rw [hv]
      have : 10 * (n / 10) + n % 10 = n := by omega
      rw [this]

/-- Reading the decimal numeral of a number gives the number back. -/
theorem parseInt10_toString (n : Nat) : parseInt10 (toString n).toList = n := by
  have h : (toString n).toList = Nat.toDigitsCore 10 (n + 1) n [] := rfl
  rw [h]
  unfold parseInt10
  rw [foldl_toDigitsCore (n + 1) n [] (by omega)]
  rfl

theorem toString_digits (n : Nat) :
    (toString n).toList ≠ [] ∧ ∀ c ∈ (toString n).toList, isDigit c = true := by
  have h : (toString n).toList = Nat.toDigitsCore 10 (n + 1) n [] := rfl
  obtain ⟨pre, hpre, hne, hd⟩ := toDigitsCore_shape n n []
  rw [h, hpre, List.append_nil]
  exact ⟨hne, hd⟩

/-- The block shared by the three counts derives the pagination count. -/
theorem lastPageOr_isPaginationCount (link : Option String) (items : Nat) :
    IsPaginationCount link items (lastPageOr link items) := by
  have hdigits : ∀ (header : String) (pre digits post : List Char),
      link = some header →
      header.toList = pre ++ pageLiteral ++ digits ++ relLastLiteral ++ post →
      digits ≠ [] → (∀ c ∈ digits, isDigit c = true) →
      ¬ List.IsInfix relLiteral pre →
      lastPageOr link items = parseInt10 digits := by
    intro header pre digits post hlink hheader hne hd hpre
    have hnonempty : header ≠ "" := by
      intro e
      rw [e] at hheader
      have hlen := congrArg List.length hheader
      simp [pageLiteral] at hlen
      omega
    have hm := matchLastPage_marker pre digits post hne hd hpre
    rw [← hheader] at hm
    have hm' : matchLastPage header.data = some digits := hm
    simp [lastPageOr, hlink, hnonempty, hm']
  refine ⟨?_, hdigits, ?_, ?_⟩
  · intro header pre post P hlink hheader hpre
    rw [hdigits header pre _ post hlink hheader (toString_digits P).1 (toString_digits P).2 hpre]
    exact parseInt10_toString P
  · intro hlink
    simp [lastPageOr, hlink]
  · intro header hlink hno
    have hm : matchLastPage header.toList = none := by
      cases hmatch : matchLastPage header.toList with
      | none => rfl
      | some ds => exact absurd (matchLastPage_some_contains _ _ hmatch) hno
    have hm' : matchLastPage header.data = none := hm
    by_cases hnonempty : header = ""
    · simp [lastPageOr, hlink, hnonempty]
    · simp [lastPageOr, hlink, hnonempty, hm']

/-! ## Lemmas on the crawl loop -/

theorem foldl_processHit_returned {ι : Type} (octokit : Octokit ι) (maxRepos : Int)
    (result : List RepositoryMetric) (hits : List SearchHit) :
    hits.foldl (processHit octokit maxRepos) (.returned result) = .returned result := by
  induction hits with
  | nil => rfl
  | cons hit hits ih => simpa [processHit] using ih

/-- One turn of the loop without limit: the record of the hit is pushed when
there is one. -/
theorem processHit_unbounded {ι : Type} (octokit : Octokit ι) (repositories : List RepositoryMetric)
    (processedCount : Nat) (hit : SearchHit) :
    processHit octokit (-1) (.running repositories processedCount) hit
      = .running (repositories ++ (fetchedRecord octokit hit).toList)
          (processedCount + (fetchedRecord octokit hit).toList.length) := by
  unfold processHit fetchedRecord
  cases fetchRepositoryMetrics octokit hit.owner.login hit.name with
  | ok metrics => simp
  | error e => simp

theorem foldl_processHit_unbounded {ι : Type} (octokit : Octokit ι) (hits : List SearchHit)
    (repositories : List RepositoryMetric) (processedCount : Nat) :
    hits.foldl (processHit octokit (-1)) (.running repositories processedCount)
      = .running (repositories ++ hits.filterMap (fetchedRecord octokit))
          (processedCount + (hits.filterMap (fetchedRecord octokit)).length) := by
  induction hits generalizing repositories processedCount with
  | nil => simp
  | cons hit hits ih =>
    rw [List.foldl_cons, processHit_unbounded, ih]
    cases h : fetchedRecord octokit hit with
    | none => simp [List.filterMap_cons, h]
    | some r =>
      simp [List.filterMap_cons, h]
      omega

/-- The crawl without limit over pages that all load: every record of every
hit, in search order. -/
theorem crawlPages_unbounded {ι : Type} (octokit : Octokit ι)
    (pages : List (Response (List SearchHit))) (repositories : List RepositoryMetric)
    (processedCount : Nat) :
    crawlPages octokit (-1) (pages.map .ok) repositories processedCount
      = .ok (repositories ++ (searchHits pages).filterMap (fetchedRecord octokit)) := by
  induction pages generalizing repositories processedCount with
  | nil => simp [crawlPages, searchHits]
  | cons page pages ih =>
    simp only [List.map_cons, crawlPages]
    rw [foldl_processHit_unbounded]
    simp only
    rw [ih]
    simp [searchHits, List.filterMap_append]

/-- The inner loop under a limit `m` that is not yet exceeded: it either leaves
through the `return` with exactly `m` records, the first of those fetched, or
runs to the end of the page with all of them, no more than `m`. -/
theorem foldl_processHit_bounded {ι : Type} (octokit : Octokit ι) (m : Nat)
    (hits : List SearchHit) (repositories : List RepositoryMetric)
    (hle : repositories.length ≤ m) :
    (∃ result, hits.foldl (processHit octokit (m : Int))
          (.running repositories repositories.length) = .returned result
        ∧ result.length = m
        ∧ List.IsPrefix result (repositories ++ hits.filterMap (fetchedRecord octokit)))
    ∨ (hits.foldl (processHit octokit (m : Int)) (.running repositories repositories.length)
          = .running (repositories ++ hits.filterMap (fetchedRecord octokit))
              (repositories ++ hits.filterMap (fetchedRecord octokit)).length
        ∧ (repositories ++ hits.filterMap (fetchedRecord octokit)).length ≤ m) := by
  induction hits generalizing repositories with
  | nil =>
    right
    simpa using hle
  | cons hit hits ih =>
    rw [List.foldl_cons]
    by_cases hfull : repositories.length = m
    · left
      refine ⟨repositories, ?_, hfull, List.prefix_append _ _⟩
      have hstep : processHit octokit (m : Int) (.running repositories repositories.length) hit
          = .returned repositories := by
        unfold processHit
        simp [hfull]
      rw [hstep, foldl_processHit_returned]
    · have hlt : repositories.length < m := lt_of_le_of_ne hle hfull
      have hcond : ¬ ((m : Int) ≠ -1 ∧ ((repositories.length : Nat) : Int) ≥ (m : Int)) := by
        intro h
        omega
      cases hrec : fetchedRecord octokit hit with
      | none =>
        have hstep : processHit octokit (m : Int) (.running repositories repositories.length) hit
            = .running repositories repositories.length := by
          unfold fetchedRecord at hrec
          unfold processHit
          simp only [hcond, if_false]
          cases hf : fetchRepositoryMetrics octokit hit.owner.login hit.name with
          | ok metrics => simp [hf] at hrec
          | error e => rfl
        rw [hstep]
        simpa [List.filterMap_cons, hrec] using ih repositories hle
      | some r =>
        have hstep : processHit octokit (m : Int) (.running repositories repositories.length) hit
            = .running (repositories ++ [r]) (repositories ++ [r]).length := by
          unfold fetchedRecord at hrec
          unfold processHit
          simp only [hcond, if_false]
          cases hf : fetchRepositoryMetrics octokit hit.owner.login hit.name with
          | ok metrics =>
            simp only [hf, Option.some.injEq] at hrec
            simp [hrec]
          | error e => simp [hf] at hrec
        rw [hstep]
        have hle' : (repositories ++ [r]).length ≤ m := by
          simp
          omega
        simpa [List.filterMap_cons, hrec] using ih (repositories ++ [r]) hle'

/-- The crawl under a limit `m` over pages that all load: the first `m` of the
records of the hits, in search order. -/
theorem crawlPages_bounded {ι : Type} (octokit : Octokit ι) (m : Nat)
    (pages : List (Response (List SearchHit))) (repositories : List RepositoryMetric)
    (hle : repositories.length ≤ m) :
    crawlPages octokit (m : Int) (pages.map .ok) repositories repositories.length
      = .ok ((repositories ++ (searchHits pages).filterMap (fetchedRecord octokit)).take m) := by
  induction pages generalizing repositories with
  | nil =>
    simp [crawlPages, searchHits, List.take_of_length_le hle]
  | cons page pages ih =>
    simp only [List.map_cons, crawlPages]
    have hall : repositories ++ (searchHits (page :: pages)).filterMap (fetchedRecord octokit)
        = (repositories ++ page.data.filterMap (fetchedRecord octokit))
            ++ (searchHits pages).filterMap (fetchedRecord octokit) := by
      simp [searchHits, List.filterMap_append]
    rcases foldl_processHit_bounded octokit m page.data repositories hle with
      ⟨result, hres, hlen, hpre⟩ | ⟨hrun, hle'⟩
    · rw [hres]
      simp only
      obtain ⟨t, ht⟩ := hpre
      rw [hall, ← ht, List.append_assoc, List.take_append_of_le_length (le_of_eq hlen.symm),
        List.take_of_length_le (le_of_eq hlen)]
    · rw [hrun]
      simp only
      rw [ih _ hle', hall]

/-- A hit has a record exactly when the request for the repository succeeds. -/
theorem fetchedRecord_isSome_iff {ι : Type} (octokit : Octokit ι) (hit : SearchHit) :
    (fetchedRecord octokit hit).isSome = true
      ↔ ∃ response, octokit.getRepo hit.owner.login hit.name = .ok response := by
  unfold fetchedRecord fetchRepositoryMetrics
  cases octokit.getRepo hit.owner.login hit.name with
  | ok response => simp
  | error e => simp

/-- The record of a hit carries the owner and the name of the hit. -/
theorem fetchedRecord_repository {ι : Type} (octokit : Octokit ι) (hit : SearchHit)
    (r : RepositoryMetric) (h : fetchedRecord octokit hit = some r) :
    r.repository = some (hit.owner.login ++ "/" ++ hit.name) := by
  unfold fetchedRecord fetchRepositoryMetrics at h
  cases hget : octokit.getRepo hit.owner.login hit.name with
  | ok response =>
    simp only [hget, Option.some.injEq] at h
    rw [← h]
    rfl
  | error e => simp [hget] at h

theorem filterMap_fetchedRecord_repository {ι : Type} (octokit : Octokit ι)
    (hits : List SearchHit) :
    (hits.filterMap (fetchedRecord octokit)).map (fun r => r.repository)
      = (hits.filter (fun hit => (fetchedRecord octokit hit).isSome)).map
          (fun hit => some (hit.owner.login ++ "/" ++ hit.name)) := by
  induction hits with
  | nil => rfl
  | cons hit hits ih =>
    cases h : fetchedRecord octokit hit with
    | none => simp [List.filterMap_cons, List.filter_cons, h, ih]
    | some r =>
      simp [List.filterMap_cons, List.filter_cons, h, ih,
        fetchedRecord_repository octokit hit r h]

/-- When every hit has a record, the first `m` records are the records of the
first `m` hits. -/
theorem take_filterMap_of_all {α β : Type} (f : α → Option β) (l : List α) (m : Nat)
    (h : ∀ a ∈ l, (f a).isSome = true) :
    (l.filterMap f).take m = (l.take m).filterMap f
      ∧ (l.filterMap f).length = l.length := by
  induction l generalizing m with
  | nil => simp
  | cons a l ih =>
    have ha := h a (List.mem_cons_self a l)
    have hl : ∀ b ∈ l, (f b).isSome = true := fun b hb => h b (List.mem_cons_of_mem a hb)
    obtain ⟨b, hb⟩ := Option.isSome_iff_exists.mp ha
    cases m with
    | zero => simp [List.filterMap_cons, hb, (ih 0 hl).2]
    | succ m => simp [List.filterMap_cons, hb, (ih m hl).1, (ih m hl).2]

/-- Over pages that all load, the crawl returns, whatever the limit. -/
theorem crawlPages_ok {ι : Type} (octokit : Octokit ι) (maxRepos : Int)
    (pages : List (Response (List SearchHit))) (repositories : List RepositoryMetric)
    (processedCount : Nat) :
    ∃ result, crawlPages octokit maxRepos (pages.map .ok) repositories processedCount
      = .ok result := by
  induction pages generalizing repositories processedCount with
  | nil => exact ⟨repositories, rfl⟩
  | cons page pages ih =>
    simp only [List.map_cons, crawlPages]
    cases page.data.foldl (processHit octokit maxRepos) (.running repositories processedCount) with
    | returned result => exact ⟨result, rfl⟩
    | running repositories' processedCount' => exact ih repositories' processedCount'

/-- Without limit, a page that fails to load after pages that load throws. -/
theorem crawlPages_unbounded_error {ι : Type} (octokit : Octokit ι)
    (pages : List (Response (List SearchHit))) (e : String)
    (rest : List (Except String (Response (List SearchHit))))
    (repositories : List RepositoryMetric) (processedCount : Nat) :
    crawlPages octokit (-1) (pages.map .ok ++ .error e :: rest) repositories processedCount
      = .error e := by
  induction pages generalizing repositories processedCount with
  | nil => simp [crawlPages]
  | cons page pages ih =>
    simp only [List.map_cons, List.cons_append, crawlPages]
    rw [foldl_processHit_unbounded]
    simp only
    exact ih _ _

/-- Under a limit that the records of the loaded pages do not reach, a page
that fails to load after them throws. -/
theorem crawlPages_bounded_error {ι : Type} (octokit : Octokit ι) (m : Nat)
    (pages : List (Response (List SearchHit))) (e : String)
    (rest : List (Except String (Response (List SearchHit))))
    (repositories : List RepositoryMetric)
    (hlt : (repositories ++ (searchHits pages).filterMap (fetchedRecord octokit)).length < m) :
    crawlPages octokit (m : Int) (pages.map .ok ++ .error e :: rest) repositories
      repositories.length = .error e := by
  induction pages generalizing repositories with
  | nil => simp [crawlPages]
  | cons page pages ih =>
    simp only [List.map_cons, List.cons_append, crawlPages]
    have hall : repositories ++ (searchHits (page :: pages)).filterMap (fetchedRecord octokit)
        = (repositories ++ page.data.filterMap (fetchedRecord octokit))
            ++ (searchHits pages).filterMap (fetchedRecord octokit) := by
      simp [searchHits, List.filterMap_append]
    rw [hall] at hlt
    have hle : repositories.length ≤ m := by
      simp only [List.length_append] at hlt
      omega
    rcases foldl_processHit_bounded octokit m page.data repositories hle with
      ⟨result, _, hlen, hpre⟩ | ⟨hrun, _⟩
    · exfalso
      have h1 := hpre.length_le
      simp only [List.length_append] at hlt h1
      omega
    · rw [hrun]
      simp only
      exact ih _ hlt


/-- The inner loop under a limit `m` leaves through the `return` as soon as a
hit follows `m` records. -/
theorem foldl_processHit_returns {ι : Type} (octokit : Octokit ι) (m : Nat)
    (before : List SearchHit) (hit : SearchHit) (after : List SearchHit)
    (repositories : List RepositoryMetric) (hle : repositories.length ≤ m)
    (hfull : m ≤ (repositories ++ before.filterMap (fetchedRecord octokit)).length) :
    ∃ result, (before ++ hit :: after).foldl (processHit octokit (m : Int))
        (.running repositories repositories.length) = .returned result := by
  induction before generalizing repositories with
  | nil =>
    have hlen : repositories.length = m := by
      simp only [List.filterMap_nil, List.append_nil] at hfull
      omega
    refine ⟨repositories, ?_⟩
    have hstep : processHit octokit (m : Int) (.running repositories repositories.length) hit
        = .returned repositories := by
      unfold processHit
      simp [hlen]
    rw [List.nil_append, List.foldl_cons, hstep, foldl_processHit_returned]
  | cons b before ih =>
    rw [List.cons_append, List.foldl_cons]
    by_cases hlen : repositories.length = m
    · refine ⟨repositories, ?_⟩
      have hstep : processHit octokit (m : Int) (.running repositories repositories.length) b
          = .returned repositories := by
        unfold processHit
        simp [hlen]
      rw [hstep, foldl_processHit_returned]
    · have hlt : repositories.length < m := lt_of_le_of_ne hle hlen
      have hcond : ¬ ((m : Int) ≠ -1 ∧ ((repositories.length : Nat) : Int) ≥ (m : Int)) := by
        intro h
        omega
      cases hrec : fetchedRecord octokit b with
      | none =>
        have hstep : processHit octokit (m : Int) (.running repositories repositories.length) b
            = .running repositories repositories.length := by
          unfold fetchedRecord at hrec
          unfold processHit
          simp only [hcond, if_false]
          cases hf : fetchRepositoryMetrics octokit b.owner.login b.name with
          | ok metrics => simp [hf] at hrec
          | error e => rfl
        rw [hstep]
        apply ih repositories hle
        simpa [List.filterMap_cons, hrec] using hfull
      | some r =>
        have hstep : processHit octokit (m : Int) (.running repositories repositories.length) b
            = .running (repositories ++ [r]) (repositories ++ [r]).length := by
          unfold fetchedRecord at hrec
          unfold processHit
          simp only [hcond, if_false]
          cases hf : fetchRepositoryMetrics octokit b.owner.login b.name with
          | ok metrics =>
            simp only [hf, Option.some.injEq] at hrec
            simp [hrec]
          | error e => simp [hf] at hrec
        rw [hstep]
        apply ih (repositories ++ [r])
        · simp
          omega
        · simpa [List.filterMap_cons, hrec, List.append_assoc] using hfull

/-- When the inner loop leaves through the `return`, a hit follows `m`
records. -/
theorem split_of_foldl_processHit_returned {ι : Type} (octokit : Octokit ι) (m : Nat)
    (hits : List SearchHit) (repositories result : List RepositoryMetric)
    (hle : repositories.length ≤ m)
    (hret : hits.foldl (processHit octokit (m : Int))
        (.running repositories repositories.length) = .returned result) :
    ∃ before hit after, hits = before ++ hit :: after
      ∧ m ≤ (repositories ++ before.filterMap (fetchedRecord octokit)).length := by
  induction hits generalizing repositories with
  | nil => simp at hret
  | cons b hits ih =>
    by_cases hlen : repositories.length = m
    · exact ⟨[], b, hits, rfl, by simp [hlen]⟩
    · have hlt : repositories.length < m := lt_of_le_of_ne hle hlen
      have hcond : ¬ ((m : Int) ≠ -1 ∧ ((repositories.length : Nat) : Int) ≥ (m : Int)) := by
        intro h
        omega
      rw [List.foldl_cons] at hret
      cases hrec : fetchedRecord octokit b with
      | none =>
        have hstep : processHit octokit (m : Int) (.running repositories repositories.length) b
            = .running repositories repositories.length := by
          unfold fetchedRecord at hrec
          unfold processHit
          simp only [hcond, if_false]
          cases hf : fetchRepositoryMetrics octokit b.owner.login b.name with
          | ok metrics => simp [hf] at hrec
          | error e => rfl
        rw [hstep] at hret
        obtain ⟨before, hit, after, hsplit, hfull⟩ := ih repositories hle hret
        refine ⟨b :: before, hit, after, by rw [hsplit]; rfl, ?_⟩
        simpa [List.filterMap_cons, hrec] using hfull
      | some r =>
        have hstep : processHit octokit (m : Int) (.running repositories repositories.length) b
            = .running (repositories ++ [r]) (repositories ++ [r]).length := by
          unfold fetchedRecord at hrec
          unfold processHit
          simp only [hcond, if_false]
          cases hf : fetchRepositoryMetrics octokit b.owner.login b.name with
          | ok metrics =>
            simp only [hf, Option.some.injEq] at hrec
            simp [hrec]
          | error e => simp [hf] at hrec
        rw [hstep] at hret
        have hle' : (repositories ++ [r]).length ≤ m := by
          simp
          omega
        obtain ⟨before, hit, after, hsplit, hfull⟩ := ih (repositories ++ [r]) hle' hret
        refine ⟨b :: before, hit, after, by rw [hsplit]; rfl, ?_⟩
        simpa [List.filterMap_cons, hrec, List.append_assoc] using hfull

/-- The crawl under a limit `m` stops at the first hit that follows `m`
records: when the pages up to that hit load, it returns the first `m` records,
and what the search would answer for later pages plays no part. -/
theorem crawlPages_bounded_stop {ι : Type} (octokit : Octokit ι) (m : Nat)
    (pages : List (Response (List SearchHit)))
    (later : List (Except String (Response (List SearchHit))))
    (repositories : List RepositoryMetric) (hle : repositories.length ≤ m)
    (hstop : ∃ before hit after, searchHits pages = before ++ hit :: after
      ∧ m ≤ (repositories ++ before.filterMap (fetchedRecord octokit)).length) :
    crawlPages octokit (m : Int) (pages.map .ok ++ later) repositories repositories.length
      = .ok ((repositories ++ (searchHits pages).filterMap (fetchedRecord octokit)).take m) := by
  induction pages generalizing repositories with
  | nil =>
    obtain ⟨before, hit, after, hsplit, _⟩ := hstop
    simp [searchHits] at hsplit
  | cons page pages ih =>
    simp only [List.map_cons, List.cons_append, crawlPages]
    have hall : repositories ++ (searchHits (page :: pages)).filterMap (fetchedRecord octokit)
        = (repositories ++ page.data.filterMap (fetchedRecord octokit))
            ++ (searchHits pages).filterMap (fetchedRecord octokit) := by
      simp [searchHits, List.filterMap_append]
    rcases foldl_processHit_bounded octokit m page.data repositories hle with
      ⟨result, hres, hlen, hpre⟩ | ⟨hrun, hle'⟩
    · rw [hres]
      simp only
      obtain ⟨t, ht⟩ := hpre
      rw [hall, ← ht, List.append_assoc, List.take_append_of_le_length (le_of_eq hlen.symm),
        List.take_of_length_le (le_of_eq hlen)]
    · rw [hrun]
      simp only
      rw [hall]
      apply ih _ hle'
      obtain ⟨before, hit, after, hsplit, hfull⟩ := hstop
      have hsplit' : page.data ++ searchHits pages = before ++ hit :: after := by
        simpa [searchHits] using hsplit
      rcases List.append_eq_append_iff.mp hsplit' with ⟨a', ha, hb⟩ | ⟨c', hc, hd⟩
      · refine ⟨a', hit, after, hb, ?_⟩
        rw [ha] at hfull
        simpa [List.filterMap_append, List.append_assoc] using hfull
      · cases c' with
        | nil =>
          simp only [List.append_nil] at hc
          simp only [List.nil_append] at hd
          refine ⟨[], hit, after, hd.symm, ?_⟩
          rw [← hc] at hfull
          simpa using hfull
        | cons x c' =>
          exfalso
          simp only [List.cons_append, List.cons.injEq] at hd
          obtain ⟨hx, _⟩ := hd
          subst hx
          obtain ⟨result, hret⟩ := foldl_processHit_returns octokit m before hit c'
            repositories hle hfull
          rw [← hc, hrun] at hret
          exact Crawl.noConfusion hret

/-- Under a limit `m` that no hit of the loaded pages follows `m` records, a
page that fails to load after them throws: also when the loaded pages end with
the `m`-th record. -/
theorem crawlPages_bounded_page_end {ι : Type} (octokit : Octokit ι) (m : Nat)
    (pages : List (Response (List SearchHit))) (e : String)
    (rest : List (Except String (Response (List SearchHit))))
    (repositories : List RepositoryMetric) (hle : repositories.length ≤ m)
    (hnone : ∀ before hit after, searchHits pages = before ++ hit :: after →
      (repositories ++ before.filterMap (fetchedRecord octokit)).length < m) :
    crawlPages octokit (m : Int) (pages.map .ok ++ .error e :: rest) repositories
      repositories.length = .error e := by
  induction pages generalizing repositories with
  | nil => simp [crawlPages]
  | cons page pages ih =>
    simp only [List.map_cons, List.cons_append, crawlPages]
    rcases foldl_processHit_bounded octokit m page.data repositories hle with
      ⟨result, hres, _, _⟩ | ⟨hrun, hle'⟩
    · exfalso
      obtain ⟨before, hit, after, hsplit, hfull⟩ :=
        split_of_foldl_processHit_returned octokit m page.data repositories result hle hres
      have hsplit' : searchHits (page :: pages) = before ++ hit :: (after ++ searchHits pages) := by
        have hcons : searchHits (page :: pages) = page.data ++ searchHits pages := by
          simp [searchHits]
        rw [hcons, hsplit, List.append_assoc, List.cons_append]
      have h := hnone before hit (after ++ searchHits pages) hsplit'
      omega
    · rw [hrun]
      simp only
      apply ih _ hle'
      intro before hit after hsplit
      have hsplit' : searchHits (page :: pages) = (page.data ++ before) ++ hit :: after := by
        have hcons : searchHits (page :: pages) = page.data ++ searchHits pages := by
          simp [searchHits]
        rw [hcons, hsplit, List.append_assoc]
      have h := hnone (page.data ++ before) hit after hsplit'
      simpa [List.filterMap_append, List.append_assoc] using h

/-- Under a limit `m` the crawl returns no more than `m` records, whatever the
outcomes of the search pages. -/
theorem crawlPages_length_le {ι : Type} (octokit : Octokit ι) (m : Nat)
    (outcomes : List (Except String (Response (List SearchHit))))
    (repositories result : List RepositoryMetric) (hle : repositories.length ≤ m)
    (hok : crawlPages octokit (m : Int) outcomes repositories repositories.length = .ok result) :
    result.length ≤ m := by
  induction outcomes generalizing repositories with
  | nil =>
    simp only [crawlPages, Except.ok.injEq] at hok
    rw [← hok]
    exact hle
  | cons outcome outcomes ih =>
    cases outcome with
    | error e => simp [crawlPages] at hok
    | ok page =>
      simp only [crawlPages] at hok
      rcases foldl_processHit_bounded octokit m page.data repositories hle with
        ⟨result', hres, hlen, _⟩ | ⟨hrun, hle'⟩
      · rw [hres] at hok
        simp only [Except.ok.injEq] at hok
        rw [← hok, hlen]
      · rw [hrun] at hok
        exact ih _ hle' hok
/-! ## Lemmas on snapshot names and their order -/

theorem matchesPattern_length (items : List PatternItem) (s : List Char)
    (h : matchesPattern items s = true) : s.length = items.length := by
  induction items generalizing s with
  | nil =>
    cases s with
    | nil => rfl
    | cons c cs => simp [matchesPattern] at h
  | cons item items ih =>
    cases s with
    | nil => simp [matchesPattern] at h
    | cons c cs =>
      cases item with
      | digit =>
        simp only [matchesPattern, Bool.and_eq_true] at h
        simp [ih cs h.2]
      | literal l =>
        simp only [matchesPattern, Bool.and_eq_true] at h
        simp [ih cs h.2]

/-- A text matches the pattern of snapshot names exactly when it is four
digits, a hyphen, two digits, a hyphen, two digits and `.json`. -/
theorem matchesPattern_date_iff (s : List Char) :
    matchesPattern datePattern s = true ↔
    ∃ y1 y2 y3 y4 m1 m2 d1 d2 : Char,
      isDigit y1 = true ∧ isDigit y2 = true ∧ isDigit y3 = true ∧ isDigit y4 = true
      ∧ isDigit m1 = true ∧ isDigit m2 = true ∧ isDigit d1 = true ∧ isDigit d2 = true
      ∧ s = [y1, y2, y3, y4, '-', m1, m2, '-', d1, d2, '.', 'j', 's', 'o', 'n'] := by
  constructor
  · intro h
    have hlen := matchesPattern_length _ _ h
    simp only [datePattern, List.length_cons, List.length_nil] at hlen
    match s, hlen, h with
    | [y1, y2, y3, y4, h1, m1, m2, h2, d1, d2, p, j, s, o, n], _, h =>
      simp only [datePattern, matchesPattern, Bool.and_eq_true, decide_eq_true_eq,
        Bool.and_true] at h
      obtain ⟨a1, a2, a3, a4, a5, a6, a7, a8, a9, a10, a11, a12, a13, a14, a15⟩ := h
      subst a5 a8 a11 a12 a13 a14 a15
      exact ⟨y1, y2, y3, y4, m1, m2, d1, d2, a1, a2, a3, a4, a6, a7, a9, a10, rfl⟩
  · rintro ⟨y1, y2, y3, y4, m1, m2, d1, d2, a1, a2, a3, a4, a5, a6, a7, a8, rfl⟩
    simp [datePattern, matchesPattern, a1, a2, a3, a4, a5, a6, a7, a8]

/-- The test `endsWith('.json')` adds nothing to the pattern. -/
theorem isSnapshotName_iff (file : String) :
    isSnapshotName file = true ↔ matchesPattern datePattern file.toList = true := by
  unfold isSnapshotName
  constructor
  · intro h
    exact (Bool.and_eq_true _ _ ▸ h).2
  · intro h
    obtain ⟨y1, y2, y3, y4, m1, m2, d1, d2, _, _, _, _, _, _, _, _, hs⟩ :=
      (matchesPattern_date_iff _).mp h
    rw [Bool.and_eq_true]
    refine ⟨?_, h⟩
    rw [hs]
    rfl

theorem isDigit_ne_slash (c : Char) (h : isDigit c = true) : c ≠ '/' := by
  intro e
  rw [e] at h
  exact absurd h (by decide)

theorem isDigit_ne_dot (c : Char) (h : isDigit c = true) : c ≠ '.' := by
  intro e
  rw [e] at h
  exact absurd h (by decide)

/-- A snapshot name is not empty and holds no `/`. -/
theorem matchesPattern_date_plain (s : List Char) (h : matchesPattern datePattern s = true) :
    s ≠ [] ∧ '/' ∉ s := by
  obtain ⟨y1, y2, y3, y4, m1, m2, d1, d2, a1, a2, a3, a4, a5, a6, a7, a8, hs⟩ :=
    (matchesPattern_date_iff _).mp h
  subst hs
  refine ⟨by simp, ?_⟩
  have b1 := (isDigit_ne_slash _ a1).symm
  have b2 := (isDigit_ne_slash _ a2).symm
  have b3 := (isDigit_ne_slash _ a3).symm
  have b4 := (isDigit_ne_slash _ a4).symm
  have b5 := (isDigit_ne_slash _ a5).symm
  have b6 := (isDigit_ne_slash _ a6).symm
  have b7 := (isDigit_ne_slash _ a7).symm
  have b8 := (isDigit_ne_slash _ a8).symm
  simp [b1, b2, b3, b4, b5, b6, b7, b8]

theorem char_eq_of_toNat_eq (x y : Char) (h : x.toNat = y.toNat) : x = y := by
  apply Char.ext
  cases hx : x.val with
  | mk vx =>
    cases hy : y.val with
    | mk vy =>
      have h' : x.val.toNat = y.val.toNat := h
      rw [hx, hy] at h'
      congr
      exact BitVec.eq_of_toNat_eq h'

theorem codeUnitsLE_refl (a : List Char) : codeUnitsLE a a = true := by
  induction a with
  | nil => rfl
  | cons x xs ih => simp [codeUnitsLE, ih]

theorem codeUnitsLE_total (a b : List Char) :
    codeUnitsLE a b = true ∨ codeUnitsLE b a = true := by
  induction a generalizing b with
  | nil => exact Or.inl rfl
  | cons x xs ih =>
    cases b with
    | nil => exact Or.inr rfl
    | cons y ys =>
      rcases Nat.lt_trichotomy x.toNat y.toNat with h | h | h
      · left
        simp [codeUnitsLE, h]
      · rcases ih ys with h' | h'
        · left
          simp [codeUnitsLE, h, h']
        · right
          simp [codeUnitsLE, h, h']
      · right
        simp [codeUnitsLE, h]

theorem codeUnitsLE_trans (a b c : List Char) (hab : codeUnitsLE a b = true)
    (hbc : codeUnitsLE b c = true) : codeUnitsLE a c = true := by
  induction a generalizing b c with
  | nil => rfl
  | cons x xs ih =>
    cases b with
    | nil => simp [codeUnitsLE] at hab
    | cons y ys =>
      cases c with
      | nil => simp [codeUnitsLE] at hbc
      | cons z zs =>
        simp only [codeUnitsLE] at hab hbc ⊢
        by_cases hxy : x.toNat < y.toNat
        · by_cases hyz : y.toNat < z.toNat
          · have : x.toNat < z.toNat := by omega
            simp [this]
          · by_cases hzy : z.toNat < y.toNat
            · simp [hyz, hzy] at hbc
            · have : x.toNat < z.toNat := by omega
              simp [this]
        · by_cases hyx : y.toNat < x.toNat
          · simp [hxy, hyx] at hab
          · simp only [hxy, hyx, if_false] at hab
            by_cases hyz : y.toNat < z.toNat
            · have : x.toNat < z.toNat := by omega
              simp [this]
            · by_cases hzy : z.toNat < y.toNat
              · simp [hyz, hzy] at hbc
              · simp only [hyz, hzy, if_false] at hbc
                have h1 : ¬ x.toNat < z.toNat := by omega
                have h2 : ¬ z.toNat < x.toNat := by omega
                simp only [h1, h2, if_false]
                exact ih ys zs hab hbc

theorem codeUnitsLE_antisymm (a b : List Char) (hab : codeUnitsLE a b = true)
    (hba : codeUnitsLE b a = true) : a = b := by
  induction a generalizing b with
  | nil =>
    cases b with
    | nil => rfl
    | cons y ys => simp [codeUnitsLE] at hba
  | cons x xs ih =>
    cases b with
    | nil => simp [codeUnitsLE] at hab
    | cons y ys =>
      simp only [codeUnitsLE] at hab hba
      by_cases hxy : x.toNat < y.toNat
      · have hyx : ¬ y.toNat < x.toNat := by omega
        simp [hxy, hyx] at hba
      · by_cases hyx : y.toNat < x.toNat
        · simp [hxy, hyx] at hab
        · simp only [hxy, hyx, if_false] at hab hba
          have hnat : x.toNat = y.toNat := by omega
          have hchar : x = y := char_eq_of_toNat_eq x y hnat
          rw [hchar, ih ys hab hba]

instance stringLE_isTotal : IsTotal String stringLE :=
  ⟨fun a b => codeUnitsLE_total a.toList b.toList⟩

instance stringLE_isTrans : IsTrans String stringLE :=
  ⟨fun a b c => codeUnitsLE_trans a.toList b.toList c.toList⟩

instance stringLE_isAntisymm : IsAntisymm String stringLE :=
  ⟨fun a b hab hba => String.toList_inj.mp (codeUnitsLE_antisymm a.toList b.toList hab hba)⟩

/-! ## Lemmas on the directory listing -/

theorem pathJoin_toList (dir file : String) :
    (pathJoin dir file).toList = (dir ++ "/").toList ++ file.toList := by
  simp [pathJoin]

theorem pathJoin_injective (dir a b : String) (h : pathJoin dir a = pathJoin dir b) : a = b := by
  have h' := congrArg String.toList h
  rw [pathJoin_toList, pathJoin_toList] at h'
  exact String.toList_inj.mp (List.append_cancel_left h')

theorem childName_eq_some (dir path name : String) :
    childName dir path = some name
      ↔ path = pathJoin dir name ∧ name.toList ≠ [] ∧ '/' ∉ name.toList := by
  unfold childName
  cases hdrop : dropPrefix (dir ++ "/").toList path.toList with
  | none =>
    constructor
    · intro h
      exact Option.noConfusion h
    · rintro ⟨hpath, _, _⟩
      have : dropPrefix (dir ++ "/").toList path.toList = some name.toList := by
        rw [dropPrefix_eq_some, hpath, pathJoin_toList]
      rw [hdrop] at this
      exact Option.noConfusion this
  | some rest =>
    have hpath := (dropPrefix_eq_some _ _ _).mp hdrop
    by_cases hrest : rest ≠ [] ∧ '/' ∉ rest
    · simp only [if_pos hrest]
      constructor
      · intro h
        have hname : name = String.mk rest := (Option.some.inj h).symm
        subst hname
        refine ⟨?_, hrest.1, hrest.2⟩
        apply String.toList_inj.mp
        rw [pathJoin_toList, hpath]
        rfl
      · rintro ⟨hp, _, _⟩
        have h' := congrArg String.toList hp
        rw [pathJoin_toList, hpath] at h'
        have hr : rest = name.toList := List.append_cancel_left h'
        rw [hr]
        rfl
    · simp only [if_neg hrest]
      constructor
      · intro h
        exact Option.noConfusion h
      · rintro ⟨hp, h1, h2⟩
        have h' := congrArg String.toList hp
        rw [pathJoin_toList, hpath] at h'
        have hr : rest = name.toList := List.append_cancel_left h'
        rw [hr] at hrest
        exact absurd ⟨h1, h2⟩ hrest

theorem existsSync_iff_mem_keys {σ : Type} (fs : FileSystem σ) (path : String) :
    existsSync fs path = true ↔ path ∈ JSObject.keys fs := by
  unfold existsSync
  have h := JSObject.get_eq_none_iff fs path
  cases hget : JSObject.get fs path with
  | none =>
    rw [hget] at h
    have hnot : path ∉ JSObject.keys fs := h.mp rfl
    simp [hnot]
  | some v =>
    rw [hget] at h
    have hmem : path ∈ JSObject.keys fs := by
      by_contra hc
      exact Option.noConfusion (h.mpr hc)
    simp [hmem]

/-- The directory listing holds the plain names of the files of the directory. -/
theorem mem_readdirSync {σ : Type} (fs : FileSystem σ) (dir name : String) :
    name ∈ readdirSync fs dir
      ↔ name.toList ≠ [] ∧ '/' ∉ name.toList ∧ existsSync fs (pathJoin dir name) = true := by
  unfold readdirSync
  rw [List.mem_filterMap, existsSync_iff_mem_keys]
  constructor
  · rintro ⟨entry, hentry, hchild⟩
    obtain ⟨hpath, h1, h2⟩ := (childName_eq_some _ _ _).mp hchild
    refine ⟨h1, h2, ?_⟩
    rw [← hpath]
    exact List.mem_map.mpr ⟨entry, hentry, rfl⟩
  · rintro ⟨h1, h2, hmem⟩
    obtain ⟨entry, hentry, hfst⟩ := List.mem_map.mp hmem
    exact ⟨entry, hentry, (childName_eq_some _ _ _).mpr ⟨hfst, h1, h2⟩⟩

/-- The snapshot files are the names of the pattern that exist in the data
directory. -/
theorem mem_snapshotFiles {σ : Type} (storage : DataStorage) (fs : FileSystem σ)
    (name : String) :
    name ∈ snapshotFiles storage fs
      ↔ matchesPattern datePattern name.toList = true
        ∧ existsSync fs (pathJoin storage.dataDir name) = true := by
  unfold snapshotFiles
  rw [(List.perm_insertionSort stringLE _).mem_iff, List.mem_filter, mem_readdirSync,
    isSnapshotName_iff]
  constructor
  · rintro ⟨⟨_, _, hex⟩, hpat⟩
    exact ⟨hpat, hex⟩
  · rintro ⟨hpat, hex⟩
    obtain ⟨h1, h2⟩ := matchesPattern_date_plain _ hpat
    exact ⟨⟨h1, h2, hex⟩, hpat⟩

theorem snapshotFiles_sorted {σ : Type} (storage : DataStorage) (fs : FileSystem σ) :
    (snapshotFiles storage fs).Pairwise stringLE :=
  List.sorted_insertionSort stringLE _

/-- The snapshot files do not depend on the order in which the file system
lists its files. -/
theorem snapshotFiles_perm {σ : Type} (storage : DataStorage) (fs fs' : FileSystem σ)
    (h : fs'.Perm fs) : snapshotFiles storage fs' = snapshotFiles storage fs := by
  unfold snapshotFiles readdirSync
  have hperm : ((fs'.filterMap (fun entry => childName storage.dataDir entry.1)).filter
      isSnapshotName).Perm
      ((fs.filterMap (fun entry => childName storage.dataDir entry.1)).filter isSnapshotName) :=
    (h.filterMap _).filter _
  apply List.eq_of_perm_of_sorted (r := stringLE)
  · exact ((List.perm_insertionSort stringLE _).trans hperm).trans
      (List.perm_insertionSort stringLE _).symm
  · exact List.sorted_insertionSort stringLE _
  · exact List.sorted_insertionSort stringLE _

theorem snapshotFiles_nodup {σ : Type} (storage : DataStorage) (fs : FileSystem σ)
    (h : (JSObject.keys fs).Nodup) : (snapshotFiles storage fs).Nodup := by
  unfold snapshotFiles
  rw [(List.perm_insertionSort stringLE _).nodup_iff]
  apply List.Nodup.filter
  have hkeys : readdirSync fs storage.dataDir
      = (JSObject.keys fs).filterMap (childName storage.dataDir) := by
    unfold readdirSync JSObject.keys
    rw [List.filterMap_map]
    rfl
  rw [hkeys]
  apply List.Nodup.filterMap ?_ h
  intro p1 p2 name h1 h2
  have e1 := ((childName_eq_some _ _ _).mp (Option.mem_def.mp h1)).1
  have e2 := ((childName_eq_some _ _ _).mp (Option.mem_def.mp h2)).1
  rw [e1, e2]

theorem getAllSnapshots_nodup {σ : Type} (storage : DataStorage) (fs : FileSystem σ)
    (h : (JSObject.keys fs).Nodup) : (getAllSnapshots storage fs).Nodup := by
  unfold getAllSnapshots
  exact List.Nodup.map (fun a b hab => pathJoin_injective storage.dataDir a b hab)
    (snapshotFiles_nodup storage fs h)

/-! ## Lemmas on the dates of snapshot names -/

theorem isDigit_toNat (c : Char) (h : isDigit c = true) : 48 ≤ c.toNat ∧ c.toNat ≤ 57 := by
  simp only [isDigit, Bool.and_eq_true, decide_eq_true_eq] at h
  have h1 : ('0' : Char).val.toNat ≤ c.val.toNat := h.1
  have h2 : c.val.toNat ≤ ('9' : Char).val.toNat := h.2
  exact ⟨h1, h2⟩

theorem foldl_digits_acc (ds : List Char) (acc : Nat) :
    ds.foldl (fun n c => 10 * n + (c.toNat - '0'.toNat)) acc
      = acc * 10 ^ ds.length + parseInt10 ds := by
  unfold parseInt10
  induction ds generalizing acc with
  | nil => simp
  | cons d ds ih =>
    simp only [List.foldl_cons, List.length_cons]
    rw [ih (10 * acc + (d.toNat - '0'.toNat)), ih (10 * 0 + (d.toNat - '0'.toNat))]
    ring

theorem parseInt10_cons (d : Char) (ds : List Char) :
    parseInt10 (d :: ds) = (d.toNat - '0'.toNat) * 10 ^ ds.length + parseInt10 ds := by
  have h := foldl_digits_acc ds (10 * 0 + (d.toNat - '0'.toNat))
  simpa [parseInt10] using h

theorem parseInt10_lt (ds : List Char) (h : ∀ c ∈ ds, isDigit c = true) :
    parseInt10 ds < 10 ^ ds.length := by
  induction ds with
  | nil => simp [parseInt10]
  | cons d ds ih =>
    have hd := isDigit_toNat d (h d (List.mem_cons_self d ds))
    have hds := ih (fun c hc => h c (List.mem_cons_of_mem d hc))
    have h0 : ('0' : Char).toNat = 48 := rfl
    rw [parseInt10_cons, h0, List.length_cons, pow_succ]
    have hv : d.toNat - 48 ≤ 9 := by omega
    have hmul : (d.toNat - 48) * 10 ^ ds.length ≤ 9 * 10 ^ ds.length :=
      Nat.mul_le_mul_right _ hv
    omega

/-- Runs of digits of one length compare by code units as they compare as
numbers. -/
theorem codeUnitsLE_digits (ds es ta tb : List Char) (hlen : ds.length = es.length)
    (hd : ∀ c ∈ ds, isDigit c = true) (he : ∀ c ∈ es, isDigit c = true) :
    codeUnitsLE (ds ++ ta) (es ++ tb) = true
      ↔ parseInt10 ds < parseInt10 es
        ∨ (parseInt10 ds = parseInt10 es ∧ codeUnitsLE ta tb = true) := by
  induction ds generalizing es with
  | nil =>
    cases es with
    | nil => simp [parseInt10]
    | cons e es => simp at hlen
  | cons d ds ih =>
    cases es with
    | nil => simp at hlen
    | cons e es =>
      have hlen' : ds.length = es.length := by simpa using hlen
      have hd0 := isDigit_toNat d (hd d (List.mem_cons_self d ds))
      have he0 := isDigit_toNat e (he e (List.mem_cons_self e es))
      have hds : ∀ c ∈ ds, isDigit c = true := fun c hc => hd c (List.mem_cons_of_mem d hc)
      have hes : ∀ c ∈ es, isDigit c = true := fun c hc => he c (List.mem_cons_of_mem e hc)
      have hP := parseInt10_lt ds hds
      have hQ := parseInt10_lt es hes
      have h0 : ('0' : Char).toNat = 48 := rfl
      rw [parseInt10_cons, parseInt10_cons, h0, ← hlen']
      rw [← hlen'] at hQ
      have hstep : codeUnitsLE (d :: (ds ++ ta)) (e :: (es ++ tb))
          = (if d.toNat < e.toNat then true
            else if e.toNat < d.toNat then false else codeUnitsLE (ds ++ ta) (es ++ tb)) := rfl
      rw [List.cons_append, List.cons_append, hstep]
      by_cases hlt : d.toNat < e.toNat
      · have hmul : (d.toNat - 48 + 1) * 10 ^ ds.length ≤ (e.toNat - 48) * 10 ^ ds.length :=
          Nat.mul_le_mul_right _ (by omega)
        rw [Nat.add_mul, Nat.one_mul] at hmul
        simp only [hlt, if_true, true_iff]
        left
        omega
      · by_cases hgt : e.toNat < d.toNat
        · have hmul : (e.toNat - 48 + 1) * 10 ^ ds.length ≤ (d.toNat - 48) * 10 ^ ds.length :=
            Nat.mul_le_mul_right _ (by omega)
          rw [Nat.add_mul, Nat.one_mul] at hmul
          simp only [hlt, hgt, if_false, if_true]
          constructor
          · intro h
            exact absurd h (by decide)
          · rintro (h | ⟨h, _⟩) <;> omega
        · have heq : d.toNat = e.toNat := by omega
          simp only [hlt, hgt, if_false]
          rw [ih es hlen' hds hes, heq]
          constructor
          · rintro (h | ⟨h, h'⟩)
            · left; omega
            · right; exact ⟨by omega, h'⟩
          · rintro (h | ⟨h, h'⟩)
            · left; omega
            · right; exact ⟨by omega, h'⟩

theorem codeUnitsLE_cons_same (c : Char) (xs ys : List Char) :
    codeUnitsLE (c :: xs) (c :: ys) = codeUnitsLE xs ys := by
  simp [codeUnitsLE]

/-- For two snapshot names, the order of the sort is the order of the dates. -/
theorem stringLE_iff_chronLE (a b : String)
    (ha : matchesPattern datePattern a.toList = true)
    (hb : matchesPattern datePattern b.toList = true) :
    stringLE a b ↔ chronLE (snapshotDate a) (snapshotDate b) := by
  obtain ⟨y1, y2, y3, y4, m1, m2, d1, d2, a1, a2, a3, a4, a5, a6, a7, a8, hsa⟩ :=
    (matchesPattern_date_iff _).mp ha
  obtain ⟨z1, z2, z3, z4, n1, n2, e1, e2, b1, b2, b3, b4, b5, b6, b7, b8, hsb⟩ :=
    (matchesPattern_date_iff _).mp hb
  have hda : snapshotDate a
      = (parseInt10 [y1, y2, y3, y4], parseInt10 [m1, m2], parseInt10 [d1, d2]) := by
    unfold snapshotDate
    rw [hsa]
  have hdb : snapshotDate b
      = (parseInt10 [z1, z2, z3, z4], parseInt10 [n1, n2], parseInt10 [e1, e2]) := by
    unfold snapshotDate
    rw [hsb]
  have hY := codeUnitsLE_digits [y1, y2, y3, y4] [z1, z2, z3, z4]
    ('-' :: m1 :: m2 :: '-' :: d1 :: d2 :: ".json".toList)
    ('-' :: n1 :: n2 :: '-' :: e1 :: e2 :: ".json".toList) rfl
    (by simp [a1, a2, a3, a4]) (by simp [b1, b2, b3, b4])
  have hM := codeUnitsLE_digits [m1, m2] [n1, n2]
    ('-' :: d1 :: d2 :: ".json".toList) ('-' :: e1 :: e2 :: ".json".toList) rfl
    (by simp [a5, a6]) (by simp [b5, b6])
  have hD := codeUnitsLE_digits [d1, d2] [e1, e2] ".json".toList ".json".toList rfl
    (by simp [a7, a8]) (by simp [b7, b8])
  rw [codeUnitsLE_cons_same] at hY
  have hM' : codeUnitsLE (m1 :: m2 :: '-' :: d1 :: d2 :: ".json".toList)
      (n1 :: n2 :: '-' :: e1 :: e2 :: ".json".toList) = true
      ↔ parseInt10 [m1, m2] < parseInt10 [n1, n2]
        ∨ (parseInt10 [m1, m2] = parseInt10 [n1, n2]
          ∧ codeUnitsLE (d1 :: d2 :: ".json".toList) (e1 :: e2 :: ".json".toList) = true) := by
    rw [← codeUnitsLE_cons_same '-' (d1 :: d2 :: ".json".toList)]
    exact hM
  have hJ : codeUnitsLE ".json".toList ".json".toList = true := codeUnitsLE_refl _
  have hD' : codeUnitsLE (d1 :: d2 :: ".json".toList) (e1 :: e2 :: ".json".toList) = true
      ↔ parseInt10 [d1, d2] ≤ parseInt10 [e1, e2] := by
    have := hD
    simp only [List.cons_append, List.nil_append, hJ, and_true] at this
    rw [this]
    omega
  unfold stringLE chronLE
  rw [hda, hdb, hsa, hsb]
  have hY' : codeUnitsLE [y1, y2, y3, y4, '-', m1, m2, '-', d1, d2, '.', 'j', 's', 'o', 'n']
      [z1, z2, z3, z4, '-', n1, n2, '-', e1, e2, '.', 'j', 's', 'o', 'n'] = true
      ↔ parseInt10 [y1, y2, y3, y4] < parseInt10 [z1, z2, z3, z4]
        ∨ (parseInt10 [y1, y2, y3, y4] = parseInt10 [z1, z2, z3, z4]
          ∧ codeUnitsLE (m1 :: m2 :: '-' :: d1 :: d2 :: ".json".toList)
              (n1 :: n2 :: '-' :: e1 :: e2 :: ".json".toList) = true) := hY
  rw [hY', hM', hD']

/-! ## Lemmas on loading the snapshots -/

theorem afterLastSlash_append (xs name : List Char) (h : '/' ∉ name) :
    afterLastSlash (xs ++ '/' :: name) = name := by
  induction xs with
  | nil => simp [afterLastSlash, h]
  | cons c xs ih =>
    have hmem : '/' ∈ xs ++ '/' :: name := by simp
    have hstep : afterLastSlash (c :: (xs ++ '/' :: name))
        = (if '/' ∈ xs ++ '/' :: name then afterLastSlash (xs ++ '/' :: name)
          else if c = '/' then xs ++ '/' :: name else c :: (xs ++ '/' :: name)) := rfl
    rw [List.cons_append, hstep, if_pos hmem]
    exact ih

theorem pathBasename_pathJoin (dir name : String) (h : '/' ∉ name.toList) :
    pathBasename (pathJoin dir name) = name := by
  unfold pathBasename
  apply String.toList_inj.mp
  have hlist : (pathJoin dir name).toList = dir.toList ++ '/' :: name.toList := by
    simp [pathJoin]
  rw [hlist]
  exact afterLastSlash_append _ _ h

theorem removeFirst_cons_ne (c : Char) (cs : List Char) (h : c ≠ '.') :
    removeFirst ".json".toList (c :: cs) = c :: removeFirst ".json".toList cs := by
  have hdrop : dropPrefix ".json".toList (c :: cs) = none := by
    have hne : ¬ '.' = c := fun e => h e.symm
    show dropPrefix ('.' :: "json".toList) (c :: cs) = none
    simp [dropPrefix, hne]
  simp only [removeFirst, hdrop]

/-- A snapshot name is its date followed by `.json`, and `replace` returns the
date. -/
theorem replaceJson_snapshotName (name : String)
    (h : matchesPattern datePattern name.toList = true) :
    replaceJson name ++ ".json" = name := by
  obtain ⟨y1, y2, y3, y4, m1, m2, d1, d2, a1, a2, a3, a4, a5, a6, a7, a8, hs⟩ :=
    (matchesPattern_date_iff _).mp h
  have hminus : ('-' : Char) ≠ '.' := by decide
  have hlast : removeFirst ".json".toList ".json".toList = [] := by decide
  have hremove : removeFirst ".json".toList name.toList
      = [y1, y2, y3, y4, '-', m1, m2, '-', d1, d2] := by
    rw [hs]
    rw [removeFirst_cons_ne _ _ (isDigit_ne_dot _ a1), removeFirst_cons_ne _ _ (isDigit_ne_dot _ a2),
      removeFirst_cons_ne _ _ (isDigit_ne_dot _ a3), removeFirst_cons_ne _ _ (isDigit_ne_dot _ a4),
      removeFirst_cons_ne _ _ hminus,
      removeFirst_cons_ne _ _ (isDigit_ne_dot _ a5), removeFirst_cons_ne _ _ (isDigit_ne_dot _ a6),
      removeFirst_cons_ne _ _ hminus,
      removeFirst_cons_ne _ _ (isDigit_ne_dot _ a7), removeFirst_cons_ne _ _ (isDigit_ne_dot _ a8)]
    show [y1, y2, y3, y4, '-', m1, m2, '-', d1, d2] ++ removeFirst ".json".toList ".json".toList
      = [y1, y2, y3, y4, '-', m1, m2, '-', d1, d2]
    rw [hlast, List.append_nil]
  apply String.toList_inj.mp
  unfold replaceJson
  rw [String.toList, String.data_append, hremove]
  show [y1, y2, y3, y4, '-', m1, m2, '-', d1, d2] ++ ".json".toList = name.toList
  rw [hs]
  rfl

theorem loadSnapshot_eq_parse {σ : Type} (json : JSON σ) (fs : FileSystem σ) (file : String)
    (content : σ) (h : readFileSync fs file = some content) :
    loadSnapshot json fs file = json.parse content := by
  unfold loadSnapshot existsSync
  unfold readFileSync at h
  simp [readFileSync, h]

theorem loadSnapshot_missing {σ : Type} (json : JSON σ) (fs : FileSystem σ) (file : String)
    (h : existsSync fs file = false) : loadSnapshot json fs file = .ok .null := by
  unfold loadSnapshot
  simp [h]

/-- When every file loads, `loadFiles` returns the documents, file by file. -/
theorem loadFiles_of_ok {σ : Type} (json : JSON σ) (fs : FileSystem σ) (files : List String)
    (h : ∀ file ∈ files, ∃ document, loadSnapshot json fs file = .ok document) :
    loadFiles json fs files
      = .ok (files.map (fun file =>
          { filename := pathBasename file, data := loadedDocument json fs file })) := by
  induction files with
  | nil => rfl
  | cons file files ih =>
    obtain ⟨document, hdoc⟩ := h file (List.mem_cons_self file files)
    have hrest := ih (fun f hf => h f (List.mem_cons_of_mem file hf))
    have hloaded : loadedDocument json fs file = document := by
      simp [loadedDocument, hdoc]
    simp only [loadFiles, hdoc, hrest, List.map_cons, hloaded]

theorem loadFiles_cons_ne_nil {σ : Type} (json : JSON σ) (fs : FileSystem σ) (file : String)
    (files : List String) : loadFiles json fs (file :: files) ≠ .ok [] := by
  unfold loadFiles
  cases loadSnapshot json fs file with
  | error e => simp
  | ok data =>
    cases loadFiles json fs files with
    | error e => simp
    | ok rest => simp

/-- When every snapshot file loads, `loadAllSnapshots` returns one item per
snapshot file, in the order of the files, with the name of the file. -/
theorem loadAllSnapshots_of_ok {σ : Type} (json : JSON σ) (storage : DataStorage)
    (fs : FileSystem σ)
    (h : ∀ file ∈ getAllSnapshots storage fs, ∃ document,
      loadSnapshot json fs file = .ok document) :
    loadAllSnapshots json storage fs
      = .ok ((snapshotFiles storage fs).map (fun name =>
          { filename := name
            data := loadedDocument json fs (pathJoin storage.dataDir name) })) := by
  unfold loadAllSnapshots
  rw [loadFiles_of_ok json fs _ h]
  unfold getAllSnapshots
  rw [List.map_map]
  congr 1
  apply List.map_congr_left
  intro name hname
  have hpat := ((mem_snapshotFiles storage fs name).mp hname).1
  have hplain := (matchesPattern_date_plain _ hpat).2
  simp [pathBasename_pathJoin storage.dataDir name hplain]

/-- In an object with every name once, the value read at a name does not
depend on the order of the entries. -/
theorem JSObject.get_perm {α : Type} (o o' : JSObject α) (k : String) (hperm : o'.Perm o)
    (hnodup : (JSObject.keys o).Nodup) : JSObject.get o' k = JSObject.get o k := by
  have hnodup' : (JSObject.keys o').Nodup :=
    ((hperm.map Prod.fst).nodup_iff).mpr hnodup
  cases hget : JSObject.get o k with
  | some v =>
    rw [← JSObject.mem_iff_get o' k v hnodup']
    exact hperm.mem_iff.mpr ((JSObject.mem_iff_get o k v hnodup).mpr hget)
  | none =>
    rw [JSObject.get_eq_none_iff] at hget ⊢
    intro hmem
    exact hget ((hperm.map Prod.fst).mem_iff.mp hmem)

/-! ## Lemmas on the historical summary -/

/-- Reading a property of `value || {}` is reading the property of `value`. -/
theorem getProp_orDefault_obj (value : Option Json) (key : String) :
    Json.getProp (some (orDefault value (.obj []))) key = Json.getProp value key := by
  cases value with
  | none => simp [orDefault, Json.getProp, JSObject.get]
  | some v =>
    cases v with
    | null => simp [orDefault, Json.truthy, Json.getProp, JSObject.get]
    | bool b =>
      cases b with
      | false => simp [orDefault, Json.truthy, Json.getProp, JSObject.get]
      | true => simp [orDefault, Json.truthy, Json.getProp]
    | num n =>
      by_cases h : n = 0
      · simp [orDefault, Json.truthy, Json.getProp, JSObject.get, h]
      · simp [orDefault, Json.truthy, Json.getProp, h]
    | str s =>
      by_cases h : s = ""
      · simp [orDefault, Json.truthy, Json.getProp, JSObject.get, h]
      · simp [orDefault, Json.truthy, Json.getProp, h]
    | arr items => simp [orDefault, Json.truthy, Json.getProp]
    | obj fields => simp [orDefault, Json.truthy]

theorem orDefault_num (n : Int) : orDefault (some (.num n)) (.num 0) = .num n := by
  by_cases h : n = 0
  · simp [orDefault, Json.truthy, h]
  · simp [orDefault, Json.truthy, h]

/-- Each scalar field of a timeline entry is the field of the aggregate
statistics of the snapshot, read with `|| 0`. -/
theorem timelineEntry_scalar (snapshot : LoadedSnapshot) (field : String)
    (hfield : field ∈ scalarFields) :
    JSObject.get (timelineEntry snapshot).scalars field
      = some (orDefault
          (Json.getProp (Json.getProp (some snapshot.data) "aggregateStats") field)
          (.num 0)) := by
  simp only [scalarFields, List.mem_cons, List.mem_singleton, List.not_mem_nil, or_false]
    at hfield
  rcases hfield with h | h | h | h | h | h | h | h <;> subst h <;>
    simp [TimelineEntry.scalars, timelineEntry, JSObject.get, getProp_orDefault_obj]

/-- In a sorted list every element is before the last, for a reflexive order. -/
theorem pairwise_getLast {α : Type} (r : α → α → Prop) (hrefl : ∀ a, r a a) (l : List α)
    (hl : l ≠ []) (hp : l.Pairwise r) : ∀ a ∈ l, r a (l.getLast hl) := by
  induction l with
  | nil => exact absurd rfl hl
  | cons x xs ih =>
    intro a ha
    cases xs with
    | nil =>
      have hax : a = x := by simpa using ha
      rw [hax]
      exact hrefl x
    | cons y ys =>
      have hlast : (x :: y :: ys).getLast hl = (y :: ys).getLast (List.cons_ne_nil y ys) :=
        List.getLast_cons (List.cons_ne_nil y ys)
      rw [hlast]
      obtain ⟨hx, hp'⟩ := List.pairwise_cons.mp hp
      rcases List.mem_cons.mp ha with hax | hmem
      · rw [hax]
        exact hx _ (List.getLast_mem (List.cons_ne_nil y ys))
      · exact ih (List.cons_ne_nil y ys) hp' a hmem

theorem stringLE_refl (a : String) : stringLE a a := codeUnitsLE_refl a.toList

/-- When there is a snapshot file and every snapshot file loads, the summary is
built from the loaded files, in the order of the files. -/
theorem generateHistoricalSummary_of_ok {σ : Type} (json : JSON σ) (storage : DataStorage)
    (now : String) (fs : FileSystem σ) (first : String) (rest : List String)
    (hfiles : snapshotFiles storage fs = first :: rest)
    (hparse : ∀ file ∈ getAllSnapshots storage fs, ∃ document,
      loadSnapshot json fs file = .ok document) :
    generateHistoricalSummary json storage now fs
      = .ok (some (historyOf now
          { filename := first, data := loadedDocument json fs (pathJoin storage.dataDir first) }
          (rest.map (fun name =>
            { filename := name
              data := loadedDocument json fs (pathJoin storage.dataDir name) })))) := by
  unfold generateHistoricalSummary
  rw [loadAllSnapshots_of_ok json storage fs hparse, hfiles]
  rfl

theorem loadSnapshot_perm {σ : Type} (json : JSON σ) (fs fs' : FileSystem σ) (file : String)
    (hperm : fs'.Perm fs) (hnodup : (JSObject.keys fs).Nodup) :
    loadSnapshot json fs' file = loadSnapshot json fs file := by
  unfold loadSnapshot existsSync readFileSync
  rw [JSObject.get_perm fs fs' file hperm hnodup]

/-- With the codec that stores JSON values as they are, every file loads. -/
theorem loadSnapshot_sampleJSON (fs : FileSystem Json) (file : String) :
    ∃ document, loadSnapshot sampleJSON fs file = .ok document := by
  unfold loadSnapshot
  by_cases h : existsSync fs file = false
  · exact ⟨.null, by simp [h]⟩
  · cases hread : readFileSync fs file with
    | none => exact ⟨.null, by simp [h]⟩
    | some content => exact ⟨content, by simp [h, sampleJSON]⟩


/-! ## Lemmas on JSON text -/

theorem skipWhitespace_of_head (c : Char) (rest : List Char) (h : isWhitespace c = false) :
    skipWhitespace (c :: rest) = c :: rest := by
  simp [skipWhitespace, h]

theorem skipWhitespace_spaces (width : Nat) (rest : List Char) :
    skipWhitespace (spaces width ++ rest) = skipWhitespace rest := by
  induction width with
  | zero => rfl
  | succ width ih =>
    have hstep : spaces (width + 1) ++ rest = ' ' :: (spaces width ++ rest) := by
      simp [spaces, List.replicate_succ]
    rw [hstep]
    have hws : isWhitespace ' ' = true := by decide
    simp only [skipWhitespace, hws, if_true]
    exact ih

theorem skipWhitespace_newline (width : Nat) (rest : List Char) :
    skipWhitespace ('\n' :: (spaces width ++ rest)) = skipWhitespace rest := by
  have hws : isWhitespace '\n' = true := by decide
  simp only [skipWhitespace, hws, if_true]
  exact skipWhitespace_spaces width rest

theorem isDigit_not_whitespace (c : Char) (h : isDigit c = true) :
    isWhitespace c = false ∧ c ≠ ']' ∧ c ≠ '}' ∧ c ≠ '-' ∧ c ≠ '"' ∧ c ≠ '[' ∧ c ≠ '{'
      ∧ c ≠ 'n' ∧ c ≠ 't' ∧ c ≠ 'f' := by
  have hnat := isDigit_toNat c h
  have hne : ∀ d : Char, (d.toNat < 48 ∨ 57 < d.toNat) → c ≠ d := by
    intro d hd hcd
    rw [hcd] at hnat
    omega
  refine ⟨?_, hne _ (by decide), hne _ (by decide), hne _ (by decide), hne _ (by decide),
    hne _ (by decide), hne _ (by decide), hne _ (by decide), hne _ (by decide),
    hne _ (by decide)⟩
  simp only [isWhitespace, Bool.or_eq_false_iff, decide_eq_false_iff_not]
  exact ⟨⟨⟨hne _ (by decide), hne _ (by decide)⟩, hne _ (by decide)⟩, hne _ (by decide)⟩

/-- A run of digits before a character that is no digit is what the digit
class takes from the input. -/
theorem takeWhile_isDigit_append (digits rest : List Char)
    (h : ∀ c ∈ digits, isDigit c = true) (hrest : ∀ c, rest.head? = some c → isDigit c = false) :
    (digits ++ rest).takeWhile isDigit = digits
    ∧ (digits ++ rest).dropWhile isDigit = rest := by
  induction digits with
  | nil =>
    cases rest with
    | nil => simp
    | cons r rest =>
      have hr : isDigit r = false := hrest r rfl
      simp [List.takeWhile, List.dropWhile, hr]
  | cons d ds ih =>
    have hd : isDigit d = true := h d (List.mem_cons_self d ds)
    have hds : ∀ c ∈ ds, isDigit c = true := fun c hc => h c (List.mem_cons_of_mem d hc)
    simp [List.takeWhile, List.dropWhile, hd, ih hds]

/-- The decimal numeral of a positive number does not start with the digit 0. -/
theorem toDigitsCore_head (fuel n : Nat) (ds : List Char) (hn : 0 < n) (hfuel : n < fuel) :
    ∃ c tl, Nat.toDigitsCore 10 fuel n ds = c :: tl ∧ c ≠ '0' := by
  induction fuel generalizing n ds with
  | zero => omega
  | succ fuel ih =>
    by_cases h0 : n / 10 = 0
    · refine ⟨Nat.digitChar (n % 10), ds, by simp [Nat.toDigitsCore, h0], ?_⟩
      have hlt : n < 10 := by omega
      have hmod : n % 10 = n := Nat.mod_eq_of_lt hlt
      rw [hmod]
      interval_cases n <;> decide
    · have hstep : Nat.toDigitsCore 10 (fuel + 1) n ds
          = Nat.toDigitsCore 10 fuel (n / 10) (Nat.digitChar (n % 10) :: ds) := by
        simp [Nat.toDigitsCore, h0]
      rw [hstep]
      exact ih (n / 10) _ (by omega) (by omega)

theorem toString_no_leading_zero (n : Nat) :
    ¬ ((toString n).toList.head? = some '0' ∧ 1 < (toString n).toList.length) := by
  have h : (toString n).toList = Nat.toDigitsCore 10 (n + 1) n [] := rfl
  rintro ⟨hhead, hlen⟩
  by_cases hn : n = 0
  · subst hn
    exact absurd hlen (by decide)
  · obtain ⟨c, tl, hc, hne⟩ := toDigitsCore_head (n + 1) n [] (by omega) (by omega)
    rw [h, hc] at hhead
    simp only [List.head?_cons, Option.some.injEq] at hhead
    exact hne hhead

/-- Reading the text of an integer gives the integer back, when no digit, point
or exponent mark follows. -/
theorem parseNumber_numberToString (n : Int) (rest : List Char)
    (hrest : ∀ c, rest.head? = some c →
      isDigit c = false ∧ c ≠ '.' ∧ c ≠ 'e' ∧ c ≠ 'E') :
    parseNumber (numberToString n ++ rest) = some (.num n, rest) := by
  obtain ⟨hne, hdigits⟩ := toString_digits n.natAbs
  have hlead := toString_no_leading_zero n.natAbs
  have hsplit := takeWhile_isDigit_append (toString n.natAbs).toList rest hdigits
    (fun c hc => (hrest c hc).1)
  have hvalue := parseInt10_toString n.natAbs
  have hmark : ¬ (rest.head? = some '.' ∨ rest.head? = some 'e' ∨ rest.head? = some 'E') := by
    rintro (h | h | h)
    · exact (hrest _ h).2.1 rfl
    · exact (hrest _ h).2.2.1 rfl
    · exact (hrest _ h).2.2.2 rfl
  obtain ⟨d, ds, hds⟩ := List.exists_cons_of_ne_nil hne
  have hd : isDigit d = true := hdigits d (by rw [hds]; exact List.mem_cons_self d ds)
  have hminus : d ≠ '-' := (isDigit_not_whitespace d hd).2.2.2.1
  by_cases hneg : n < 0
  · have htext : numberToString n ++ rest = '-' :: ((toString n.natAbs).toList ++ rest) := by
      simp [numberToString, hneg]
    have habs : -((n.natAbs : Nat) : Int) = n := by omega
    rw [htext]
    unfold parseNumber
    simp only [List.head?_cons, decide_True, if_true, List.drop_succ_cons, List.drop_zero,
      hsplit.1, hsplit.2, hne, if_false, hlead, hmark, hvalue, habs]
  · have htext : numberToString n ++ rest = (toString n.natAbs).toList ++ rest := by
      simp [numberToString, hneg]
    have habs : ((n.natAbs : Nat) : Int) = n := by omega
    have hhead : ((toString n.natAbs).toList ++ rest).head? ≠ some '-' := by
      rw [hds]
      simp only [List.cons_append, List.head?_cons, ne_eq, Option.some.injEq]
      exact hminus
    rw [htext]
    unfold parseNumber
    simp only [hhead, decide_False, Bool.false_eq_true, if_false, hsplit.1, hsplit.2, hne,
      hlead, hmark, hvalue, habs]

theorem hexValue_hexDigit (k : Nat) (h : k < 16) : hexValue (hexDigit k) = some k := by
  interval_cases k <;> rfl

/-- Reading the text of one character of a string gives the character back. -/
theorem readStringChar_escapeChar (c : Char) (tail : List Char) :
    readStringChar (escapeChar c ++ tail) = some (some c, tail) := by
  by_cases h1 : c = '"'
  · subst h1
    have hesc : escapeChar '"' = ['\\', '"'] := by decide
    rw [hesc]
    simp [readStringChar, readEscape, unescapeChar]
  by_cases h2 : c = '\\'
  · subst h2
    have hesc : escapeChar '\\' = ['\\', '\\'] := by decide
    rw [hesc]
    simp [readStringChar, readEscape, unescapeChar]
  by_cases h3 : c.toNat = 8
  · have hc : c = Char.ofNat 8 := char_eq_of_toNat_eq _ _ h3
    subst hc
    have hesc : escapeChar (Char.ofNat 8) = ['\\', 'b'] := by decide
    rw [hesc]
    simp [readStringChar, readEscape, unescapeChar]
  by_cases h4 : c.toNat = 12
  · have hc : c = Char.ofNat 12 := char_eq_of_toNat_eq _ _ h4
    subst hc
    have hesc : escapeChar (Char.ofNat 12) = ['\\', 'f'] := by decide
    rw [hesc]
    simp [readStringChar, readEscape, unescapeChar]
  by_cases h5 : c = '\n'
  · subst h5
    have hesc : escapeChar '\n' = ['\\', 'n'] := by decide
    rw [hesc]
    simp [readStringChar, readEscape, unescapeChar]
  by_cases h6 : c = '\r'
  · subst h6
    have hesc : escapeChar '\r' = ['\\', 'r'] := by decide
    rw [hesc]
    simp [readStringChar, readEscape, unescapeChar]
  by_cases h7 : c = '\t'
  · subst h7
    have hesc : escapeChar '\t' = ['\\', 't'] := by decide
    rw [hesc]
    simp [readStringChar, readEscape, unescapeChar]
  by_cases h8 : c.toNat < 32
  · have hesc : escapeChar c
        = ['\\', 'u', '0', '0', hexDigit (c.toNat / 16), hexDigit (c.toNat % 16)] := by
      simp [escapeChar, h1, h2, h3, h4, h5, h6, h7, h8]
    have hhex : hexValue4 '0' '0' (hexDigit (c.toNat / 16)) (hexDigit (c.toNat % 16))
        = some c.toNat := by
      have ha : hexValue '0' = some 0 := rfl
      have hb := hexValue_hexDigit (c.toNat / 16) (by omega)
      have hc := hexValue_hexDigit (c.toNat % 16) (by omega)
      simp only [hexValue4, ha, hb, hc]
      congr 1
      omega
    have hsmall : c.toNat < 55296 ∨ 57344 ≤ c.toNat := Or.inl (by omega)
    rw [hesc]
    simp [readStringChar, readEscape, readUnicodeEscape, hhex, hsmall, Char.ofNat_toNat]
  · have hesc : escapeChar c = [c] := by
      simp [escapeChar, h1, h2, h3, h4, h5, h6, h7, h8]
    rw [hesc]
    simp [readStringChar, h1, h2, h8]

theorem escapeChar_ne_nil (c : Char) : escapeChar c ≠ [] := by
  unfold escapeChar
  repeat' split
  all_goals simp

theorem length_le_length_escape (s : List Char) :
    s.length ≤ (s.flatMap escapeChar).length := by
  induction s with
  | nil => simp
  | cons c s ih =>
    have hpos : 0 < (escapeChar c).length := List.length_pos.mpr (escapeChar_ne_nil c)
    rw [List.flatMap_cons, List.length_append, List.length_cons]
    omega

/-- Reading the text of a string, after its opening quotation mark, gives its
characters back. -/
theorem parseString_escape (fuel : Nat) (s rest : List Char) (hfuel : s.length < fuel) :
    parseString fuel (s.flatMap escapeChar ++ '"' :: rest) = some (s, rest) := by
  induction s generalizing fuel with
  | nil =>
    cases fuel with
    | zero => simp at hfuel
    | succ fuel => simp [parseString, readStringChar]
  | cons c s ih =>
    cases fuel with
    | zero => simp at hfuel
    | succ fuel =>
      rw [List.flatMap_cons, List.append_assoc, parseString, readStringChar_escapeChar]
      simp only
      rw [ih fuel (by simpa using hfuel)]
      rfl

/-- Reading the text of a string with as much fuel as the input is long. -/
theorem parseString_quote (s : String) (rest : List Char) :
    parseString (s.toList.flatMap escapeChar ++ '"' :: rest).length
        (s.toList.flatMap escapeChar ++ '"' :: rest)
      = some (s.toList, rest) := by
  apply parseString_escape
  have h := length_le_length_escape s.toList
  simp only [List.length_append, List.length_cons]
  omega

theorem Json.nodes_pos (j : Json) : 1 ≤ j.nodes := by
  cases j <;> simp [Json.nodes]

theorem numberToString_head (n : Int) :
    ∃ c tl, numberToString n = c :: tl ∧ (c = '-' ∨ isDigit c = true) := by
  obtain ⟨hne, hdigits⟩ := toString_digits n.natAbs
  obtain ⟨d, ds, hds⟩ := List.exists_cons_of_ne_nil hne
  have hd : isDigit d = true := hdigits d (by rw [hds]; exact List.mem_cons_self d ds)
  by_cases hneg : n < 0
  · exact ⟨'-', (toString n.natAbs).toList, by simp [numberToString, hneg], Or.inl rfl⟩
  · exact ⟨d, ds, by rw [numberToString, if_neg hneg, hds], Or.inr hd⟩

/-- The text of a document starts with a character that is no white space and
closes no array and no object. -/
theorem serializeJSON_head (indent : Nat) (j : Json) :
    ∃ c tl, serializeJSON indent j = c :: tl ∧ isWhitespace c = false ∧ c ≠ ']' ∧ c ≠ '}' := by
  cases j with
  | null => exact ⟨'n', _, by rw [serializeJSON], by decide, by decide, by decide⟩
  | bool b =>
    cases b with
    | true => exact ⟨'t', _, by rw [serializeJSON], by decide, by decide, by decide⟩
    | false => exact ⟨'f', _, by rw [serializeJSON], by decide, by decide, by decide⟩
  | num n =>
    obtain ⟨c, tl, hc, hhead⟩ := numberToString_head n
    refine ⟨c, tl, by rw [serializeJSON, hc], ?_⟩
    rcases hhead with h | h
    · subst h
      exact ⟨by decide, by decide, by decide⟩
    · have hd := isDigit_not_whitespace c h
      exact ⟨hd.1, hd.2.1, hd.2.2.1⟩
  | str s =>
    exact ⟨'"', _, by rw [serializeJSON, quoteJSONString], by decide, by decide, by decide⟩
  | arr items =>
    cases items with
    | nil => exact ⟨'[', _, by rw [serializeJSON], by decide, by decide, by decide⟩
    | cons item items => exact ⟨'[', _, by rw [serializeJSON], by decide, by decide, by decide⟩
  | obj fields =>
    cases fields with
    | nil => exact ⟨'{', _, by rw [serializeJSON], by decide, by decide, by decide⟩
    | cons field fields =>
      obtain ⟨key, value⟩ := field
      exact ⟨'{', _, by rw [serializeJSON], by decide, by decide, by decide⟩

theorem skipWhitespace_serializeJSON (indent : Nat) (j : Json) (rest : List Char) :
    skipWhitespace (serializeJSON indent j ++ rest) = serializeJSON indent j ++ rest := by
  obtain ⟨c, tl, hc, hws, _, _⟩ := serializeJSON_head indent j
  rw [hc, List.cons_append]
  exact skipWhitespace_of_head c _ hws

theorem mk_toList_eq (s : String) : String.mk s.toList = s := rfl

/-- What follows the text of an item, inside an array or an object, starts
with a comma or a line break. -/
theorem head_serializeMoreItems (indent : Nat) (items : List Json) (tail : List Char) (c : Char)
    (h : (serializeMoreItems indent items ++ '\n' :: tail).head? = some c) :
    c = ',' ∨ c = '\n' := by
  cases items with
  | nil =>
    rw [serializeMoreItems] at h
    simp only [List.nil_append, List.head?_cons, Option.some.injEq] at h
    exact Or.inr h.symm
  | cons item items =>
    rw [serializeMoreItems] at h
    simp only [List.cons_append, List.head?_cons, Option.some.injEq] at h
    exact Or.inl h.symm

theorem head_serializeMoreFields (indent : Nat) (fields : List (String × Json))
    (tail : List Char) (c : Char)
    (h : (serializeMoreFields indent fields ++ '\n' :: tail).head? = some c) :
    c = ',' ∨ c = '\n' := by
  cases fields with
  | nil =>
    rw [serializeMoreFields] at h
    simp only [List.nil_append, List.head?_cons, Option.some.injEq] at h
    exact Or.inr h.symm
  | cons field fields =>
    obtain ⟨key, value⟩ := field
    rw [serializeMoreFields] at h
    simp only [List.cons_append, List.head?_cons, Option.some.injEq] at h
    exact Or.inl h.symm

theorem numberEnd_of_valueEnd (rest : List Char)
    (hrest : ∀ c, rest.head? = some c → c = ',' ∨ c = '\n') :
    ∀ c, rest.head? = some c → isDigit c = false ∧ c ≠ '.' ∧ c ≠ 'e' ∧ c ≠ 'E' := by
  intro c hc
  rcases hrest c hc with h | h
  · subst h
    exact ⟨by decide, by decide, by decide, by decide⟩
  · subst h
    exact ⟨by decide, by decide, by decide, by decide⟩

/-- Reading a number at the head of the input is what reading a value does
when the input starts with a minus sign or a digit. -/
theorem parseValue_number (fuel : Nat) (c : Char) (tl : List Char)
    (h : c = '-' ∨ isDigit c = true) :
    parseValue (fuel + 1) (c :: tl) = parseNumber (c :: tl) := by
  have hne : c ≠ 'n' ∧ c ≠ 't' ∧ c ≠ 'f' ∧ c ≠ '"' ∧ c ≠ '[' ∧ c ≠ '{' := by
    rcases h with h | h
    · subst h
      exact ⟨by decide, by decide, by decide, by decide, by decide, by decide⟩
    · have hd := isDigit_not_whitespace c h
      exact ⟨hd.2.2.2.2.2.2.2.1, hd.2.2.2.2.2.2.2.2.1, hd.2.2.2.2.2.2.2.2.2, hd.2.2.2.2.1,
        hd.2.2.2.2.2.1, hd.2.2.2.2.2.2.1⟩
  rw [parseValue]
  simp [hne.1, hne.2.1, hne.2.2.1, hne.2.2.2.1, hne.2.2.2.2.1, hne.2.2.2.2.2]

/-- Reading the text of a document gives the document back, with what follows
the text: for a value, for the items of an array and for the properties of an
object, with fuel for every value of the document. -/
theorem parse_serialize (fuel : Nat) :
    (∀ (j : Json) (indent : Nat) (rest : List Char), j.nodes ≤ fuel → j.uniqueNames = true →
        (∀ c, rest.head? = some c → c = ',' ∨ c = '\n') →
        parseValue fuel (serializeJSON indent j ++ rest) = some (j, rest))
    ∧ (∀ (item : Json) (items before : List Json) (indent stepback : Nat) (rest : List Char),
        1 + item.nodes + Json.nodesOfItems items ≤ fuel →
        item.uniqueNames = true → Json.uniqueNamesOfItems items = true →
        parseItems fuel (serializeJSON indent item ++ (serializeMoreItems indent items
            ++ '\n' :: (spaces stepback ++ ']' :: rest))) before
          = some (.arr (before ++ item :: items), rest))
    ∧ (∀ (key : String) (value : Json) (fields before : List (String × Json))
        (indent stepback : Nat) (rest : List Char),
        1 + value.nodes + Json.nodesOfFields fields ≤ fuel →
        value.uniqueNames = true → Json.uniqueNamesOfFields fields = true →
        (JSObject.keys (before ++ (key, value) :: fields)).Nodup →
        parseMembers fuel (quoteJSONString key ++ ':' :: ' ' :: (serializeJSON indent value
            ++ (serializeMoreFields indent fields
              ++ '\n' :: (spaces stepback ++ '}' :: rest)))) before
          = some (.obj (before ++ (key, value) :: fields), rest)) := by
  induction fuel with
  | zero =>
    refine ⟨?_, ?_, ?_⟩
    · intro j indent rest hn
      have := Json.nodes_pos j
      omega
    · intro item items before indent stepback rest hn
      omega
    · intro key value fields before indent stepback rest hn
      omega
  | succ fuel ih =>
    obtain ⟨ihV, ihI, ihM⟩ := ih
    refine ⟨?_, ?_, ?_⟩
    · intro j indent rest hn hu hrest
      cases j with
      | null =>
        rw [serializeJSON]
        simp only [List.cons_append, List.nil_append]
        rw [parseValue]
        simp [dropPrefix]
      | bool b =>
        cases b with
        | true =>
          rw [serializeJSON]
          simp only [List.cons_append, List.nil_append]
          rw [parseValue]
          simp [dropPrefix]
        | false =>
          rw [serializeJSON]
          simp only [List.cons_append, List.nil_append]
          rw [parseValue]
          simp [dropPrefix]
      | num n =>
        obtain ⟨c, tl, hc, hhead⟩ := numberToString_head n
        have htext : serializeJSON indent (.num n) ++ rest = c :: (tl ++ rest) := by
          rw [serializeJSON, hc, List.cons_append]
        rw [htext, parseValue_number fuel c _ hhead, ← List.cons_append, ← hc]
        exact parseNumber_numberToString n rest (numberEnd_of_valueEnd rest hrest)
      | str s =>
        have htext : serializeJSON indent (.str s) ++ rest
            = '"' :: (s.toList.flatMap escapeChar ++ '"' :: rest) := by
          rw [serializeJSON, quoteJSONString]
          simp
        rw [htext, parseValue]
        simp only [Char.reduceEq, if_false, if_true]
        rw [parseString_quote s rest]
        rfl
      | arr items =>
        cases items with
        | nil =>
          rw [serializeJSON]
          simp only [List.cons_append, List.nil_append]
          rw [parseValue]
          simp [skipWhitespace, isWhitespace]
        | cons item items =>
          have hn' : 1 + item.nodes + Json.nodesOfItems items ≤ fuel := by
            simp only [Json.nodes, Json.nodesOfItems] at hn
            omega
          have hu' : item.uniqueNames = true ∧ Json.uniqueNamesOfItems items = true := by
            simpa [Json.uniqueNames, Json.uniqueNamesOfItems] using hu
          have htext : serializeJSON indent (.arr (item :: items)) ++ rest
              = '[' :: '\n' :: (spaces (indent + 2) ++ (serializeJSON (indent + 2) item
                  ++ (serializeMoreItems (indent + 2) items
                    ++ '\n' :: (spaces indent ++ ']' :: rest)))) := by
            rw [serializeJSON]
            simp [List.append_assoc]
          obtain ⟨c, tl, hc, _, hb, _⟩ := serializeJSON_head (indent + 2) item
          have hitems := ihI item items [] (indent + 2) indent rest hn' hu'.1 hu'.2
          rw [htext, parseValue]
          simp only [Char.reduceEq, if_false, if_true]
          rw [skipWhitespace_newline, skipWhitespace_serializeJSON]
          rw [hc, List.cons_append] at hitems ⊢
          simp only [hb, if_false]
          exact hitems
      | obj fields =>
        cases fields with
        | nil =>
          rw [serializeJSON]
          simp only [List.cons_append, List.nil_append]
          rw [parseValue]
          simp [skipWhitespace, isWhitespace]
        | cons field fields =>
          obtain ⟨key, value⟩ := field
          have hn' : 1 + value.nodes + Json.nodesOfFields fields ≤ fuel := by
            simp only [Json.nodes, Json.nodesOfFields] at hn
            omega
          have hu' : (JSObject.keys ((key, value) :: fields)).Nodup
              ∧ value.uniqueNames = true ∧ Json.uniqueNamesOfFields fields = true := by
            simpa [Json.uniqueNames, Json.uniqueNamesOfFields, and_assoc] using hu
          have htext : serializeJSON indent (.obj ((key, value) :: fields)) ++ rest
              = '{' :: '\n' :: (spaces (indent + 2) ++ (quoteJSONString key
                  ++ ':' :: ' ' :: (serializeJSON (indent + 2) value
                  ++ (serializeMoreFields (indent + 2) fields
                    ++ '\n' :: (spaces indent ++ '}' :: rest))))) := by
            rw [serializeJSON]
            simp [List.append_assoc]
          have hmembers := ihM key value fields [] (indent + 2) indent rest hn' hu'.2.1 hu'.2.2
            (by simpa using hu'.1)
          rw [htext, parseValue]
          simp only [Char.reduceEq, if_false, if_true]
          rw [skipWhitespace_newline]
          rw [quoteJSONString, List.cons_append] at hmembers ⊢
          rw [skipWhitespace_of_head '"' _ (by decide)]
          simp only [Char.reduceEq, if_false]
          exact hmembers
    · intro item items before indent stepback rest hn hu hus
      have hpos := Json.nodes_pos item
      rw [parseItems]
      rw [ihV item indent _ (by omega) hu
        (fun c hc => head_serializeMoreItems indent items _ c hc)]
      simp only
      cases items with
      | nil =>
        rw [serializeMoreItems]
        simp only [List.nil_append]
        rw [skipWhitespace_newline, skipWhitespace_of_head ']' rest (by decide)]
        simp
      | cons next items =>
        have hn' : 1 + next.nodes + Json.nodesOfItems items ≤ fuel := by
          simp only [Json.nodesOfItems] at hn
          omega
        have hu' : next.uniqueNames = true ∧ Json.uniqueNamesOfItems items = true := by
          simpa [Json.uniqueNamesOfItems] using hus
        have hnext := ihI next items (before ++ [item]) indent stepback rest hn' hu'.1 hu'.2
        rw [serializeMoreItems]
        simp only [List.cons_append, List.append_assoc]
        rw [skipWhitespace_of_head ',' _ (by decide)]
        simp only [if_true]
        rw [skipWhitespace_newline, skipWhitespace_serializeJSON, hnext]
        simp
    · intro key value fields before indent stepback rest hn hu hus hnodup
      have hpos := Json.nodes_pos value
      have hkey : key ∉ JSObject.keys before := by
        intro hmem
        simp only [JSObject.keys, List.map_append, List.map_cons] at hnodup
        have hdisj := (List.nodup_append.mp hnodup).2.2
        exact hdisj hmem (List.mem_cons_self _ _)
      have hset : JSObject.set before (String.mk key.toList) value = before ++ [(key, value)] := by
        rw [mk_toList_eq]
        exact JSObject.set_of_not_mem before key value hkey
      rw [quoteJSONString, List.cons_append, parseMembers]
      simp only [if_true, List.append_assoc, List.cons_append, List.nil_append]
      rw [parseString_quote key]
      simp only
      rw [skipWhitespace_of_head ':' _ (by decide)]
      simp only [if_true]
      have hspace : skipWhitespace (' ' :: (serializeJSON indent value
          ++ (serializeMoreFields indent fields ++ '\n' :: (spaces stepback ++ '}' :: rest))))
          = serializeJSON indent value
          ++ (serializeMoreFields indent fields ++ '\n' :: (spaces stepback ++ '}' :: rest)) := by
        have hws : isWhitespace ' ' = true := by decide
        simp only [skipWhitespace, hws, if_true]
        exact skipWhitespace_serializeJSON indent value _
      rw [hspace]
      rw [ihV value indent _ (by omega) hu
        (fun c hc => head_serializeMoreFields indent fields _ c hc)]
      simp only
      cases fields with
      | nil =>
        rw [serializeMoreFields]
        simp only [List.nil_append]
        rw [skipWhitespace_newline, skipWhitespace_of_head '}' rest (by decide)]
        simp only [Char.reduceEq, if_false, if_true]
        rw [hset]
      | cons next fields =>
        obtain ⟨nextKey, nextValue⟩ := next
        have hn' : 1 + nextValue.nodes + Json.nodesOfFields fields ≤ fuel := by
          simp only [Json.nodesOfFields] at hn
          omega
        have hu' : nextValue.uniqueNames = true ∧ Json.uniqueNamesOfFields fields = true := by
          simpa [Json.uniqueNamesOfFields] using hus
        have hnext := ihM nextKey nextValue fields (before ++ [(key, value)]) indent stepback
          rest hn' hu'.1 hu'.2 (by simpa using hnodup)
        rw [serializeMoreFields]
        simp only [List.cons_append, List.append_assoc]
        rw [skipWhitespace_of_head ',' _ (by decide)]
        simp only [if_true]
        rw [skipWhitespace_newline]
        rw [quoteJSONString, List.cons_append] at hnext ⊢
        rw [skipWhitespace_of_head '"' _ (by decide), hset]
        simp only [List.append_assoc, List.cons_append, List.nil_append] at hnext ⊢
        exact hnext

theorem length_spaces (width : Nat) : (spaces width).length = width := by
  simp [spaces]

/-- A document has no more values than its text has characters. -/
theorem nodes_le_length (bound : Nat) :
    (∀ (j : Json) (indent : Nat), j.nodes ≤ bound →
        j.nodes ≤ (serializeJSON indent j).length)
    ∧ (∀ (items : List Json) (indent : Nat), Json.nodesOfItems items ≤ bound →
        Json.nodesOfItems items ≤ (serializeMoreItems indent items).length)
    ∧ (∀ (fields : List (String × Json)) (indent : Nat), Json.nodesOfFields fields ≤ bound →
        Json.nodesOfFields fields ≤ (serializeMoreFields indent fields).length) := by
  induction bound with
  | zero =>
    refine ⟨?_, ?_, ?_⟩
    · intro j indent hn
      have := Json.nodes_pos j
      omega
    · intro items indent hn
      omega
    · intro fields indent hn
      omega
  | succ bound ih =>
    obtain ⟨ihV, ihI, ihM⟩ := ih
    have hpos : ∀ (j : Json) (indent : Nat), 1 ≤ (serializeJSON indent j).length := by
      intro j indent
      obtain ⟨c, tl, hc, _⟩ := serializeJSON_head indent j
      rw [hc]
      simp
    refine ⟨?_, ?_, ?_⟩
    · intro j indent hn
      cases j with
      | null => simpa [Json.nodes] using hpos .null indent
      | bool b => simpa [Json.nodes] using hpos (.bool b) indent
      | num n => simpa [Json.nodes] using hpos (.num n) indent
      | str s => simpa [Json.nodes] using hpos (.str s) indent
      | arr items =>
        cases items with
        | nil => simp [Json.nodes, Json.nodesOfItems, serializeJSON]
        | cons item items =>
          simp only [Json.nodes, Json.nodesOfItems] at hn ⊢
          have h1 := ihV item (indent + 2) (by omega)
          have h2 := ihI items (indent + 2) (by omega)
          rw [serializeJSON]
          simp only [List.length_cons, List.length_append, length_spaces, List.length_nil]
          omega
      | obj fields =>
        cases fields with
        | nil => simp [Json.nodes, Json.nodesOfFields, serializeJSON]
        | cons field fields =>
          obtain ⟨key, value⟩ := field
          simp only [Json.nodes, Json.nodesOfFields] at hn ⊢
          have h1 := ihV value (indent + 2) (by omega)
          have h2 := ihM fields (indent + 2) (by omega)
          rw [serializeJSON]
          simp only [List.length_cons, List.length_append, length_spaces, List.length_nil]
          omega
    · intro items indent hn
      cases items with
      | nil => simp [Json.nodesOfItems]
      | cons item items =>
        simp only [Json.nodesOfItems] at hn ⊢
        have h1 := ihV item indent (by omega)
        have h2 := ihI items indent (by omega)
        rw [serializeMoreItems]
        simp only [List.length_cons, List.length_append, length_spaces]
        omega
    · intro fields indent hn
      cases fields with
      | nil => simp [Json.nodesOfFields]
      | cons field fields =>
        obtain ⟨key, value⟩ := field
        simp only [Json.nodesOfFields] at hn ⊢
        have h1 := ihV value indent (by omega)
        have h2 := ihM fields indent (by omega)
        rw [serializeMoreFields]
        simp only [List.length_cons, List.length_append, length_spaces]
        omega

/-- `JSON.parse` reads back the document that `JSON.stringify` wrote. -/
theorem jsonParse_jsonStringify (document : Json) (hunique : document.uniqueNames = true) :
    jsonParse (jsonStringify document) = .ok document := by
  have hlen : document.nodes ≤ (jsonStringify document).length + 1 := by
    have h := (nodes_le_length document.nodes).1 document 0 le_rfl
    have hl : (jsonStringify document).length = (serializeJSON 0 document).length := rfl
    omega
  have hparse := (parse_serialize ((jsonStringify document).length + 1)).1 document 0 []
    hlen hunique (by simp)
  have htext : (jsonStringify document).toList = serializeJSON 0 document := rfl
  have hskip : skipWhitespace (serializeJSON 0 document) = serializeJSON 0 document := by
    have h := skipWhitespace_serializeJSON 0 document []
    rwa [List.append_nil] at h
  rw [List.append_nil] at hparse
  unfold jsonParse
  rw [htext, hskip, hparse]
  simp [skipWhitespace]

/-! ## Lemmas on the documents of values in memory -/

/-- A document taken into memory is written back as it is. -/
theorem serialize_toValue (bound : Nat) :
    (∀ j : Json, j.nodes ≤ bound → JSValue.serialize (Json.toValue j) = some j)
    ∧ (∀ items : List Json, Json.nodesOfItems items ≤ bound →
        JSValue.serializeItems (Json.toValues items) = items)
    ∧ (∀ fields : List (String × Json), Json.nodesOfFields fields ≤ bound →
        JSValue.serializeFields (Json.toFields fields) = fields) := by
  induction bound with
  | zero =>
    refine ⟨?_, ?_, ?_⟩
    · intro j hn
      have := Json.nodes_pos j
      omega
    · intro items hn
      cases items with
      | nil => rfl
      | cons item items =>
        simp only [Json.nodesOfItems] at hn
        omega
    · intro fields hn
      cases fields with
      | nil => rfl
      | cons field fields =>
        obtain ⟨key, value⟩ := field
        simp only [Json.nodesOfFields] at hn
        omega
  | succ bound ih =>
    obtain ⟨ihV, ihI, ihM⟩ := ih
    refine ⟨?_, ?_, ?_⟩
    · intro j hn
      cases j with
      | null => rfl
      | bool b => rfl
      | num n => rfl
      | str s => rfl
      | arr items =>
        simp only [Json.nodes] at hn
        rw [Json.toValue, JSValue.serialize, ihI items (by omega)]
      | obj fields =>
        simp only [Json.nodes] at hn
        rw [Json.toValue, JSValue.serialize, ihM fields (by omega)]
    · intro items hn
      cases items with
      | nil => rfl
      | cons item items =>
        simp only [Json.nodesOfItems] at hn
        rw [Json.toValues, JSValue.serializeItems, ihV item (by omega), ihI items (by omega)]
    · intro fields hn
      cases fields with
      | nil => rfl
      | cons field fields =>
        obtain ⟨key, value⟩ := field
        simp only [Json.nodesOfFields] at hn
        rw [Json.toFields, JSValue.serializeFields, ihV value (by omega), ihM fields (by omega)]

theorem serializeFields_toFields (fields : List (String × Json)) :
    JSValue.serializeFields (Json.toFields fields) = fields :=
  (serialize_toValue (Json.nodesOfFields fields)).2.2 fields le_rfl

theorem serializeItems_toValues (items : List Json) :
    JSValue.serializeItems (Json.toValues items) = items :=
  (serialize_toValue (Json.nodesOfItems items)).2.1 items le_rfl

/-- The names of the properties written are among the names of the properties
of the object, in their order. -/
theorem keys_serializeFields_sublist (fields : List (String × JSValue)) :
    List.Sublist (JSObject.keys (JSValue.serializeFields fields)) (JSObject.keys fields) := by
  induction fields with
  | nil => simp [JSValue.serializeFields, JSObject.keys]
  | cons field fields ih =>
    obtain ⟨key, value⟩ := field
    rw [JSValue.serializeFields]
    cases JSValue.serialize value with
    | none => exact List.Sublist.cons _ ih
    | some document => exact List.Sublist.cons₂ _ ih

/-- The document of a value whose objects have each property name once has
that property too. -/
theorem uniqueNames_serialize (bound : Nat) :
    (∀ (value : JSValue) (document : Json), sizeOf value ≤ bound →
        value.uniqueNames = true → JSValue.serialize value = some document →
        document.uniqueNames = true)
    ∧ (∀ items : List JSValue, sizeOf items ≤ bound →
        JSValue.uniqueNamesOfItems items = true →
        Json.uniqueNamesOfItems (JSValue.serializeItems items) = true)
    ∧ (∀ fields : List (String × JSValue), sizeOf fields ≤ bound →
        JSValue.uniqueNamesOfFields fields = true →
        Json.uniqueNamesOfFields (JSValue.serializeFields fields) = true) := by
  induction bound with
  | zero =>
    refine ⟨?_, ?_, ?_⟩
    · intro value document hn
      cases value <;> simp at hn
    · intro items hn
      cases items with
      | nil => intro _; rfl
      | cons item items => simp at hn
    · intro fields hn
      cases fields with
      | nil => intro _; rfl
      | cons field fields => simp at hn
  | succ bound ih =>
    obtain ⟨ihV, ihI, ihM⟩ := ih
    refine ⟨?_, ?_, ?_⟩
    · intro value document hn hu hs
      cases value with
      | undefined => simp [JSValue.serialize] at hs
      | null =>
        simp only [JSValue.serialize, Option.some.injEq] at hs
        rw [← hs]
        rfl
      | bool b =>
        simp only [JSValue.serialize, Option.some.injEq] at hs
        rw [← hs]
        rfl
      | num n =>
        simp only [JSValue.serialize, Option.some.injEq] at hs
        rw [← hs]
        rfl
      | str s =>
        simp only [JSValue.serialize, Option.some.injEq] at hs
        rw [← hs]
        rfl
      | arr items =>
        simp only [JSValue.serialize, Option.some.injEq] at hs
        simp only [JSValue.arr.sizeOf_spec] at hn
        rw [← hs, Json.uniqueNames]
        apply ihI items (by omega)
        simpa [JSValue.uniqueNames] using hu
      | obj fields =>
        simp only [JSValue.serialize, Option.some.injEq] at hs
        simp only [JSValue.obj.sizeOf_spec] at hn
        simp only [JSValue.uniqueNames, Bool.and_eq_true, decide_eq_true_eq] at hu
        rw [← hs, Json.uniqueNames]
        simp only [Bool.and_eq_true, decide_eq_true_eq]
        exact ⟨(keys_serializeFields_sublist fields).nodup hu.1, ihM fields (by omega) hu.2⟩
    · intro items hn hu
      cases items with
      | nil => rfl
      | cons item items =>
        simp only [List.cons.sizeOf_spec] at hn
        simp only [JSValue.uniqueNamesOfItems, Bool.and_eq_true] at hu
        rw [JSValue.serializeItems, Json.uniqueNamesOfItems]
        simp only [Bool.and_eq_true]
        refine ⟨?_, ihI items (by omega) hu.2⟩
        cases hs : JSValue.serialize item with
        | none => rfl
        | some document => exact ihV item document (by omega) hu.1 hs
    · intro fields hn hu
      cases fields with
      | nil => rfl
      | cons field fields =>
        obtain ⟨key, value⟩ := field
        simp only [List.cons.sizeOf_spec, Prod.mk.sizeOf_spec] at hn
        simp only [JSValue.uniqueNamesOfFields, Bool.and_eq_true] at hu
        rw [JSValue.serializeFields]
        cases hs : JSValue.serialize value with
        | none => exact ihM fields (by omega) hu.2
        | some document =>
          simp only [Json.uniqueNamesOfFields, Bool.and_eq_true]
          exact ⟨ihV value document (by omega) hu.1 hs, ihM fields (by omega) hu.2⟩

theorem uniqueNames_of_serialize (value : JSValue) (document : Json)
    (hu : value.uniqueNames = true) (hs : JSValue.serialize value = some document) :
    document.uniqueNames = true :=
  (uniqueNames_serialize (sizeOf value)).1 value document le_rfl hu hs

theorem JSObject.mem_values_of_get {α : Type} (o : JSObject α) (k : String) (v : α)
    (h : JSObject.get o k = some v) : v ∈ JSObject.values o := by
  induction o with
  | nil => simp [JSObject.get] at h
  | cons p o ih =>
    obtain ⟨k', v'⟩ := p
    by_cases hk : k' = k
    · simp only [JSObject.get, hk, if_true, Option.some.injEq] at h
      simp [JSObject.values, h]
    · simp only [JSObject.get, hk, if_false] at h
      have := ih h
      simp only [JSObject.values] at this
      simp [JSObject.values, this]

theorem uniqueNames_of_mem_fields (fields : List (String × JSValue))
    (hu : JSValue.uniqueNamesOfFields fields = true) :
    ∀ value ∈ JSObject.values fields, value.uniqueNames = true := by
  induction fields with
  | nil => simp [JSObject.values]
  | cons field fields ih =>
    obtain ⟨key, value⟩ := field
    simp only [JSValue.uniqueNamesOfFields, Bool.and_eq_true] at hu
    intro v hv
    simp only [JSObject.values, List.map_cons, List.mem_cons] at hv
    rcases hv with h | h
    · rw [h]
      exact hu.1
    · exact ih hu.2 v (by simpa [JSObject.values] using h)

theorem uniqueNames_property (fields : JSObject JSValue) (key : String)
    (hnames : ∀ value ∈ JSObject.values fields, value.uniqueNames = true) :
    (JSValue.property fields key).uniqueNames = true := by
  unfold JSValue.property
  cases hget : JSObject.get fields key with
  | none => rfl
  | some value => exact hnames value (JSObject.mem_values_of_get fields key value hget)

theorem uniqueNames_orElse (value fallback : JSValue) (hv : value.uniqueNames = true)
    (hf : fallback.uniqueNames = true) : (value.orElse fallback).uniqueNames = true := by
  unfold JSValue.orElse
  split
  · exact hv
  · exact hf

theorem uniqueNames_optionalLength (value : JSValue) (hv : value.uniqueNames = true) :
    value.optionalLength.uniqueNames = true := by
  cases value with
  | obj fields =>
    simp only [JSValue.uniqueNames, Bool.and_eq_true] at hv
    exact uniqueNames_property fields "length" (uniqueNames_of_mem_fields fields hv.2)
  | undefined => rfl
  | null => rfl
  | bool b => rfl
  | num n => rfl
  | str s => rfl
  | arr items => rfl

/-- The document that `saveSnapshot` writes has each property name once in
every object, when the values of the input have. -/
theorem uniqueNames_snapshotDocument (now : String) (data : JSObject JSValue)
    (hnames : ∀ value ∈ JSObject.values data, value.uniqueNames = true) :
    (snapshotDocument now data).uniqueNames = true := by
  have hprop : ∀ key, (JSValue.property data key).uniqueNames = true :=
    fun key => uniqueNames_property data key hnames
  have hvalue : (JSValue.obj (snapshotOf now data)).uniqueNames = true := by
    have h1 := uniqueNames_orElse _ (.str "json-schema") (hprop "topic") rfl
    have h2 := uniqueNames_orElse _ (.num 0)
      (uniqueNames_optionalLength _ (hprop "repositories")) rfl
    have h3 := uniqueNames_orElse _ (.obj []) (hprop "aggregateStats") rfl
    have h4 := uniqueNames_orElse _ (.arr []) (hprop "repositories") rfl
    have h5 := uniqueNames_orElse _ (.obj []) (hprop "topPerLanguage") rfl
    simp only [snapshotOf, snapshotMetadata, JSValue.uniqueNames, JSValue.uniqueNamesOfFields,
      h1, h2, h3, h4, h5,
      Bool.and_true, Bool.true_and, Bool.and_eq_true, decide_eq_true_eq, JSObject.keys,
      List.map_cons, List.map_nil]
    exact ⟨by decide, by decide⟩
  exact uniqueNames_of_serialize (.obj (snapshotOf now data)) (snapshotDocument now data)
    hvalue (by rw [JSValue.serialize]; rfl)

/-- A snapshot saved and loaded back with the codec of the language standard
is the document of the snapshot object. -/
theorem loadSnapshot_saveSnapshot_document (storage : DataStorage) (now : String)
    (fs : FileSystem String) (data : JSObject JSValue) (filename : Option String)
    (hnames : ∀ value ∈ JSObject.values data, value.uniqueNames = true) :
    loadSnapshot standardJSON (saveSnapshot standardJSON storage now fs data filename).2
        (saveSnapshot standardJSON storage now fs data filename).1
      = .ok (snapshotDocument now data) := by
  have hread : readFileSync (saveSnapshot standardJSON storage now fs data filename).2
      (saveSnapshot standardJSON storage now fs data filename).1
      = some (jsonStringify (snapshotDocument now data)) := by
    simp [saveSnapshot, readFileSync, writeFileSync, JSObject.get_set_same, standardJSON]
  rw [loadSnapshot_eq_parse standardJSON _ _ _ hread]
  exact jsonParse_jsonStringify _ (uniqueNames_snapshotDocument now data hnames)
/-! ## The totals of `calculateAggregateStats` -/

/-- The fold leaves `totalRepositories` alone and adds every field, read with
`|| 0`, to its total. -/
theorem foldl_accumulate_totals (repositories : List RepositoryMetric) (stats : AggregateStats) :
    (repositories.foldl accumulate stats).totalRepositories = stats.totalRepositories
    ∧ (repositories.foldl accumulate stats).totalStars
        = stats.totalStars + (repositories.map (fun r => r.stars.getD 0)).sum
    ∧ (repositories.foldl accumulate stats).totalForks
        = stats.totalForks + (repositories.map (fun r => r.forks.getD 0)).sum
    ∧ (repositories.foldl accumulate stats).totalContributors
        = stats.totalContributors + (repositories.map (fun r => r.contributors.getD 0)).sum
    ∧ (repositories.foldl accumulate stats).totalOpenIssues
        = stats.totalOpenIssues + (repositories.map (fun r => r.openIssues.getD 0)).sum
    ∧ (repositories.foldl accumulate stats).totalOpenPRs
        = stats.totalOpenPRs + (repositories.map (fun r => r.openPRs.getD 0)).sum := by
  induction repositories generalizing stats with
  | nil => simp
  | cons repo rest ih =>
    obtain ⟨h0, h1, h2, h3, h4, h5⟩ := ih (accumulate stats repo)
    simp only [List.foldl_cons, List.map_cons, List.sum_cons]
    refine ⟨?_, ?_, ?_, ?_, ?_, ?_⟩
    · rw [h0]; rfl
    · rw [h1]; simp only [accumulate, orZero_eq_getD]; ring
    · rw [h2]; simp only [accumulate, orZero_eq_getD]; ring
    · rw [h3]; simp only [accumulate, orZero_eq_getD]; ring
    · rw [h4]; simp only [accumulate, orZero_eq_getD]; ring
    · rw [h5]; simp only [accumulate, orZero_eq_getD]; ring

/-- C1. For every sequence of repository records, `totalRepositories` of
`calculateAggregateStats` is the length of the sequence, and each of
`totalStars`, `totalForks`, `totalContributors`, `totalOpenIssues` and
`totalOpenPRs` is the sum over all records of the corresponding field, a
missing field counting as 0; a record with missing fields still counts toward
`totalRepositories`. -/
theorem calculateAggregateStats_totals (repositories : List RepositoryMetric) :
    (calculateAggregateStats repositories).totalRepositories = repositories.length
    ∧ (calculateAggregateStats repositories).totalStars
        = (repositories.map (fun r => r.stars.getD 0)).sum
    ∧ (calculateAggregateStats repositories).totalForks
        = (repositories.map (fun r => r.forks.getD 0)).sum
    ∧ (calculateAggregateStats repositories).totalContributors
        = (repositories.map (fun r => r.contributors.getD 0)).sum
    ∧ (calculateAggregateStats repositories).totalOpenIssues
        = (repositories.map (fun r => r.openIssues.getD 0)).sum
    ∧ (calculateAggregateStats repositories).totalOpenPRs
        = (repositories.map (fun r => r.openPRs.getD 0)).sum := by
  have h := foldl_accumulate_totals repositories
    { totalRepositories := repositories.length
      totalStars := 0
      totalForks := 0
      totalContributors := 0
      totalOpenIssues := 0
      totalOpenPRs := 0
      languageDistribution := []
      repositoriesWithReleases := 0
      archivedRepositories := 0 }
  simpa [calculateAggregateStats] using h

/-- C2. The code at one record whose language is the name of a member of
`Object.prototype`. For `__proto__` the read finds the prototype object and the
write of the string is ignored: `languageDistribution` stays empty, so its
values sum to 0, while `totalRepositories` is 1. For `constructor` the read
finds the function `Object`, and the value stored is a string, no number. -/
theorem calculateAggregateStats_inherited_language :
    (calculateAggregateStats [protoRecord]).totalRepositories = 1
    ∧ (calculateAggregateStats [protoRecord]).languageDistribution = []
    ∧ (calculateAggregateStats [constructorRecord]).totalRepositories = 1
    ∧ (calculateAggregateStats [constructorRecord]).languageDistribution
        = [("constructor", .text "function Object() \x7b [native code] \x7d1")] := by
  decide

/-- The language distribution of records whose languages name no inherited
member. The counters are numbers and sum to `totalRepositories`; the counter
of every language is the number of records with that language key, and a
record whose language is `null` or absent has the key "Unknown", so it is
counted there. -/
theorem languageDistribution_sum_of_plain (repositories : List RepositoryMetric)
    (hplain : PlainLanguages repositories) :
    ∃ counts : JSObject Nat,
      (calculateAggregateStats repositories).languageDistribution = numberCounters counts
      ∧ (JSObject.values counts).sum = (calculateAggregateStats repositories).totalRepositories
      ∧ (∀ lang, (JSObject.get counts lang).getD 0
          = repositories.countP (fun r => decide (languageOrUnknown r = lang)))
      ∧ (∀ r ∈ repositories, r.language = none →
          languageOrUnknown r = "Unknown" ∧ 0 < (JSObject.get counts "Unknown").getD 0) := by
  have hget : ∀ lang, (JSObject.get (repositories.foldl countPlain []) lang).getD 0
      = repositories.countP (fun r => decide (languageOrUnknown r = lang)) := by
    intro lang
    rw [foldl_countPlain_get]
    simp [JSObject.get]
  refine ⟨repositories.foldl countPlain [],
    calculateAggregateStats_distribution_of_plain repositories hplain, ?_, hget, ?_⟩
  · rw [(calculateAggregateStats_totals repositories).1, foldl_countPlain_sum]
    simp [JSObject.values]
  · intro r hr hnone
    have hkey := languageOrUnknown_of_none r hnone
    refine ⟨hkey, ?_⟩
    rw [hget]
    exact List.countP_pos_iff.mpr ⟨r, hr, by simp [hkey]⟩
/-! ## The grouping by language -/

/-- C3, as stated, fails for a record whose language is the empty string: the
record is grouped under "Unknown" and the grouping has no group keyed by its
language. -/
theorem groupByLanguage_empty_language :
    emptyLanguageRecord.language = some ""
    ∧ groupByLanguage [emptyLanguageRecord] = .ok [("Unknown", [emptyLanguageRecord])]
    ∧ JSObject.get [("Unknown", [emptyLanguageRecord])] "" = none :=
  ⟨rfl, rfl, rfl⟩

/-- C3, amended. For every sequence of repository records none of whose
language keys is the name of a member of `Object.prototype`, `groupByLanguage`
returns and partitions the sequence by the language key, which is the language
of the record, or "Unknown" when the language is `null`, absent or the empty
string: every language occurs once among the groups, every input record is in
the group of its key and in no other group, no group is empty, and each group
is a permutation of the input records with that key. -/
theorem groupByLanguage_partition (repositories : List RepositoryMetric)
    (hplain : PlainLanguages repositories) :
    ∃ groups, groupByLanguage repositories = .ok groups
      ∧ (JSObject.keys groups).Nodup
      ∧ (∀ r ∈ repositories, ∃ group, (languageOrUnknown r, group) ∈ groups ∧ r ∈ group)
      ∧ (∀ lang group, (lang, group) ∈ groups →
          group ≠ []
          ∧ group.Perm (repositories.filter (fun r => decide (languageOrUnknown r = lang)))
          ∧ ∀ r ∈ group, languageOrUnknown r = lang)
      ∧ (∀ r : RepositoryMetric,
          (r.language = none ∨ r.language = some "" → languageOrUnknown r = "Unknown")
          ∧ ∀ s, r.language = some s → s ≠ "" → languageOrUnknown r = s) := by
  refine ⟨groupPlain repositories, groupByLanguage_of_plain repositories hplain,
    groupPlain_keys_nodup repositories, ?_, ?_, ?_⟩
  · intro r hr
    have hmem : r ∈ repositories.filter
        (fun r' => decide (languageOrUnknown r' = languageOrUnknown r)) :=
      List.mem_filter.mpr ⟨hr, by simp⟩
    have hne : repositories.filter
        (fun r' => decide (languageOrUnknown r' = languageOrUnknown r)) ≠ [] :=
      List.ne_nil_of_mem hmem
    refine ⟨sortByStars (repositories.filter
        (fun r' => decide (languageOrUnknown r' = languageOrUnknown r))), ?_, ?_⟩
    · rw [JSObject.mem_iff_get _ _ _ (groupPlain_keys_nodup repositories),
        groupPlain_get, if_neg hne]
    · exact (sortByStars_perm _).mem_iff.mpr hmem
  · intro lang group h
    obtain ⟨hne, hgroup⟩ := groupPlain_entry repositories lang group h
    have hperm : group.Perm
        (repositories.filter (fun r => decide (languageOrUnknown r = lang))) := by
      rw [hgroup]
      exact sortByStars_perm _
    refine ⟨?_, hperm, ?_⟩
    · intro hnil
      rw [hnil] at hperm
      exact hne hperm.symm.eq_nil
    · intro r hr
      have := (List.mem_filter.mp (hperm.mem_iff.mp hr)).2
      simpa using this
  · intro r
    refine ⟨?_, fun s hs hne => languageOrUnknown_of_some r s hs hne⟩
    rintro (h | h)
    · exact languageOrUnknown_of_none r h
    · simp [languageOrUnknown, h]

/-- The test records have the languages JavaScript, Python and none: their
grouping returns, with every language once. -/
theorem groupByLanguage_partition_witness :
    PlainLanguages testRepos
    ∧ ∃ groups, groupByLanguage testRepos = .ok groups ∧ (JSObject.keys groups).Nodup :=
  ⟨by decide,
   (groupByLanguage_partition testRepos (by decide)).elim
     (fun groups h => ⟨groups, h.1, h.2.1⟩)⟩

/-- C4. For every sequence of repository records whose `stars` are all numbers
and every `topN`, the stars of every group that `groupByLanguage` returns and
of every group that `getTopPerLanguage` returns are non-increasing from first
to last. -/
theorem groups_stars_nonincreasing (repositories : List RepositoryMetric) (topN : Nat)
    (hstars : ∀ r ∈ repositories, ∃ x : Int, r.stars = some x) :
    (∀ groups, groupByLanguage repositories = .ok groups →
        ∀ lang group, (lang, group) ∈ groups → group.Pairwise StarsGE)
    ∧ (∀ top, getTopPerLanguage repositories topN = .ok top →
        ∀ lang group, (lang, group) ∈ top → group.Pairwise StarsGE) := by
  have hgroups : ∀ groups, groupByLanguage repositories = .ok groups →
      ∀ lang group, (lang, group) ∈ groups → group.Pairwise StarsGE := by
    intro groups hok lang group h
    rw [(groupByLanguage_ok repositories groups hok).2] at h
    obtain ⟨_, hgroup⟩ := groupPlain_entry repositories lang group h
    rw [hgroup]
    apply sortByStars_pairwise
    intro r hr
    exact hstars r (List.mem_filter.mp hr).1
  refine ⟨hgroups, ?_⟩
  intro top htop lang group h
  cases hg : groupByLanguage repositories with
  | error e =>
    simp [getTopPerLanguage, hg] at htop
  | ok groups =>
    rw [getTopPerLanguage_of_ok repositories topN groups hg] at htop
    rw [← Except.ok.inj htop] at h
    obtain ⟨entry, hentry, heq⟩ := List.mem_map.mp h
    obtain ⟨lang', group'⟩ := entry
    simp only [Prod.mk.injEq] at heq
    rw [← heq.2]
    exact (hgroups groups hg lang' group' hentry).sublist (List.take_sublist topN group')

/-- In the grouping of the test records, the JavaScript group has 150 stars,
then 100. -/
theorem groups_stars_nonincreasing_witness :
    List.Pairwise StarsGE
      [({ name := some "repo3", language := some "JavaScript", stars := some 150 } :
          RepositoryMetric),
       { name := some "repo1", language := some "JavaScript", stars := some 100 }] :=
  (groups_stars_nonincreasing testRepos 5
    (by
      intro r hr
      simp only [testRepos, List.mem_cons, List.mem_singleton, List.not_mem_nil, or_false] at hr
      rcases hr with h | h | h | h
      · exact ⟨100, by rw [h]⟩
      · exact ⟨200, by rw [h]⟩
      · exact ⟨150, by rw [h]⟩
      · exact ⟨50, by rw [h]⟩)).1 (groupPlain testRepos) rfl "JavaScript"
    [{ name := some "repo3", language := some "JavaScript", stars := some 150 },
     { name := some "repo1", language := some "JavaScript", stars := some 100 }] (by decide)
/-! ## The top records per language and the stability of the grouping -/

/-- C5. For every sequence of repository records and every non-negative
integer `topN` (5 when left out), `getTopPerLanguage` returns when
`groupByLanguage` does, and throws what `groupByLanguage` throws. What it
returns has the language keys of `groupByLanguage`, and each of its groups is
the prefix of length `min topN (size of the group)` of the corresponding group
of `groupByLanguage`: at most `topN` records, and the whole group when it has
no more than `topN`. -/
theorem getTopPerLanguage_take (repositories : List RepositoryMetric) (topN : Nat) :
    (∀ e, groupByLanguage repositories = .error e →
        getTopPerLanguage repositories topN = .error e)
    ∧ (∀ groups, groupByLanguage repositories = .ok groups →
        ∃ top, getTopPerLanguage repositories topN = .ok top
          ∧ JSObject.keys top = JSObject.keys groups
          ∧ (∀ lang, JSObject.get top lang
              = (JSObject.get groups lang).map (fun g => g.take topN))
          ∧ (∀ lang first group, (lang, first) ∈ top → (lang, group) ∈ groups →
              first = group.take (min topN group.length)
              ∧ List.IsPrefix first group
              ∧ first.length = min topN group.length
              ∧ first.length ≤ topN
              ∧ (group.length ≤ topN → first = group)))
    ∧ getTopPerLanguageDefault repositories = getTopPerLanguage repositories 5 := by
  refine ⟨?_, ?_, rfl⟩
  · intro e he
    unfold getTopPerLanguage
    rw [he]
  · intro groups hok
    have hnodup : (JSObject.keys groups).Nodup := by
      rw [(groupByLanguage_ok repositories groups hok).2]
      exact groupPlain_keys_nodup repositories
    have hkeys : JSObject.keys (groups.map (fun entry => (entry.1, entry.2.take topN)))
        = JSObject.keys groups := JSObject.keys_map groups (fun g => g.take topN)
    have hget : ∀ lang,
        JSObject.get (groups.map (fun entry => (entry.1, entry.2.take topN))) lang
          = (JSObject.get groups lang).map (fun g => g.take topN) :=
      fun lang => JSObject.get_map groups (fun g => g.take topN) lang
    refine ⟨groups.map (fun entry => (entry.1, entry.2.take topN)),
      getTopPerLanguage_of_ok repositories topN groups hok, hkeys, hget, ?_⟩
    intro lang first group hfirst hgroup
    rw [JSObject.mem_iff_get _ _ _ (hkeys ▸ hnodup), hget] at hfirst
    rw [JSObject.mem_iff_get _ _ _ hnodup] at hgroup
    rw [hgroup] at hfirst
    have htake : first = group.take topN := (Option.some.inj hfirst).symm
    subst htake
    refine ⟨?_, List.take_prefix topN group, List.length_take topN group, ?_, ?_⟩
    · rcases le_total topN group.length with hle | hle
      · rw [Nat.min_eq_left hle]
      · rw [Nat.min_eq_right hle, List.take_of_length_le hle, List.take_of_length_le le_rfl]
    · rw [List.length_take]
      exact Nat.min_le_left topN group.length
    · intro hle
      exact List.take_of_length_le hle

/-- The top 1 of the test records is returned and holds, for JavaScript, the
record with 150 stars: the first of the two records of the group. -/
theorem getTopPerLanguage_take_witness :
    ∃ top, getTopPerLanguage testRepos 1 = .ok top
      ∧ JSObject.get top "JavaScript"
        = some [{ name := some "repo3", language := some "JavaScript", stars := some 150 }] :=
  ((getTopPerLanguage_take testRepos 1).2.1 (groupPlain testRepos) rfl).elim
    (fun top h => ⟨top, h.1, by rw [h.2.2.1 "JavaScript"]; rfl⟩)

/-- C6. For every sequence of repository records whose `stars` are numbers,
every group that `groupByLanguage` returns keeps the records of one star count
in the order of the input sequence: the records of the group with a given star
count are the input records of that language with that count, in input order,
and two records of the language with equal stars, one before the other in the
input, stand in that order in the group. The group is fixed by the input: it is
the only arrangement of the records of the language with non-increasing stars
that keeps the input order at every star count. -/
theorem groupByLanguage_stable (repositories : List RepositoryMetric)
    (hstars : ∀ r ∈ repositories, ∃ x : Int, r.stars = some x) :
    ∀ groups, groupByLanguage repositories = .ok groups →
    ∀ lang group, (lang, group) ∈ groups →
      (∀ s : Int, group.filter (fun r => decide (r.stars = some s))
        = (repositories.filter (fun r => decide (languageOrUnknown r = lang))).filter
            (fun r => decide (r.stars = some s)))
      ∧ (∀ a b : RepositoryMetric, languageOrUnknown a = lang → languageOrUnknown b = lang →
          a.stars = b.stars → List.Sublist [a, b] repositories → List.Sublist [a, b] group)
      ∧ (∀ other : List RepositoryMetric,
          other.Perm (repositories.filter (fun r => decide (languageOrUnknown r = lang))) →
          other.Pairwise StarsGE →
          (∀ s : Int, other.filter (fun r => decide (r.stars = some s))
            = (repositories.filter (fun r => decide (languageOrUnknown r = lang))).filter
                (fun r => decide (r.stars = some s))) →
          other = group) := by
  intro groups hok lang group h
  rw [(groupByLanguage_ok repositories groups hok).2] at h
  obtain ⟨_, hgroup⟩ := groupPlain_entry repositories lang group h
  subst hgroup
  have hnum : ∀ r ∈ repositories.filter (fun r => decide (languageOrUnknown r = lang)),
      ∃ x : Int, r.stars = some x := fun r hr => hstars r (List.mem_filter.mp hr).1
  refine ⟨fun s => sortByStars_filter_stars _ (some s), ?_, ?_⟩
  · intro a b ha hb hab hsub
    have hfilter := hsub.filter (fun r => decide (languageOrUnknown r = lang))
    have hpair : List.Sublist [a, b]
        (repositories.filter (fun r => decide (languageOrUnknown r = lang))) := by
      simpa [ha, hb] using hfilter
    exact List.pair_sublist_insertionSort (starsOrder_of_stars_eq a b hab) hpair
  · intro other hperm hsorted hfilter
    apply eq_of_pairwise_of_filter_eq
    · exact fun r hr => hnum r (hperm.mem_iff.mp hr)
    · exact fun r hr => hnum r ((sortByStars_perm _).mem_iff.mp hr)
    · exact hsorted
    · exact sortByStars_pairwise _ hnum
    · intro s
      rw [hfilter s, sortByStars_filter_stars]

/-- Among the test records and one more JavaScript record with 150 stars, the
two records with 150 stars stand in the JavaScript group in input order. -/
theorem groupByLanguage_stable_witness :
    List.Sublist
      [({ name := some "repo3", language := some "JavaScript", stars := some 150 } :
          RepositoryMetric),
       { name := some "repo5", language := some "JavaScript", stars := some 150 }]
      [{ name := some "repo3", language := some "JavaScript", stars := some 150 },
       { name := some "repo5", language := some "JavaScript", stars := some 150 },
       { name := some "repo1", language := some "JavaScript", stars := some 100 }] :=
  ((groupByLanguage_stable
      (testRepos ++ [({ name := some "repo5", language := some "JavaScript",
                        stars := some 150 } : RepositoryMetric)])
      (by
        intro r hr
        simp only [testRepos, List.cons_append, List.nil_append, List.mem_cons,
          List.mem_singleton, List.not_mem_nil, or_false] at hr
        rcases hr with h | h | h | h | h
        · exact ⟨100, by rw [h]⟩
        · exact ⟨200, by rw [h]⟩
        · exact ⟨150, by rw [h]⟩
        · exact ⟨50, by rw [h]⟩
        · exact ⟨150, by rw [h]⟩)
      (groupPlain
        (testRepos ++ [({ name := some "repo5", language := some "JavaScript",
                          stars := some 150 } : RepositoryMetric)]))
      rfl
      "JavaScript"
      [{ name := some "repo3", language := some "JavaScript", stars := some 150 },
       { name := some "repo5", language := some "JavaScript", stars := some 150 },
       { name := some "repo1", language := some "JavaScript", stars := some 100 }]
      (by decide)).2.1)
    { name := some "repo3", language := some "JavaScript", stars := some 150 }
    { name := some "repo5", language := some "JavaScript", stars := some 150 }
    (by decide) (by decide) rfl (by decide)
/-! ## The counts derived from the pagination -/

/-- C7. Pagination count with page size 1, for `fetchContributorsCount` and for
each of the two counts of `fetchIssueAndPRCounts`. When the requests of the
method succeed: if the `Link` header of the response holds the last-page marker
`page=P` immediately followed by `>; rel="last"` (the first `rel="last"` of the
header), the derived count is `P`; if the response has no `Link` header, or a
header without `rel="last"`, the derived count is the number of items of the
response body. -/
theorem pagination_count_extraction {ι : Type} (octokit : Octokit ι) (owner repo : String) :
    (∀ response, octokit.listContributors owner repo = .ok response →
      IsPaginationCount response.link response.data.length
        (fetchContributorsCount octokit owner repo))
    ∧ (∀ issuesResponse prsResponse,
        octokit.listIssues owner repo = .ok issuesResponse →
        octokit.listPulls owner repo = .ok prsResponse →
        IsPaginationCount issuesResponse.link issuesResponse.data.length
          (fetchIssueAndPRCounts octokit owner repo).openIssues
        ∧ IsPaginationCount prsResponse.link prsResponse.data.length
          (fetchIssueAndPRCounts octokit owner repo).openPRs) := by
  constructor
  · intro response h
    have hcount : fetchContributorsCount octokit owner repo
        = lastPageOr response.link response.data.length := by
      simp [fetchContributorsCount, h]
    rw [hcount]
    exact lastPageOr_isPaginationCount _ _
  · intro issuesResponse prsResponse hi hp
    have hcounts : fetchIssueAndPRCounts octokit owner repo
        = { openIssues := lastPageOr issuesResponse.link issuesResponse.data.length
            openPRs := lastPageOr prsResponse.link prsResponse.data.length } := by
      simp [fetchIssueAndPRCounts, hi, hp]
    rw [hcounts]
    exact ⟨lastPageOr_isPaginationCount _ _, lastPageOr_isPaginationCount _ _⟩

/-- On the sample interface the contributor listing has the marker `page=515`
before `>; rel="last"`, so the contributor count is 515; the issue listing has
no header and one item, so the count of open issues is 1. -/
theorem pagination_count_extraction_witness :
    fetchContributorsCount sampleOctokit "org" "a" = 515
    ∧ (fetchIssueAndPRCounts sampleOctokitPulls "org" "a").openIssues = 1 :=
  ⟨((pagination_count_extraction sampleOctokit "org" "a").1
      { link := some sampleLink, data := [()] } rfl).1
      sampleLink "<u?page=2>; rel=\"next\", <u?".toList [] 515 rfl (by decide) (by decide),
   ((pagination_count_extraction sampleOctokitPulls "org" "a").2
      { link := none, data := [()] } { link := none, data := [] } rfl rfl).1.2.2.1 rfl⟩

/-- C8. A sub-fetch of an indirect count answers a transport error with its
zero default: `fetchContributorsCount` is 0 when its request fails, and
`fetchIssueAndPRCounts` is (0, 0) when the request for the issues fails and
when the request for the pull requests fails, also after a request for the
issues that succeeded. Both methods return a value for every outcome of their
requests. -/
theorem subfetch_error_default {ι : Type} (octokit : Octokit ι) (owner repo : String) :
    (∀ e, octokit.listContributors owner repo = .error e →
      fetchContributorsCount octokit owner repo = 0)
    ∧ (∀ e, octokit.listIssues owner repo = .error e →
      fetchIssueAndPRCounts octokit owner repo = { openIssues := 0, openPRs := 0 })
    ∧ (∀ e, octokit.listPulls owner repo = .error e →
      fetchIssueAndPRCounts octokit owner repo = { openIssues := 0, openPRs := 0 })
    ∧ (∀ e issuesResponse, octokit.listIssues owner repo = .ok issuesResponse →
      octokit.listPulls owner repo = .error e →
      fetchIssueAndPRCounts octokit owner repo = { openIssues := 0, openPRs := 0 }) := by
  have hpulls : ∀ e, octokit.listPulls owner repo = .error e →
      fetchIssueAndPRCounts octokit owner repo = { openIssues := 0, openPRs := 0 } := by
    intro e h
    unfold fetchIssueAndPRCounts
    cases hi : octokit.listIssues owner repo with
    | error e' => rfl
    | ok issuesResponse => simp [h]
  refine ⟨?_, ?_, hpulls, fun e _ _ h => hpulls e h⟩
  · intro e h
    simp [fetchContributorsCount, h]
  · intro e h
    simp [fetchIssueAndPRCounts, h]

/-- On the sample interface the request for the issues succeeds with one item
and the request for the pull requests fails: both counts are 0. -/
theorem subfetch_error_default_witness :
    fetchIssueAndPRCounts sampleOctokit "org" "a" = { openIssues := 0, openPRs := 0 } :=
  (subfetch_error_default sampleOctokit "org" "a").2.2.2 "timeout"
    { link := none, data := [()] } rfl rfl

/-! ## The crawl over the search results -/

/-- C9, as stated, fails when the `m`-th record comes from the last hit of its
page: the limit is tested at the next hit only, so the crawl requests the next
page first, and when that page fails to load the method throws instead of
returning the record of the first hit. -/
theorem collectTopicRepositories_page_end :
    pageEndOctokit.searchRepos ("topic:" ++ "json-schema")
      = [.ok { link := none
               data := [{ owner := { login := "org" }, name := "a", stargazers_count := 30 }] },
         .error "rate limit exceeded"]
    ∧ (fetchedRecord pageEndOctokit
        { owner := { login := "org" }, name := "a", stargazers_count := 30 }).isSome = true
    ∧ collectTopicRepositories pageEndOctokit "json-schema" 1 = .error "rate limit exceeded" :=
  ⟨rfl, rfl, rfl⟩

/-- C9, amended. For every non-negative limit `m` and every sequence of search
outcomes, `collectTopicRepositories(topic, m)` returns at most `m` records.
The limit is tested before each hit: the crawl stops at the first hit that
follows the `m`-th record, without fetching it and without requesting a later
page. So when the pages up to such a hit load, or all pages load, the result
is the first `m` of the records of the successfully fetched hits, in search
order; over at least `m` hits whose repositories can all be fetched these are
exactly `m` records, those of the first `m` hits, whatever the later hits are.
When no hit of the loaded pages follows `m` records, also when the `m`-th
record is the last hit of its page, the next page is requested, and its
failure leaves the method. -/
theorem collectTopicRepositories_bounded {ι : Type} (octokit : Octokit ι) (topic : String)
    (m : Nat) (pages : List (Response (List SearchHit)))
    (later : List (Except String (Response (List SearchHit))))
    (hsearch : octokit.searchRepos ("topic:" ++ topic) = pages.map .ok ++ later) :
    (∀ result, collectTopicRepositories octokit topic (m : Int) = .ok result → result.length ≤ m)
    ∧ ((later = [] ∨ ∃ before hit after, searchHits pages = before ++ hit :: after
          ∧ m ≤ (before.filterMap (fetchedRecord octokit)).length) →
        collectTopicRepositories octokit topic (m : Int)
            = .ok (((searchHits pages).filterMap (fetchedRecord octokit)).take m)
        ∧ (m ≤ (searchHits pages).length →
            (∀ hit ∈ searchHits pages,
              ∃ response, octokit.getRepo hit.owner.login hit.name = .ok response) →
            collectTopicRepositories octokit topic (m : Int)
                = .ok (((searchHits pages).take m).filterMap (fetchedRecord octokit))
            ∧ (((searchHits pages).take m).filterMap (fetchedRecord octokit)).length = m
            ∧ (((searchHits pages).take m).filterMap (fetchedRecord octokit)).map
                  (fun r => r.repository)
                = ((searchHits pages).take m).map
                  (fun hit => some (hit.owner.login ++ "/" ++ hit.name))))
    ∧ (∀ e rest, later = .error e :: rest →
        (∀ before hit after, searchHits pages = before ++ hit :: after →
          (before.filterMap (fetchedRecord octokit)).length < m) →
        collectTopicRepositories octokit topic (m : Int) = .error e) := by
  refine ⟨?_, ?_, ?_⟩
  · intro result hok
    unfold collectTopicRepositories at hok
    exact crawlPages_length_le octokit m _ [] result (Nat.zero_le m) hok
  · intro hcase
    have hmain : collectTopicRepositories octokit topic (m : Int)
        = .ok (((searchHits pages).filterMap (fetchedRecord octokit)).take m) := by
      unfold collectTopicRepositories
      rw [hsearch]
      rcases hcase with hnil | hstop
      · rw [hnil, List.append_nil]
        have h := crawlPages_bounded octokit m pages [] (Nat.zero_le m)
        simpa using h
      · have h := crawlPages_bounded_stop octokit m pages later [] (Nat.zero_le m)
          (by simpa using hstop)
        simpa using h
    refine ⟨hmain, ?_⟩
    intro hm hall
    have hsome : ∀ hit ∈ searchHits pages, (fetchedRecord octokit hit).isSome = true :=
      fun hit hhit => (fetchedRecord_isSome_iff octokit hit).mpr (hall hit hhit)
    have htake := take_filterMap_of_all (fetchedRecord octokit) (searchHits pages) m hsome
    have hsome' : ∀ hit ∈ (searchHits pages).take m, (fetchedRecord octokit hit).isSome = true :=
      fun hit hhit => hsome hit (List.mem_of_mem_take hhit)
    have hlen := (take_filterMap_of_all (fetchedRecord octokit) ((searchHits pages).take m) m
      hsome').2
    refine ⟨?_, ?_, ?_⟩
    · rw [hmain, htake.1]
    · rw [hlen, List.length_take]
      exact Nat.min_eq_left hm
    · rw [filterMap_fetchedRecord_repository, List.filter_eq_self.mpr hsome']
  · intro e rest hlater hnone
    unfold collectTopicRepositories
    rw [hsearch, hlater]
    have h := crawlPages_bounded_page_end octokit m pages e rest [] (Nat.zero_le m)
      (by simpa using hnone)
    simpa using h

/-- The first page of the sample search has the hits `a`, `gone` and `b`; the
second page fails to load. With the limit 1 the crawl stops at `gone`, which
follows the record of `a`: it returns that record and never requests the page
that fails. -/
theorem collectTopicRepositories_bounded_witness :
    collectTopicRepositories lateFailureOctokit "json-schema" 1
      = .ok (((searchHits (samplePages.take 1)).filterMap
          (fetchedRecord lateFailureOctokit)).take 1) :=
  ((collectTopicRepositories_bounded lateFailureOctokit "json-schema" 1 (samplePages.take 1)
      [.error "rate limit exceeded"] rfl).2.1
    (Or.inr ⟨[{ owner := { login := "org" }, name := "a", stargazers_count := 30 }],
      { owner := { login := "org" }, name := "gone", stargazers_count := 20 },
      [{ owner := { login := "org" }, name := "b", stargazers_count := 10 }],
      rfl, by decide⟩)).1

/-- C10. Without limit (`maxRepos = -1`, the default), for every sequence of
search pages that load and every pattern of repositories that cannot be
fetched, `collectTopicRepositories` returns one record for every hit whose
repository request succeeds, and no other, in search order: a hit that fails
is left out and the crawl goes on. -/
theorem collectTopicRepositories_unbounded {ι : Type} (octokit : Octokit ι) (topic : String)
    (pages : List (Response (List SearchHit)))
    (hsearch : octokit.searchRepos ("topic:" ++ topic) = pages.map .ok) :
    collectTopicRepositories octokit topic (-1)
        = .ok ((searchHits pages).filterMap (fetchedRecord octokit))
    ∧ collectTopicRepositories octokit topic defaultMaxRepos
        = .ok ((searchHits pages).filterMap (fetchedRecord octokit))
    ∧ (∀ hit, (fetchedRecord octokit hit).isSome = true
        ↔ ∃ response, octokit.getRepo hit.owner.login hit.name = .ok response)
    ∧ ((searchHits pages).filterMap (fetchedRecord octokit)).map (fun r => r.repository)
        = ((searchHits pages).filter (fun hit => (fetchedRecord octokit hit).isSome)).map
            (fun hit => some (hit.owner.login ++ "/" ++ hit.name)) := by
  have hmain : collectTopicRepositories octokit topic (-1)
      = .ok ((searchHits pages).filterMap (fetchedRecord octokit)) := by
    unfold collectTopicRepositories
    rw [hsearch]
    have h := crawlPages_unbounded octokit pages [] 0
    simpa using h
  exact ⟨hmain, hmain, fetchedRecord_isSome_iff octokit,
    filterMap_fetchedRecord_repository octokit (searchHits pages)⟩

/-- Without limit the crawl of the sample search returns the records of the
hits `a`, `b` and `c`, and leaves out `gone`. -/
theorem collectTopicRepositories_unbounded_witness :
    collectTopicRepositories sampleOctokit "json-schema" (-1)
      = .ok ((searchHits samplePages).filterMap (fetchedRecord sampleOctokit)) :=
  (collectTopicRepositories_unbounded sampleOctokit "json-schema" samplePages rfl).1

/-! ## Failures at the boundary of the collector, the place of the page
parameter, and the two views of the aggregator -/

/-- C11, as stated, fails: when the request for a search page fails, the error
leaves `collectTopicRepositories`; no sequence of records is returned. -/
theorem collectTopicRepositories_search_failure :
    collectTopicRepositories failingSearchOctokit "json-schema" (-1)
      = .error "rate limit exceeded" := by
  rfl

/-- C11, amended. No failure of a request made for one repository leaves
`collectTopicRepositories`: whatever the outcomes of the requests for the
repositories and their contributors, issues, pull requests and releases,
`collectTopicRepositories` returns a sequence of records whenever the search
pages load. A failure of a search page is not caught: without limit, and under
a limit that the records fetched before do not reach, the error of the first
page that fails leaves the method. -/
theorem collectTopicRepositories_raises_only_on_search {ι : Type} (octokit : Octokit ι)
    (topic : String) :
    (∀ (maxRepos : Int) (pages : List (Response (List SearchHit))),
        octokit.searchRepos ("topic:" ++ topic) = pages.map .ok →
        ∃ repositories, collectTopicRepositories octokit topic maxRepos = .ok repositories)
    ∧ (∀ (pages : List (Response (List SearchHit))) (e : String)
        (rest : List (Except String (Response (List SearchHit)))),
        octokit.searchRepos ("topic:" ++ topic) = pages.map .ok ++ .error e :: rest →
        collectTopicRepositories octokit topic (-1) = .error e
        ∧ ∀ m : Nat, ((searchHits pages).filterMap (fetchedRecord octokit)).length < m →
            collectTopicRepositories octokit topic (m : Int) = .error e) := by
  constructor
  · intro maxRepos pages hsearch
    unfold collectTopicRepositories
    rw [hsearch]
    exact crawlPages_ok octokit maxRepos pages [] 0
  · intro pages e rest hsearch
    constructor
    · unfold collectTopicRepositories
      rw [hsearch]
      exact crawlPages_unbounded_error octokit pages e rest [] 0
    · intro m hm
      unfold collectTopicRepositories
      rw [hsearch]
      have h := crawlPages_bounded_error octokit m pages e rest [] (by simpa using hm)
      simpa using h

/-- The crawl of the sample interface, whose search pages load and one of
whose repositories cannot be fetched, returns records under the limit 1. -/
theorem collectTopicRepositories_raises_only_on_search_witness :
    ∃ repositories, collectTopicRepositories sampleOctokit "json-schema" 1 = .ok repositories :=
  (collectTopicRepositories_raises_only_on_search sampleOctokit "json-schema").1 1
    samplePages rfl

/-- C19. The code at the header `<u?page=42&per_page=1>; rel="last"`, whose
last page is 42 and whose page parameter is followed by another parameter: the
pattern, which is not anchored at the parameter name, matches inside
`per_page=1`, and the counts of contributors, open issues and open pull
requests derived from the header are 1, not 42. -/
theorem fetchContributorsCount_page_first :
    pageFirstLink = "<u?page=42&per_page=1>; rel=\"last\""
    ∧ matchLastPage pageFirstLink.toList = some "1".toList
    ∧ fetchContributorsCount pageFirstOctokit "org" "a" = 1
    ∧ fetchIssueAndPRCounts pageFirstOctokit "org" "a" = { openIssues := 1, openPRs := 1 } := by
  decide

/-- The counts when the page parameter stands last. For every successful
response with page size 1 whose `Link` header has the `rel="last"` entry first
among its `rel="last"` and whose URL carries `page=P` as the last parameter of
its query string, right before the closing `>; rel="last"`, the count derived
by `fetchContributorsCount` and by `fetchIssueAndPRCounts` is `P`, whatever
parameters stand before `page=P`. -/
theorem lastPage_of_last_parameter {ι : Type} (octokit : Octokit ι) (owner repo : String)
    (url params post : List Char) (P : Nat)
    (hclean : ¬ List.IsInfix relLiteral ('<' :: url ++ '?' :: params)) :
    (∀ response header, octokit.listContributors owner repo = .ok response →
      response.link = some header →
      header.toList = '<' :: url ++ '?' :: params ++ pageLiteral ++ (toString P).toList
        ++ relLastLiteral ++ post →
      fetchContributorsCount octokit owner repo = P)
    ∧ (∀ issuesResponse prsResponse header,
        octokit.listIssues owner repo = .ok issuesResponse →
        octokit.listPulls owner repo = .ok prsResponse →
        header.toList = '<' :: url ++ '?' :: params ++ pageLiteral ++ (toString P).toList
          ++ relLastLiteral ++ post →
        (issuesResponse.link = some header →
          (fetchIssueAndPRCounts octokit owner repo).openIssues = P)
        ∧ (prsResponse.link = some header →
          (fetchIssueAndPRCounts octokit owner repo).openPRs = P)) := by
  constructor
  · intro response header hok hlink hheader
    have hcount : fetchContributorsCount octokit owner repo
        = lastPageOr response.link response.data.length := by
      simp [fetchContributorsCount, hok]
    rw [hcount]
    exact (lastPageOr_isPaginationCount _ _).1 header _ post P hlink hheader hclean
  · intro issuesResponse prsResponse header hi hp hheader
    have hcounts : fetchIssueAndPRCounts octokit owner repo
        = { openIssues := lastPageOr issuesResponse.link issuesResponse.data.length
            openPRs := lastPageOr prsResponse.link prsResponse.data.length } := by
      simp [fetchIssueAndPRCounts, hi, hp]
    rw [hcounts]
    constructor
    · intro hlink
      exact (lastPageOr_isPaginationCount _ _).1 header _ post P hlink hheader hclean
    · intro hlink
      exact (lastPageOr_isPaginationCount _ _).1 header _ post P hlink hheader hclean

/-- On the sample interface the header of the contributor listing ends its
last URL with `page=515`: the contributor count is 515. -/
theorem lastPage_of_last_parameter_witness :
    fetchContributorsCount sampleOctokit "org" "a" = 515 :=
  (lastPage_of_last_parameter sampleOctokit "org" "a"
      "u?page=2>; rel=\"next\", <u".toList [] [] 515 (by decide)).1
    { link := some sampleLink, data := [()] } sampleLink rfl rfl (by decide)

/-- C20. The code at one record whose language is `constructor`, the name of
a member of `Object.prototype`: `languageDistribution` has the key
`constructor` with a string as its value, no count, and `groupByLanguage`
throws a `TypeError`, so there is no grouping to agree with. -/
theorem languageDistribution_constructor_language :
    constructorRecord.language = some "constructor"
    ∧ (calculateAggregateStats [constructorRecord]).languageDistribution
        = [("constructor", .text "function Object() \x7b [native code] \x7d1")]
    ∧ groupByLanguage [constructorRecord] = .error pushTypeError :=
  ⟨rfl, rfl, rfl⟩

/-- The two views of the aggregator on records whose languages name no
inherited member: `groupByLanguage` returns, `languageDistribution` has the
language keys of the grouping, and the counter of every language is the number
of records of its group. -/
theorem languageDistribution_agrees_of_plain (repositories : List RepositoryMetric)
    (hplain : PlainLanguages repositories) :
    ∃ groups, groupByLanguage repositories = .ok groups
      ∧ (∀ lang,
          lang ∈ JSObject.keys (calculateAggregateStats repositories).languageDistribution
            ↔ lang ∈ JSObject.keys groups)
      ∧ (∀ lang, JSObject.get (calculateAggregateStats repositories).languageDistribution lang
          = (JSObject.get groups lang).map (fun group => Counter.number group.length)) := by
  refine ⟨groupPlain repositories, groupByLanguage_of_plain repositories hplain, ?_, ?_⟩
  · intro lang
    rw [calculateAggregateStats_distribution_of_plain repositories hplain]
    unfold numberCounters
    rw [JSObject.keys_map, foldl_countPlain_keys, groupPlain_mem_keys]
    simp [JSObject.keys]
  · intro lang
    rw [calculateAggregateStats_distribution_of_plain repositories hplain]
    unfold numberCounters
    rw [JSObject.get_map, groupPlain_get]
    have hkeys : ∀ lang, lang ∈ JSObject.keys (repositories.foldl countPlain [])
        ↔ ∃ r ∈ repositories, languageOrUnknown r = lang := by
      intro lang
      rw [foldl_countPlain_keys]
      simp [JSObject.keys]
    have hcount : (JSObject.get (repositories.foldl countPlain []) lang).getD 0
        = repositories.countP (fun r => decide (languageOrUnknown r = lang)) := by
      rw [foldl_countPlain_get]
      simp [JSObject.get]
    by_cases hf : repositories.filter (fun r => decide (languageOrUnknown r = lang)) = []
    · rw [if_pos hf]
      simp only [Option.map_none', Option.map_eq_none']
      rw [JSObject.get_eq_none_iff, hkeys]
      rintro ⟨r, hr, hlang⟩
      have : r ∈ repositories.filter (fun r => decide (languageOrUnknown r = lang)) :=
        List.mem_filter.mpr ⟨hr, by simp [hlang]⟩
      rw [hf] at this
      exact List.not_mem_nil r this
    · rw [if_neg hf]
      simp only [Option.map_some']
      have hlen : (sortByStars
          (repositories.filter (fun r => decide (languageOrUnknown r = lang)))).length
          = repositories.countP (fun r => decide (languageOrUnknown r = lang)) := by
        rw [(sortByStars_perm _).length_eq, List.countP_eq_length_filter]
      cases hget : JSObject.get (repositories.foldl countPlain []) lang with
      | none =>
        exfalso
        have hnot := (JSObject.get_eq_none_iff _ _).mp hget
        apply hnot
        rw [hkeys]
        obtain ⟨r, hr⟩ := List.exists_mem_of_ne_nil _ hf
        exact ⟨r, (List.mem_filter.mp hr).1, by simpa using (List.mem_filter.mp hr).2⟩
      | some n =>
        rw [hget] at hcount
        simp only [Option.getD_some] at hcount
        rw [hlen, ← hcount]
        rfl
/-! ## Snapshots: round trip, listing and order -/

/-- C12, as stated, fails for an input without topic: the snapshot loaded back
has the topic "json-schema", which is no topic of the input. It fails too for
an input that holds `undefined`: a repository record with the property `stars`
of value `undefined` comes back without that property. -/
theorem saveSnapshot_default_topic :
    JSObject.get noTopicData "topic" = none
    ∧ loadSnapshot standardJSON
        (saveSnapshot standardJSON testStorage sampleNow [] noTopicData none).2
        (saveSnapshot standardJSON testStorage sampleNow [] noTopicData none).1
      = .ok (.obj
          [("collectedAt", .str sampleNow),
           ("metadata", .obj
             [("topic", .str "json-schema"), ("totalRepositories", .num 1)]),
           ("aggregateStats", .obj [("totalRepositories", .num 1), ("totalStars", .num 100)]),
           ("repositories", .arr [.obj [("name", .str "test-repo"), ("stars", .num 100)]]),
           ("topPerLanguage", .obj [])])
    ∧ JSObject.get undefinedStarsData "repositories"
      = some (.arr [.obj [("name", .str "test-repo"), ("stars", .undefined)]])
    ∧ loadSnapshot standardJSON
        (saveSnapshot standardJSON testStorage sampleNow [] undefinedStarsData none).2
        (saveSnapshot standardJSON testStorage sampleNow [] undefinedStarsData none).1
      = .ok (.obj
          [("collectedAt", .str sampleNow),
           ("metadata", .obj
             [("topic", .str "json-schema"), ("totalRepositories", .num 1)]),
           ("aggregateStats", .obj [("totalRepositories", .num 1)]),
           ("repositories", .arr [.obj [("name", .str "test-repo")]]),
           ("topPerLanguage", .obj [])]) :=
  ⟨rfl,
   loadSnapshot_saveSnapshot_document testStorage sampleNow [] noTopicData none (by decide),
   rfl,
   loadSnapshot_saveSnapshot_document testStorage sampleNow [] undefinedStarsData none
     (by decide)⟩

/-- C12, amended. Snapshot round trip, with `JSON.stringify` and `JSON.parse`
of the language standard: for every input `S` whose `aggregateStats` and
`topPerLanguage` are objects and whose `repositories` is an array,
`loadSnapshot(saveSnapshot(S))` returns the snapshot with the `aggregateStats`,
`repositories` and `topPerLanguage` of `S` as `JSON.stringify` writes them:
those of `S` when they hold no `undefined`, and otherwise without the
properties whose value is `undefined` and with `null` for the array items that
are `undefined`. Its `metadata.totalRepositories` is the length of
`S.repositories`, its `collectedAt` is the instant of the save, and its
`metadata.topic` is the topic of `S` when that is a non-empty string and
"json-schema" when `S` has no topic or the empty one. -/
theorem saveSnapshot_loadSnapshot (storage : DataStorage) (now : String)
    (fs : FileSystem String) (data : JSObject JSValue) (filename : Option String)
    (aggregateStats topPerLanguage : List (String × JSValue)) (repositories : List JSValue)
    (hstats : JSObject.get data "aggregateStats" = some (.obj aggregateStats))
    (hrepos : JSObject.get data "repositories" = some (.arr repositories))
    (htop : JSObject.get data "topPerLanguage" = some (.obj topPerLanguage))
    (hnames : ∀ value ∈ JSObject.values data, value.uniqueNames = true) :
    loadSnapshot standardJSON (saveSnapshot standardJSON storage now fs data filename).2
        (saveSnapshot standardJSON storage now fs data filename).1
      = .ok (.obj
          [("collectedAt", .str now),
           ("metadata", .obj (JSValue.serializeFields (snapshotMetadata data))),
           ("aggregateStats", .obj (JSValue.serializeFields aggregateStats)),
           ("repositories", .arr (JSValue.serializeItems repositories)),
           ("topPerLanguage", .obj (JSValue.serializeFields topPerLanguage))])
    ∧ (∀ documents : List (String × Json), aggregateStats = Json.toFields documents →
        JSValue.serializeFields aggregateStats = documents)
    ∧ (∀ documents : List Json, repositories = Json.toValues documents →
        JSValue.serializeItems repositories = documents)
    ∧ (∀ documents : List (String × Json), topPerLanguage = Json.toFields documents →
        JSValue.serializeFields topPerLanguage = documents)
    ∧ (∀ topic : String, JSObject.get data "topic" = some (.str topic) → topic ≠ "" →
        JSValue.serializeFields (snapshotMetadata data)
          = [("topic", .str topic), ("totalRepositories", .num repositories.length)])
    ∧ (JSObject.get data "topic" = none ∨ JSObject.get data "topic" = some .undefined
          ∨ JSObject.get data "topic" = some (.str "") →
        JSValue.serializeFields (snapshotMetadata data)
          = [("topic", .str "json-schema"),
             ("totalRepositories", .num repositories.length)]) := by
  have hlen : (JSValue.property data "repositories").optionalLength.orElse (.num 0)
      = .num repositories.length := by
    simp only [JSValue.property, hrepos, JSValue.optionalLength, JSValue.orElse, JSValue.truthy]
    by_cases h0 : repositories.length = 0
    · simp [h0]
    · simp [h0]
  refine ⟨?_, ?_, ?_, ?_, ?_, ?_⟩
  · rw [loadSnapshot_saveSnapshot_document storage now fs data filename hnames]
    simp [snapshotDocument, snapshotOf, JSValue.serializeFields, JSValue.serialize,
      JSValue.property, hstats, hrepos, htop, JSValue.orElse, JSValue.truthy]
  · intro documents h
    rw [h, serializeFields_toFields]
  · intro documents h
    rw [h, serializeItems_toValues]
  · intro documents h
    rw [h, serializeFields_toFields]
  · intro topic htopic hne
    simp only [snapshotMetadata, hlen]
    simp [JSValue.property, htopic, JSValue.orElse, JSValue.truthy, hne, JSValue.serializeFields,
      JSValue.serialize]
  · intro h
    simp only [snapshotMetadata, hlen]
    rcases h with h | h | h
    · simp [JSValue.property, h, JSValue.orElse, JSValue.truthy, JSValue.serializeFields,
        JSValue.serialize]
    · simp [JSValue.property, h, JSValue.orElse, JSValue.truthy, JSValue.serializeFields,
        JSValue.serialize]
    · simp [JSValue.property, h, JSValue.orElse, JSValue.truthy, JSValue.serializeFields,
        JSValue.serialize]

/-- The input of the unit test, saved and loaded back through JSON text. -/
theorem saveSnapshot_loadSnapshot_witness :
    loadSnapshot standardJSON (saveSnapshot standardJSON testStorage sampleNow [] testData none).2
        (saveSnapshot standardJSON testStorage sampleNow [] testData none).1
      = .ok (.obj
          [("collectedAt", .str sampleNow),
           ("metadata", .obj
             [("topic", .str "json-schema"), ("totalRepositories", .num 1)]),
           ("aggregateStats", .obj [("totalRepositories", .num 1), ("totalStars", .num 100)]),
           ("repositories", .arr [.obj [("name", .str "test-repo"), ("stars", .num 100)]]),
           ("topPerLanguage", .obj [])]) :=
  (saveSnapshot_loadSnapshot testStorage sampleNow [] testData none
    [("totalRepositories", .num 1), ("totalStars", .num 100)] []
    [.obj [("name", .str "test-repo"), ("stars", .num 100)]] rfl rfl rfl (by decide)).1

/-- C13. For every content of the file system, `getAllSnapshots` returns the
paths of exactly the files of the data directory whose name is four digits, a
hyphen, two digits, a hyphen, two digits and `.json`, so not `history.json`,
in ascending order of the names, each once when the file system holds every
path once, and the same whatever the order in which the file system lists the
files; it returns the empty sequence when no file of the directory has such a
name. -/
theorem getAllSnapshots_listing {σ : Type} (storage : DataStorage) (fs : FileSystem σ) :
    getAllSnapshots storage fs
        = (snapshotFiles storage fs).map (fun name => pathJoin storage.dataDir name)
    ∧ (∀ name, name ∈ snapshotFiles storage fs
        ↔ (∃ y1 y2 y3 y4 m1 m2 d1 d2 : Char,
            isDigit y1 = true ∧ isDigit y2 = true ∧ isDigit y3 = true ∧ isDigit y4 = true
            ∧ isDigit m1 = true ∧ isDigit m2 = true ∧ isDigit d1 = true ∧ isDigit d2 = true
            ∧ name.toList = [y1, y2, y3, y4, '-', m1, m2, '-', d1, d2, '.', 'j', 's', 'o', 'n'])
          ∧ existsSync fs (pathJoin storage.dataDir name) = true)
    ∧ isSnapshotName "history.json" = false
    ∧ (snapshotFiles storage fs).Pairwise stringLE
    ∧ ((JSObject.keys fs).Nodup → (getAllSnapshots storage fs).Nodup)
    ∧ (∀ fs' : FileSystem σ, fs'.Perm fs →
        getAllSnapshots storage fs' = getAllSnapshots storage fs)
    ∧ ((∀ name, matchesPattern datePattern name.toList = true →
          existsSync fs (pathJoin storage.dataDir name) = false) →
        getAllSnapshots storage fs = []) := by
  refine ⟨rfl, ?_, by decide, snapshotFiles_sorted storage fs,
    getAllSnapshots_nodup storage fs, ?_, ?_⟩
  · intro name
    rw [mem_snapshotFiles, matchesPattern_date_iff]
  · intro fs' hperm
    unfold getAllSnapshots
    rw [snapshotFiles_perm storage fs fs' hperm]
  · intro hnone
    unfold getAllSnapshots
    have hempty : snapshotFiles storage fs = [] := by
      apply List.eq_nil_iff_forall_not_mem.mpr
      intro name hname
      obtain ⟨hpat, hex⟩ := (mem_snapshotFiles storage fs name).mp hname
      rw [hnone name hpat] at hex
      exact Bool.noConfusion hex
    rw [hempty]
    rfl

/-- The test files listed in the reverse order give the same snapshot paths. -/
theorem getAllSnapshots_listing_witness :
    getAllSnapshots testStorage testFiles.reverse = getAllSnapshots testStorage testFiles :=
  (getAllSnapshots_listing testStorage testFiles).2.2.2.2.2.1 testFiles.reverse
    (List.reverse_perm testFiles)

/-- C14. For any two names of the form `YYYY-MM-DD.json`, the order by which
`getAllSnapshots` sorts the names is the chronological order of the dates:
year, then month, then day, as numbers. Hence the dates of the sequence that
`getAllSnapshots` returns are in ascending chronological order. -/
theorem snapshot_order_chronological {σ : Type} (storage : DataStorage) (fs : FileSystem σ) :
    (∀ a b : String, matchesPattern datePattern a.toList = true →
        matchesPattern datePattern b.toList = true →
        (stringLE a b ↔ chronLE (snapshotDate a) (snapshotDate b)))
    ∧ ((snapshotFiles storage fs).map snapshotDate).Pairwise chronLE
    ∧ (getAllSnapshots storage fs).map pathBasename = snapshotFiles storage fs := by
  refine ⟨stringLE_iff_chronLE, ?_, ?_⟩
  · rw [List.pairwise_map]
    apply List.Pairwise.imp_of_mem ?_ (snapshotFiles_sorted storage fs)
    intro a b ha hb hab
    exact (stringLE_iff_chronLE a b ((mem_snapshotFiles storage fs a).mp ha).1
      ((mem_snapshotFiles storage fs b).mp hb).1).mp hab
  · unfold getAllSnapshots
    rw [List.map_map]
    conv_rhs => rw [← List.map_id (snapshotFiles storage fs)]
    apply List.map_congr_left
    intro name hname
    have hpat := ((mem_snapshotFiles storage fs name).mp hname).1
    simp [pathBasename_pathJoin storage.dataDir name (matchesPattern_date_plain _ hpat).2]

/-- The names `2026-01-10.json` and `2026-01-15.json` are in the order of the
sort exactly when the 10th is not after the 15th. -/
theorem snapshot_order_chronological_witness :
    stringLE "2026-01-10.json" "2026-01-15.json"
      ↔ chronLE (snapshotDate "2026-01-10.json") (snapshotDate "2026-01-15.json") :=
  (snapshot_order_chronological testStorage testFiles).1 "2026-01-10.json" "2026-01-15.json"
    (by decide) (by decide)

/-! ## The historical summary and the latest snapshot -/

/-- C15. When at least one snapshot file exists and every snapshot file holds
a well-formed document, the timeline of `generateHistoricalSummary` has one
entry per snapshot file, in the order of `getAllSnapshots`; the date of an
entry is the name of its file without `.json`, and each of its eight scalar
fields is the same field of the `aggregateStats` of the document when that is
a number, and 0 when the field or `aggregateStats` is missing. The projection
is defined for a document of any shape. -/
theorem generateHistoricalSummary_timeline {σ : Type} (json : JSON σ) (storage : DataStorage)
    (now : String) (fs : FileSystem σ)
    (hfiles : snapshotFiles storage fs ≠ [])
    (hparse : ∀ file ∈ getAllSnapshots storage fs, ∃ document,
      loadSnapshot json fs file = .ok document) :
    ∃ history, generateHistoricalSummary json storage now fs = .ok (some history)
      ∧ history.timeline = (snapshotFiles storage fs).map (fun name =>
          timelineEntry
            { filename := name
              data := loadedDocument json fs (pathJoin storage.dataDir name) })
      ∧ history.timeline.length = (getAllSnapshots storage fs).length
      ∧ history.timeline.map (fun entry => entry.date ++ ".json") = snapshotFiles storage fs
      ∧ (∀ (name : String) (document : Json) (field : String), field ∈ scalarFields →
          (∀ n : Int,
            Json.getProp (Json.getProp (some document) "aggregateStats") field = some (.num n) →
            JSObject.get (timelineEntry { filename := name, data := document }).scalars field
              = some (.num n))
          ∧ (Json.getProp (Json.getProp (some document) "aggregateStats") field = none →
            JSObject.get (timelineEntry { filename := name, data := document }).scalars field
              = some (.num 0))) := by
  obtain ⟨first, rest, hcons⟩ := List.exists_cons_of_ne_nil hfiles
  have hgen := generateHistoricalSummary_of_ok json storage now fs first rest hcons hparse
  refine ⟨_, hgen, ?_, ?_, ?_, ?_⟩
  · rw [hcons]
    simp [historyOf, List.map_map, Function.comp_def]
  · unfold getAllSnapshots
    rw [hcons]
    simp [historyOf]
  · have hdates : ∀ name ∈ snapshotFiles storage fs,
        (timelineEntry
          { filename := name
            data := loadedDocument json fs (pathJoin storage.dataDir name) }).date ++ ".json"
          = name := by
      intro name hname
      exact replaceJson_snapshotName name ((mem_snapshotFiles storage fs name).mp hname).1
    have htimeline : (historyOf now
        { filename := first, data := loadedDocument json fs (pathJoin storage.dataDir first) }
        (rest.map (fun name =>
          { filename := name
            data := loadedDocument json fs (pathJoin storage.dataDir name) }))).timeline
        = (snapshotFiles storage fs).map (fun name =>
            timelineEntry
              { filename := name
                data := loadedDocument json fs (pathJoin storage.dataDir name) }) := by
      rw [hcons]
      simp [historyOf, List.map_map, Function.comp_def]
    rw [htimeline, List.map_map]
    conv_rhs => rw [← List.map_id (snapshotFiles storage fs)]
    apply List.map_congr_left
    intro name hname
    exact hdates name hname
  · intro name document field hfield
    have hscalar := timelineEntry_scalar { filename := name, data := document } field hfield
    constructor
    · intro n hn
      rw [hscalar]
      simp only at hn ⊢
      rw [hn, orDefault_num]
    · intro hnone
      rw [hscalar]
      simp only at hnone ⊢
      rw [hnone]
      rfl

/-- The summary of the test files has three entries, one per snapshot file. -/
theorem generateHistoricalSummary_timeline_witness :
    ∃ history, generateHistoricalSummary sampleJSON testStorage sampleNow testFiles
        = .ok (some history)
      ∧ history.timeline.length = (getAllSnapshots testStorage testFiles).length :=
  (generateHistoricalSummary_timeline sampleJSON testStorage sampleNow testFiles (by decide)
    (fun file _ => loadSnapshot_sampleJSON testFiles file)).imp
    (fun _ h => ⟨h.1, h.2.2.1⟩)

/-- C16. When at least one snapshot file exists and every snapshot file holds
a well-formed document, `generateHistoricalSummary` returns a summary whose
`snapshotCount` is the number of snapshot files and the length of its
timeline, whose `dateRange.start` is the date of the first timeline entry and
of the first, earliest snapshot file, and whose `dateRange.end` is the date of
the last timeline entry and of the last, latest snapshot file; the start is not
after the end. -/
theorem generateHistoricalSummary_range {σ : Type} (json : JSON σ) (storage : DataStorage)
    (now : String) (fs : FileSystem σ)
    (hfiles : snapshotFiles storage fs ≠ [])
    (hparse : ∀ file ∈ getAllSnapshots storage fs, ∃ document,
      loadSnapshot json fs file = .ok document) :
    ∃ history, generateHistoricalSummary json storage now fs = .ok (some history)
      ∧ history.snapshotCount = (getAllSnapshots storage fs).length
      ∧ history.snapshotCount = history.timeline.length
      ∧ history.timeline.head?.map (fun entry => entry.date) = some history.dateRange.start
      ∧ history.timeline.getLast?.map (fun entry => entry.date) = some history.dateRange.finish
      ∧ (snapshotFiles storage fs).head? = some (history.dateRange.start ++ ".json")
      ∧ (snapshotFiles storage fs).getLast? = some (history.dateRange.finish ++ ".json")
      ∧ (∀ name ∈ snapshotFiles storage fs,
          chronLE (snapshotDate (history.dateRange.start ++ ".json")) (snapshotDate name)
          ∧ chronLE (snapshotDate name) (snapshotDate (history.dateRange.finish ++ ".json")))
      ∧ chronLE (snapshotDate (history.dateRange.start ++ ".json"))
          (snapshotDate (history.dateRange.finish ++ ".json")) := by
  obtain ⟨first, rest, hcons⟩ := List.exists_cons_of_ne_nil hfiles
  have hgen := generateHistoricalSummary_of_ok json storage now fs first rest hcons hparse
  have hpat : ∀ name ∈ snapshotFiles storage fs,
      matchesPattern datePattern name.toList = true :=
    fun name hname => ((mem_snapshotFiles storage fs name).mp hname).1
  have hsorted := snapshotFiles_sorted storage fs
  have hfirstmem : first ∈ snapshotFiles storage fs := by
    rw [hcons]
    exact List.mem_cons_self first rest
  have hlastmem : (first :: rest).getLast (List.cons_ne_nil first rest)
      ∈ snapshotFiles storage fs := by
    rw [hcons]
    exact List.getLast_mem (List.cons_ne_nil first rest)
  have hstart : replaceJson first ++ ".json" = first :=
    replaceJson_snapshotName first (hpat first hfirstmem)
  have hfinish : replaceJson ((first :: rest).getLast (List.cons_ne_nil first rest)) ++ ".json"
      = (first :: rest).getLast (List.cons_ne_nil first rest) :=
    replaceJson_snapshotName _ (hpat _ hlastmem)
  have hlastLoaded :
      (({ filename := first
          data := loadedDocument json fs (pathJoin storage.dataDir first) } : LoadedSnapshot)
        :: rest.map (fun name =>
          ({ filename := name
             data := loadedDocument json fs (pathJoin storage.dataDir name) } :
            LoadedSnapshot))).getLast (List.cons_ne_nil _ _)
      = { filename := (first :: rest).getLast (List.cons_ne_nil first rest)
          data := loadedDocument json fs
            (pathJoin storage.dataDir
              ((first :: rest).getLast (List.cons_ne_nil first rest))) } := by
    have hmap := List.getLast_map (fun name =>
        ({ filename := name
           data := loadedDocument json fs (pathJoin storage.dataDir name) } : LoadedSnapshot))
      (l := first :: rest) (by simp)
    simpa using hmap
  have hfinishEq : (historyOf now
      { filename := first, data := loadedDocument json fs (pathJoin storage.dataDir first) }
      (rest.map (fun name =>
        { filename := name
          data := loadedDocument json fs (pathJoin storage.dataDir name) }))).dateRange.finish
      = replaceJson ((first :: rest).getLast (List.cons_ne_nil first rest)) := by
    simp only [historyOf]
    rw [hlastLoaded]
  have hmin : ∀ name ∈ snapshotFiles storage fs, stringLE first name := by
    intro name hname
    rw [hcons] at hname hsorted
    rcases List.mem_cons.mp hname with h | h
    · rw [h]
      exact stringLE_refl first
    · exact (List.pairwise_cons.mp hsorted).1 name h
  have hmax : ∀ name ∈ snapshotFiles storage fs,
      stringLE name ((first :: rest).getLast (List.cons_ne_nil first rest)) := by
    intro name hname
    rw [hcons] at hname hsorted
    exact pairwise_getLast stringLE stringLE_refl _ _ hsorted name hname
  refine ⟨_, hgen, ?_, ?_, ?_, ?_, ?_, ?_, ?_, ?_⟩
  · unfold getAllSnapshots
    rw [hcons]
    simp [historyOf]
  · simp [historyOf]
  · simp [historyOf, timelineEntry]
  · rw [hfinishEq]
    have hlastEntry : (historyOf now
        { filename := first, data := loadedDocument json fs (pathJoin storage.dataDir first) }
        (rest.map (fun name =>
          { filename := name
            data := loadedDocument json fs (pathJoin storage.dataDir name) }))).timeline.getLast?
        = some (timelineEntry
            { filename := (first :: rest).getLast (List.cons_ne_nil first rest)
              data := loadedDocument json fs
                (pathJoin storage.dataDir
                  ((first :: rest).getLast (List.cons_ne_nil first rest))) }) := by
      simp only [historyOf]
      rw [List.getLast?_eq_getLast _ (by simp), List.getLast_map (h := by simp), hlastLoaded]
    rw [hlastEntry]
    rfl
  · rw [hcons]
    simp only [historyOf, List.head?_cons]
    rw [hstart]
  · rw [hfinishEq, hfinish, hcons]
    exact List.getLast?_eq_getLast _ (List.cons_ne_nil first rest)
  · intro name hname
    rw [hfinishEq, hfinish]
    simp only [historyOf]
    rw [hstart]
    exact ⟨(stringLE_iff_chronLE _ _ (hpat first hfirstmem) (hpat name hname)).mp
        (hmin name hname),
      (stringLE_iff_chronLE _ _ (hpat name hname) (hpat _ hlastmem)).mp (hmax name hname)⟩
  · rw [hfinishEq, hfinish]
    simp only [historyOf]
    rw [hstart]
    exact (stringLE_iff_chronLE _ _ (hpat first hfirstmem) (hpat _ hlastmem)).mp
      (hmin _ hlastmem)

/-- The summary of the test files counts three snapshots. -/
theorem generateHistoricalSummary_range_witness :
    ∃ history, generateHistoricalSummary sampleJSON testStorage sampleNow testFiles
        = .ok (some history)
      ∧ history.snapshotCount = (getAllSnapshots testStorage testFiles).length :=
  (generateHistoricalSummary_range sampleJSON testStorage sampleNow testFiles (by decide)
    (fun file _ => loadSnapshot_sampleJSON testFiles file)).imp
    (fun _ h => ⟨h.1, h.2.1⟩)

/-- C17. The method `generateHistoricalSummary` returns `null` exactly when the
data directory holds no snapshot file, that is no file with a name of the
pattern; it then raises no error, and it never returns a summary with an empty
timeline. In that case `saveHistoricalSummary` returns `null` too and leaves
the file system as it is. -/
theorem generateHistoricalSummary_absent_iff {σ : Type} (json : JSON σ) (storage : DataStorage)
    (now : String) (fs : FileSystem σ) :
    (generateHistoricalSummary json storage now fs = .ok none
        ↔ getAllSnapshots storage fs = [])
    ∧ (getAllSnapshots storage fs = []
        ↔ ∀ name, matchesPattern datePattern name.toList = true →
            existsSync fs (pathJoin storage.dataDir name) = false)
    ∧ (getAllSnapshots storage fs = [] →
        saveHistoricalSummary json storage now fs = .ok (none, fs))
    ∧ (∀ history, generateHistoricalSummary json storage now fs = .ok (some history) →
        history.timeline ≠ [] ∧ getAllSnapshots storage fs ≠ []) := by
  have hiff : generateHistoricalSummary json storage now fs = .ok none
      ↔ getAllSnapshots storage fs = [] := by
    unfold generateHistoricalSummary loadAllSnapshots
    constructor
    · intro h
      cases hall : getAllSnapshots storage fs with
      | nil => rfl
      | cons file files =>
        exfalso
        rw [hall] at h
        have hne := loadFiles_cons_ne_nil json fs file files
        cases hload : loadFiles json fs (file :: files) with
        | error e => simp [hload] at h
        | ok snapshots =>
          cases snapshots with
          | nil => exact hne hload
          | cons first rest => simp [hload] at h
    · intro h
      rw [h]
      rfl
  refine ⟨hiff, ?_, ?_, ?_⟩
  · unfold getAllSnapshots
    rw [List.map_eq_nil_iff]
    constructor
    · intro hempty name hpat
      cases hex : existsSync fs (pathJoin storage.dataDir name) with
      | false => rfl
      | true =>
        have hmem := (mem_snapshotFiles storage fs name).mpr ⟨hpat, hex⟩
        rw [hempty] at hmem
        exact absurd hmem (List.not_mem_nil name)
    · intro hnone
      apply List.eq_nil_iff_forall_not_mem.mpr
      intro name hname
      obtain ⟨hpat, hex⟩ := (mem_snapshotFiles storage fs name).mp hname
      rw [hnone name hpat] at hex
      exact Bool.noConfusion hex
  · intro hempty
    unfold saveHistoricalSummary
    rw [hiff.mpr hempty]
  · intro history hsome
    constructor
    · unfold generateHistoricalSummary at hsome
      cases hload : loadAllSnapshots json storage fs with
      | error e => simp [hload] at hsome
      | ok snapshots =>
        cases snapshots with
        | nil => simp [hload] at hsome
        | cons first rest =>
          simp only [hload, Except.ok.injEq, Option.some.injEq] at hsome
          rw [← hsome]
          simp [historyOf]
    · intro hempty
      rw [hiff.mpr hempty] at hsome
      simp at hsome

/-- A file system without file of the data directory: no summary is saved and
the file system stays as it is. -/
theorem generateHistoricalSummary_absent_iff_witness :
    saveHistoricalSummary sampleJSON testStorage sampleNow
        [("other/2026-01-20.json", Json.obj [])]
      = .ok (none, [("other/2026-01-20.json", Json.obj [])]) :=
  (generateHistoricalSummary_absent_iff sampleJSON testStorage sampleNow
    [("other/2026-01-20.json", Json.obj [])]).2.2.1 (by decide)

/-- C18. For every content of the file system, `getLatestSnapshot` returns
`null` when the data directory holds no snapshot file, and otherwise the parsed
content of the last file of `getAllSnapshots`, the one with the greatest date.
The result does not depend on the order in which the files were created. -/
theorem getLatestSnapshot_last {σ : Type} (json : JSON σ) (storage : DataStorage)
    (fs : FileSystem σ) :
    (getAllSnapshots storage fs = [] → getLatestSnapshot json storage fs = .ok .null)
    ∧ (∀ last, (snapshotFiles storage fs).getLast? = some last →
        (getAllSnapshots storage fs).getLast? = some (pathJoin storage.dataDir last)
        ∧ (∃ content, readFileSync fs (pathJoin storage.dataDir last) = some content
            ∧ getLatestSnapshot json storage fs = json.parse content)
        ∧ ∀ name ∈ snapshotFiles storage fs,
            stringLE name last ∧ chronLE (snapshotDate name) (snapshotDate last))
    ∧ (∀ fs' : FileSystem σ, fs'.Perm fs → (JSObject.keys fs).Nodup →
        getLatestSnapshot json storage fs' = getLatestSnapshot json storage fs) := by
  refine ⟨?_, ?_, ?_⟩
  · intro hempty
    unfold getLatestSnapshot
    rw [hempty]
    rfl
  · intro last hlast
    have hne : snapshotFiles storage fs ≠ [] := by
      intro h
      rw [h] at hlast
      exact Option.noConfusion hlast
    have hlastEq : (snapshotFiles storage fs).getLast hne = last := by
      rw [List.getLast?_eq_getLast _ hne] at hlast
      exact Option.some.inj hlast
    have hmem : last ∈ snapshotFiles storage fs := by
      rw [← hlastEq]
      exact List.getLast_mem hne
    have hpathLast : (getAllSnapshots storage fs).getLast?
        = some (pathJoin storage.dataDir last) := by
      unfold getAllSnapshots
      rw [List.getLast?_map, hlast]
      rfl
    obtain ⟨hpat, hex⟩ := (mem_snapshotFiles storage fs last).mp hmem
    refine ⟨hpathLast, ?_, ?_⟩
    · cases hread : readFileSync fs (pathJoin storage.dataDir last) with
      | none =>
        exfalso
        unfold existsSync at hex
        unfold readFileSync at hread
        rw [hread] at hex
        exact Bool.noConfusion hex
      | some content =>
        refine ⟨content, rfl, ?_⟩
        unfold getLatestSnapshot
        rw [hpathLast]
        exact loadSnapshot_eq_parse json fs _ content hread
    · intro name hname
      have hle : stringLE name last := by
        rw [← hlastEq]
        exact pairwise_getLast stringLE stringLE_refl _ hne (snapshotFiles_sorted storage fs)
          name hname
      exact ⟨hle, (stringLE_iff_chronLE name last
        ((mem_snapshotFiles storage fs name).mp hname).1 hpat).mp hle⟩
  · intro fs' hperm hnodup
    unfold getLatestSnapshot getAllSnapshots
    rw [snapshotFiles_perm storage fs fs' hperm]
    cases ((snapshotFiles storage fs).map (fun file => pathJoin storage.dataDir file)).getLast?
      with
    | none => rfl
    | some file => exact loadSnapshot_perm json fs fs' file hperm hnodup

/-- Among the test files the last snapshot is the one of `2026-01-15`, whatever
the order of creation. -/
theorem getLatestSnapshot_last_witness :
    (getAllSnapshots testStorage testFiles).getLast? = some (pathJoin "test-data" "2026-01-15.json")
    ∧ getLatestSnapshot sampleJSON testStorage testFiles.reverse
        = getLatestSnapshot sampleJSON testStorage testFiles :=
  ⟨((getLatestSnapshot_last sampleJSON testStorage testFiles).2.1 "2026-01-15.json"
      (by decide)).1,
   (getLatestSnapshot_last sampleJSON testStorage testFiles).2.2 testFiles.reverse
      (List.reverse_perm testFiles) (by decide)⟩

end EcosystemCollector
